import Mathlib

/-!
Shallow embedding of `List<T, Allocator>` from `list.h` and of `StackStorage<N>` and
`StackAllocator<T, N>` from `stackallocator.h`.

* Addresses are natural numbers, `0` is `nullptr`.
* A list object is identified with the address of its `base_node` (the sentinel);
  its `sz` and `alloc` members are stored in the memory under that same address.
* `BaseNode::prev`, `BaseNode::next` and `Node::val` are maps from addresses.
  `val p = none` means that no element is constructed at `p` (sentinel, raw or
  destroyed storage).
* Every call of `NodeTraits::allocate / construct / destroy / deallocate` is
  appended to `Mem.trace`.
* The allocator and the element type are template parameters of the list: what an
  `allocate` + `construct` pair does is an `Outcome` supplied from outside.
* `std::size_t` arithmetic is taken modulo `2 ^ 64`.
* An arena is its buffer address, its capacity `N` and its member `space`;
  `std::align` is taken as the C++ standard specifies it.
* Loops whose termination depends on the shape of the memory take a `fuel` argument
  and return `none` when it runs out; a loop that reads an element through a link
  holding no constructed element has no result either.
-/

namespace ListAlloc

/-- An address; `0` is `nullptr`. -/
abbrev Ptr := Nat

/-- Identity of an allocator instance (for `StackAllocator`: its `storage` pointer). -/
abbrev AllocId := Nat

/-- Number of values of `std::size_t`. -/
def SIZE_MOD : Nat := 2 ^ 64

/-- Calls made on the node allocator through `NodeTraits`. -/
inductive Event where
  | allocate (a : AllocId) (p : Ptr)
  | construct (a : AllocId) (p : Ptr)
  | destroy (a : AllocId) (p : Ptr)
  | deallocate (a : AllocId) (p : Ptr)
  deriving DecidableEq

/-- What one `NodeTraits::allocate(a, 1)` followed by `NodeTraits::construct` does. -/
inductive Outcome where
  /-- Storage `p` is returned and the element is constructed in it. -/
  | built (p : Ptr)
  /-- Storage `p` is returned, the element constructor throws. -/
  | ctorThrows (p : Ptr)
  /-- The call `allocate` throws. -/
  | allocThrows
  deriving DecidableEq

/-- The storage an outcome hands to the caller. -/
def Outcome.storage : Outcome → List Ptr
  | .built p => [p]
  | .ctorThrows p => [p]
  | .allocThrows => []

/-- Whether the outcome is an exception. -/
def Outcome.fails : Outcome → Bool
  | .built _ => false
  | .ctorThrows _ => true
  | .allocThrows => true

/-- The memory: link fields, element field, the members `sz` and `alloc` of list
objects, and the log of allocator calls. -/
structure Mem (T : Type) where
  prev : Ptr → Ptr
  next : Ptr → Ptr
  val : Ptr → Option T
  sz : Ptr → Nat
  alloc : Ptr → AllocId
  trace : List Event

/-- Result of a call that can exit by exception. -/
inductive Res (T : Type) where
  | ok (m : Mem T)
  | threw (m : Mem T)

variable {T : Type}

/-- The memory a call leaves behind, on either exit. -/
def Res.mem : Res T → Mem T
  | .ok m => m
  | .threw m => m

/-- Whether the call returned normally. -/
def Res.isOk : Res T → Bool
  | .ok _ => true
  | .threw _ => false

/-- Assignment `p->prev = q`. -/
def Mem.setPrev (m : Mem T) (p q : Ptr) : Mem T :=
  { m with prev := Function.update m.prev p q }

/-- Assignment `p->next = q`. -/
def Mem.setNext (m : Mem T) (p q : Ptr) : Mem T :=
  { m with next := Function.update m.next p q }

/-- Assignment to the member `sz` of the list at `l`. -/
def Mem.setSz (m : Mem T) (l : Ptr) (n : Nat) : Mem T :=
  { m with sz := Function.update m.sz l n }

/-- Assignment to the member `alloc` of the list at `l`. -/
def Mem.setAlloc (m : Mem T) (l : Ptr) (a : AllocId) : Mem T :=
  { m with alloc := Function.update m.alloc l a }

/-- Append one allocator call to the log. -/
def Mem.log (m : Mem T) (e : Event) : Mem T :=
  { m with trace := m.trace ++ [e] }

/-- The constructor `BaseNode()`: both links become `nullptr`. -/
def Mem.baseInit (m : Mem T) (p : Ptr) : Mem T :=
  { m with prev := Function.update m.prev p 0, next := Function.update m.next p 0 }

/-- A successful `NodeTraits::construct(a, p, v)`: runs `Node(const T&)`, that is
`BaseNode()` and then `val(v)`. -/
def Mem.construct (m : Mem T) (a : AllocId) (p : Ptr) (v : T) : Mem T :=
  { m.baseInit p with val := Function.update m.val p (some v),
                      trace := m.trace ++ [Event.construct a p] }

/-- The call `NodeTraits::destroy(a, p)`: the element at `p` ends its life. -/
def Mem.destroy (m : Mem T) (a : AllocId) (p : Ptr) : Mem T :=
  { m with val := Function.update m.val p none,
           trace := m.trace ++ [Event.destroy a p] }

/-- The increment `++sz`. -/
def incSz (n : Nat) : Nat := (n + 1) % SIZE_MOD

/-- The decrement `--sz`. -/
def decSz (n : Nat) : Nat := (n + SIZE_MOD - 1) % SIZE_MOD

/-- Constructor `List(Allocator alloca)`. -/
def ctor (m : Mem T) (this : Ptr) (alloca : AllocId) : Mem T :=
  let m := m.setAlloc this alloca
  let m := (m.baseInit this).setSz this 0
  let m := m.setPrev this this
  m.setNext this this

/-- Iterator `begin()`. -/
def begin (m : Mem T) (this : Ptr) : Ptr := m.next this

/-- Iterator `end()` (spelled `end_`: `end` is a keyword). -/
def end_ (this : Ptr) : Ptr := this

/-- Member `size()`. -/
def size (m : Mem T) (this : Ptr) : Nat := m.sz this

/-- Member `empty()`. -/
def empty (m : Mem T) (this : Ptr) : Bool := m.sz this == 0

/-- Member `insert(it, val)`. -/
def insert (m : Mem T) (this : Ptr) (it : Ptr) (val : T) (o : Outcome) : Res T :=
  let node := it
  let prev := m.prev node
  let a := m.alloc this
  match o with
  | .allocThrows =>
    -- `new_node` is still `nullptr` in the handler
    .threw (m.log (.deallocate a 0))
  | .ctorThrows p =>
    let m := m.log (.allocate a p)
    let m := m.baseInit p
    .threw (m.log (.deallocate a p))
  | .built p =>
    let m := m.log (.allocate a p)
    let m := m.construct a p val
    let m := m.setPrev p prev
    let m := m.setNext prev p
    let m := m.setNext p node
    let m := m.setPrev node p
    .ok (m.setSz this (incSz (m.sz this)))

/-- Member `erase(it)`. -/
def erase (m : Mem T) (this : Ptr) (it : Ptr) : Mem T :=
  let node := it
  let prev := m.prev node
  let next := m.next node
  let m := m.setNext prev next
  let m := m.setPrev next prev
  let a := m.alloc this
  let m := m.destroy a node
  let m := m.log (.deallocate a node)
  m.setSz this (decSz (m.sz this))

/-- Member `push_back(val)`. -/
def push_back (m : Mem T) (this : Ptr) (val : T) (o : Outcome) : Res T :=
  insert m this (end_ this) val o

/-- Member `push_front(val)`. -/
def push_front (m : Mem T) (this : Ptr) (val : T) (o : Outcome) : Res T :=
  insert m this (begin m this) val o

/-- Member `pop_back()`: `erase(--end())`. -/
def pop_back (m : Mem T) (this : Ptr) : Mem T :=
  erase m this (m.prev (end_ this))

/-- Member `pop_front()`. -/
def pop_front (m : Mem T) (this : Ptr) : Mem T :=
  erase m this (begin m this)

/-- The loop of `clear()`; `node` is the local of that name. -/
def clearLoop (this : Ptr) : Nat → Mem T → Ptr → Option (Mem T)
  | 0, _, _ => none
  | fuel + 1, m, node =>
    if m.sz this > 0 then
      let next := m.next node
      let a := m.alloc this
      let m := m.destroy a node
      let m := m.log (.deallocate a node)
      clearLoop this fuel (m.setSz this (decSz (m.sz this))) next
    else
      some m

/-- Member `clear()`. -/
def clear (fuel : Nat) (m : Mem T) (this : Ptr) : Option (Mem T) :=
  (clearLoop this fuel m (m.next this)).map
    fun m => (m.setPrev this this).setNext this this

/-- Destructor `~List()`. -/
def dtor (this : Ptr) : Nat → Mem T → Option (Mem T)
  | 0, _ => none
  | fuel + 1, m =>
    if empty m this then some m else dtor this fuel (pop_back m this)

/-- The two statements after the loop of a constructor:
`node->next = &base_node; base_node.prev = node;`. -/
def closeRing (m : Mem T) (this node : Ptr) : Mem T :=
  (m.setNext node this).setPrev this node

/-- The loop of the copy constructor `List(const List& other)`: `it` walks `other`,
`node` is the local of that name, `i` counts the nodes requested so far. -/
def copyLoop (this other : Ptr) (ω : Nat → Outcome) (fuel0 : Nat) :
    Nat → Mem T → Nat → Ptr → Ptr → Option (Res T)
  | 0, _, _, _, _ => none
  | fuel + 1, m, i, it, node =>
    if it = end_ other then
      some (.ok (closeRing m this node))
    else
      let a := m.alloc this
      match ω i with
      | .allocThrows =>
        -- thrown outside the `try`; the object is not yet constructed, no destructor runs
        some (.threw m)
      | .ctorThrows p =>
        let m := m.log (.allocate a p)
        let m := m.setNext node p
        match m.val it with
        | none => none
        | some _ =>
          let m := m.baseInit (m.next node)
          let m := m.log (.deallocate a (m.next node))
          (clear fuel0 (closeRing m this node) this).map .threw
      | .built p =>
        let m := m.log (.allocate a p)
        let m := m.setNext node p
        match m.val it with
        | none => none
        | some el =>
          let m := m.construct a (m.next node) el
          let m := m.setPrev (m.next node) node
          let node := m.next node
          let m := m.setSz this (incSz (m.sz this))
          copyLoop this other ω fuel0 fuel m (i + 1) (m.next it) node

/-- Copy constructor `List(const List& other)`; `socc` is
`select_on_container_copy_construction` of the allocator type. -/
def copyCtor (socc : AllocId → AllocId) (fuel : Nat) (m : Mem T) (this other : Ptr)
    (ω : Nat → Outcome) : Option (Res T) :=
  let m := m.setAlloc this (socc (m.alloc other))
  let m := m.baseInit this
  let m := m.setSz this 0
  copyLoop this other ω fuel fuel m 0 (begin m other) this

/-- The loop `for (const auto& el : oth) temp.push_back(el)` of `operator=`. -/
def assignLoop (temp oth : Ptr) (ω : Nat → Outcome) :
    Nat → Mem T → Nat → Ptr → Option (Res T)
  | 0, _, _, _ => none
  | fuel + 1, m, i, it =>
    if it = end_ oth then some (.ok m)
    else
      match m.val it with
      | none => none
      | some el =>
        match push_back m temp el (ω i) with
        | .threw m => some (.threw m)
        | .ok m => assignLoop temp oth ω fuel m (i + 1) (m.next it)

/-- The statements of `operator=` in front of its loop: the allocator is taken over from
`oth` when `pocca`, that is `propagate_on_container_copy_assignment::value`, holds, and
the local list `temp`, at address `temp`, is constructed empty with `alloc`. -/
def assignStart (pocca : Bool) (m : Mem T) (this oth temp : Ptr) : Mem T :=
  let m := if pocca then m.setAlloc this (m.alloc oth) else m
  ctor m temp (m.alloc this)

/-- The statements of `operator=` after its loop: the two `std::swap` of the sentinel
links, the two guarded fix-ups of the neighbours, and the `std::swap` of `sz`. -/
def swapRings (m : Mem T) (this temp : Ptr) : Mem T :=
  let x := m.prev this
  let y := m.prev temp
  let m := (m.setPrev this y).setPrev temp x
  let x := m.next this
  let y := m.next temp
  let m := (m.setNext this y).setNext temp x
  let m :=
    if m.next this ≠ this then
      let m := m.setPrev (m.next this) this
      m.setNext (m.prev this) this
    else m
  let m :=
    if m.next temp ≠ temp then
      let m := m.setPrev (m.next temp) temp
      m.setNext (m.prev temp) temp
    else m
  let x := m.sz this
  let y := m.sz temp
  (m.setSz this y).setSz temp x

/-- Copy assignment `operator=(const List& oth)`. The destructor of `temp` runs on both
exits. -/
def copyAssign (pocca : Bool) (fuel : Nat) (m : Mem T) (this oth temp : Ptr)
    (ω : Nat → Outcome) : Option (Res T) :=
  if this = oth then some (.ok m)
  else
    let m := assignStart pocca m this oth temp
    match assignLoop temp oth ω fuel m 0 (begin m oth) with
    | none => none
    | some (.threw m) => (dtor temp fuel m).map .threw
    | some (.ok m) => (dtor temp fuel (swapRings m this temp)).map .ok

/-- The loop `for (it = begin(); it != end(); ++it)`: the links visited. -/
def forwardFrom (m : Mem T) (this : Ptr) : Nat → Ptr → Option (List Ptr)
  | 0, _ => none
  | fuel + 1, it =>
    if it = end_ this then some []
    else (forwardFrom m this fuel (m.next it)).map (it :: ·)

/-- Links visited from `begin()` to `end()` with `++`. -/
def forward (m : Mem T) (this : Ptr) (fuel : Nat) : Option (List Ptr) :=
  forwardFrom m this fuel (begin m this)

/-- The loop `for (it = end(); it != begin(); ) { --it; visit(it); }`, which is the
traversal from `rbegin()` to `rend()` of `std::reverse_iterator`. -/
def backwardFrom (m : Mem T) (this : Ptr) : Nat → Ptr → Option (List Ptr)
  | 0, _ => none
  | fuel + 1, it =>
    if it = begin m this then some []
    else (backwardFrom m this fuel (m.prev it)).map (m.prev it :: ·)

/-- Links visited from `end()` back to `begin()` with `--`. -/
def backward (m : Mem T) (this : Ptr) (fuel : Nat) : Option (List Ptr) :=
  backwardFrom m this fuel (end_ this)

/-- Elements read through `operator*` on a forward traversal. -/
def forwardElems (m : Mem T) (this : Ptr) (fuel : Nat) : Option (List (Option T)) :=
  (forward m this fuel).map (List.map m.val)

/-- Elements read through `operator*` on a backward traversal. -/
def backwardElems (m : Mem T) (this : Ptr) (fuel : Nat) : Option (List (Option T)) :=
  (backward m this fuel).map (List.map m.val)

/-- The iterator `begin()` advanced `i` times with `++`. -/
def iterAt (m : Mem T) (this : Ptr) (i : Nat) : Ptr :=
  m.next^[i] (begin m this)

/-- The first `size()` links after the sentinel. -/
def nodePtrs (m : Mem T) (this : Ptr) : List Ptr :=
  List.iterate m.next (begin m this) (size m this)

/-- The cells of a list: its sentinel and the first `size()` links after it. -/
def cells (m : Mem T) (this : Ptr) : List Ptr :=
  this :: nodePtrs m this

/-- The elements stored in the first `size()` links after the sentinel. -/
def elems (m : Mem T) (this : Ptr) : List (Option T) :=
  (nodePtrs m this).map m.val

/-- `Seg m a xs b`: `next` leads from `a` through `xs` to `b`, and `prev` leads back. -/
def Seg (m : Mem T) : Ptr → List Ptr → Ptr → Prop
  | a, [], b => m.next a = b ∧ m.prev b = a
  | a, x :: xs, b => m.next a = x ∧ m.prev x = a ∧ Seg m x xs b

instance Seg.decidable (m : Mem T) : (a : Ptr) → (xs : List Ptr) → (b : Ptr) →
    Decidable (Seg m a xs b)
  | a, [], b => inferInstanceAs (Decidable (m.next a = b ∧ m.prev b = a))
  | a, x :: xs, b =>
    have := Seg.decidable m x xs b
    inferInstanceAs (Decidable (m.next a = x ∧ m.prev x = a ∧ Seg m x xs b))

/-- The list at `this` is one ring through its sentinel whose nodes are `nodes`, in
order: the links are consistent, the addresses are pairwise distinct, non-null machine
addresses, and `sz` counts the nodes. -/
structure WF (m : Mem T) (this : Ptr) (nodes : List Ptr) : Prop where
  ring : Seg m this nodes this
  nodup : (this :: nodes).Nodup
  size_eq : m.sz this = nodes.length
  addr : ∀ p ∈ this :: nodes, 0 < p ∧ p < SIZE_MOD

/-- A well-formed list: the ring property holds of the links found after the sentinel. -/
def WellFormed (m : Mem T) (this : Ptr) : Prop :=
  WF m this (nodePtrs m this)

/-- A well-formed list whose element sequence is `xs`. -/
def ListOf (m : Mem T) (this : Ptr) (xs : List T) : Prop :=
  WellFormed m this ∧ elems m this = xs.map some

/-- Storage that the allocator may hand out to the list at `this`: a non-null machine
address that is neither the sentinel nor a node of the list. -/
def Fresh (m : Mem T) (this : Ptr) (p : Ptr) : Prop :=
  0 < p ∧ p < SIZE_MOD ∧ p ≠ this ∧ p ∉ nodePtrs m this

instance Fresh.decidable (m : Mem T) (this p : Ptr) : Decidable (Fresh m this p) :=
  inferInstanceAs (Decidable (0 < p ∧ p < SIZE_MOD ∧ p ≠ this ∧ p ∉ nodePtrs m this))

/-- The list at `l` has in `m'` the links, elements, size and allocator it has in `m`. -/
def SameList (m m' : Mem T) (l : Ptr) : Prop :=
  (∀ x ∈ l :: nodePtrs m l,
    m'.prev x = m.prev x ∧ m'.next x = m.next x ∧ m'.val x = m.val x) ∧
  m'.sz l = m.sz l ∧ m'.alloc l = m.alloc l

/-- A successful mutating call; positions are given as the number of `++` steps from
`begin()`, `p` is the storage the allocator returned. -/
inductive Op (T : Type) where
  | push_back (v : T) (p : Ptr)
  | push_front (v : T) (p : Ptr)
  | insert (i : Nat) (v : T) (p : Ptr)
  | erase (i : Nat)
  | pop_back
  | pop_front

/-- The storage a call obtains from the allocator. -/
def Op.storage : Op T → List Ptr
  | .push_back _ p => [p]
  | .push_front _ p => [p]
  | .insert _ _ p => [p]
  | .erase _ => []
  | .pop_back => []
  | .pop_front => []

/-- Precondition of a call: the position is inside the list (not `end()` for `erase`,
the list is non-empty for the pops) and the storage is fresh. -/
def Op.pre (m : Mem T) (this : Ptr) : Op T → Prop
  | .push_back _ p => Fresh m this p
  | .push_front _ p => Fresh m this p
  | .insert i _ p => i ≤ size m this ∧ Fresh m this p
  | .erase i => i < size m this
  | .pop_back => 0 < size m this
  | .pop_front => 0 < size m this

instance Op.pre.decidable (m : Mem T) (this : Ptr) : (op : Op T) →
    Decidable (Op.pre m this op)
  | .push_back _ p => inferInstanceAs (Decidable (Fresh m this p))
  | .push_front _ p => inferInstanceAs (Decidable (Fresh m this p))
  | .insert i _ p => inferInstanceAs (Decidable (i ≤ size m this ∧ Fresh m this p))
  | .erase i => inferInstanceAs (Decidable (i < size m this))
  | .pop_back => inferInstanceAs (Decidable (0 < size m this))
  | .pop_front => inferInstanceAs (Decidable (0 < size m this))

/-- The memory after a call that returns normally. -/
def Res.toOption : Res T → Option (Mem T)
  | .ok m => some m
  | .threw _ => none

/-- Run one call on the list at `this`. -/
def Op.run (m : Mem T) (this : Ptr) : Op T → Option (Mem T)
  | .push_back v p => (ListAlloc.push_back m this v (.built p)).toOption
  | .push_front v p => (ListAlloc.push_front m this v (.built p)).toOption
  | .insert i v p => (ListAlloc.insert m this (iterAt m this i) v (.built p)).toOption
  | .erase i => some (ListAlloc.erase m this (iterAt m this i))
  | .pop_back => some (ListAlloc.pop_back m this)
  | .pop_front => some (ListAlloc.pop_front m this)

/-- Run a sequence of calls, each within its precondition. -/
def runOps (this : Ptr) : Mem T → List (Op T) → Option (Mem T)
  | m, [] => some m
  | m, op :: ops =>
    if Op.pre m this op then
      match op.run m this with
      | some m => runOps this m ops
      | none => none
    else none

/-- The allocator calls that end the life of the nodes `ps` and hand their storage back,
node by node in the order of `ps`. -/
def releaseEvents (a : AllocId) (ps : List Ptr) : List Event :=
  ps.flatMap fun p => [.destroy a p, .deallocate a p]

/-- The allocator calls that obtain storage for the nodes `ps` and construct an element
in each, node by node in the order of `ps`. -/
def buildEvents (a : AllocId) (ps : List Ptr) : List Event :=
  ps.flatMap fun p => [.allocate a p, .construct a p]

/-- The allocator calls of an `insert` whose outcome is an exception: the storage
obtained, if any, is handed back; when `allocate` itself threw, the handler passes
`nullptr` to `deallocate`. -/
def failEvents (a : AllocId) : Outcome → List Event
  | .built _ => []
  | .ctorThrows p => [.allocate a p, .deallocate a p]
  | .allocThrows => [.deallocate a 0]

/-- An all-zero memory with an empty log. -/
def Mem.zero : Mem T :=
  { prev := fun _ => 0, next := fun _ => 0, val := fun _ => none,
    sz := fun _ => 0, alloc := fun _ => 0, trace := [] }


instance WF.decidable (m : Mem T) (this : Ptr) (nodes : List Ptr) :
    Decidable (WF m this nodes) :=
  decidable_of_iff
    (Seg m this nodes this ∧ (this :: nodes).Nodup ∧ m.sz this = nodes.length ∧
      ∀ p ∈ this :: nodes, 0 < p ∧ p < SIZE_MOD)
    ⟨fun h => ⟨h.1, h.2.1, h.2.2.1, h.2.2.2⟩, fun h => ⟨h.1, h.2, h.3, h.4⟩⟩

instance WellFormed.decidable (m : Mem T) (this : Ptr) : Decidable (WellFormed m this) :=
  inferInstanceAs (Decidable (WF m this (nodePtrs m this)))

instance ListOf.decidable [DecidableEq T] (m : Mem T) (this : Ptr) (xs : List T) :
    Decidable (ListOf m this xs) :=
  inferInstanceAs (Decidable (WellFormed m this ∧ elems m this = xs.map some))

/-- Example memory: the list at address `100` built by `push_back(5)`, `push_back(6)`
into storage `10` and `11`. -/
def exMem : Mem Nat :=
  (runOps 100 (ctor Mem.zero 100 7) [.push_back 5 10, .push_back 6 11]).getD Mem.zero

/-- Example calls: every mutating member once. -/
def exOps : List (Op Nat) :=
  [.push_back 5 10, .push_back 6 11, .push_front 4 12, .insert 1 9 13, .erase 2, .pop_back,
    .pop_front]

/-- Example memory: the list at address `100` after `exOps`. -/
def exMemOps : Mem Nat :=
  (runOps 100 (ctor Mem.zero 100 7) exOps).getD Mem.zero

/-- Example memory: `exMem` and an empty list at address `200`, same allocator `7`. -/
def exTwo : Mem Nat := ctor exMem 200 7

/-- Example memory: `exMem` (allocator `7`) and the list `[1]` at address `200` with
another allocator, `8`. -/
def exOther : Mem Nat :=
  (runOps 200 (ctor exMem 200 8) [.push_back 1 30]).getD Mem.zero

/-- Example run: in `exTwo`, assign the empty list at `200` to the list at `100`; the
local `temp` lives at `300`. -/
def exAssignEmptySrc : Option (Res Nat) :=
  copyAssign false 4 exTwo 100 200 300 (fun i => .built (20 + i))

/-- Example run: in `exTwo`, assign the list at `100` to the empty list at `200`. -/
def exAssignEmptyDst : Option (Res Nat) :=
  copyAssign false 4 exTwo 200 100 300 (fun i => .built (20 + i))

/-- Example run: in `exOther`, assign the list at `200` to the list at `100`; the copy of
the first element throws. `pocca` tells whether the allocator type propagates on copy
assignment. -/
def exAssignThrows (pocca : Bool) : Option (Res Nat) :=
  copyAssign pocca 4 exOther 100 200 300 (fun _ => .ctorThrows 20)


/-- The loop of the constructors `List(n, alloca)` and `List(n, val, alloca)`. The two
bodies differ only in the element that `construct` builds, `T()` or a copy of `val`;
here it is `v`. `r` is the number of rounds still to run, `i` the number of rounds done,
`node` the local of that name.

`allocate` is called outside the `try` block, so when it throws no handler of the
constructor runs. Both constructors delegate to `List(alloca)`, which has completed by
then, so the destructor `~List()` runs when the body exits by an exception
(C++ [except.ctor]); this also holds after the `throw;` of the handler. -/
def bulkLoop (this : Ptr) (v : T) (ω : Nat → Outcome) (fuel : Nat) :
    Nat → Mem T → Nat → Ptr → Option (Res T)
  | 0, m, _, node => some (.ok (closeRing m this node))
  | r + 1, m, i, node =>
    let a := m.alloc this
    match ω i with
    | .allocThrows => (dtor this fuel m).map .threw
    | .ctorThrows p =>
      let m := m.log (.allocate a p)
      let m := m.setNext node p
      let m := m.baseInit (m.next node)
      let m := m.log (.deallocate a (m.next node))
      match clear fuel (closeRing m this node) this with
      | none => none
      | some m => (dtor this fuel m).map .threw
    | .built p =>
      let m := m.log (.allocate a p)
      let m := m.setNext node p
      let m := m.construct a (m.next node) v
      let m := m.setPrev (m.next node) node
      let node := m.next node
      let m := m.setSz this (incSz (m.sz this))
      bulkLoop this v ω fuel r m (i + 1) node

/-- Constructor `List(std::size_t n, Allocator alloca)`; `dflt` is the value-initialised
element `T()`. -/
def ctorN (dflt : T) (fuel : Nat) (m : Mem T) (this : Ptr) (n : Nat) (alloca : AllocId)
    (ω : Nat → Outcome) : Option (Res T) :=
  bulkLoop this dflt ω fuel n (ctor m this alloca) 0 this

/-- Constructor `List(std::size_t n, const T& val, Allocator alloca)`. -/
def ctorNVal (fuel : Nat) (m : Mem T) (this : Ptr) (n : Nat) (val : T) (alloca : AllocId)
    (ω : Nat → Outcome) : Option (Res T) :=
  bulkLoop this val ω fuel n (ctor m this alloca) 0 this

/-- Number of `allocate` calls in a log. -/
def allocations (tr : List Event) : Nat :=
  tr.countP fun e => match e with
    | .allocate _ _ => true
    | _ => false

/-- Number of `deallocate` calls in a log. -/
def deallocations (tr : List Event) : Nat :=
  tr.countP fun e => match e with
    | .deallocate _ _ => true
    | _ => false

/-- Number of `construct` calls in a log that returned normally. -/
def constructions (tr : List Event) : Nat :=
  tr.countP fun e => match e with
    | .construct _ _ => true
    | _ => false

/-- Number of `destroy` calls in a log. -/
def destructions (tr : List Event) : Nat :=
  tr.countP fun e => match e with
    | .destroy _ _ => true
    | _ => false

/-- The addresses passed to `deallocate` in a log, in order. -/
def deallocated (tr : List Event) : List Ptr :=
  tr.filterMap fun e => match e with
    | .deallocate _ p => some p
    | _ => none

/-- The addresses passed to `destroy` in a log, in order. -/
def destroyed (tr : List Event) : List Ptr :=
  tr.filterMap fun e => match e with
    | .destroy _ p => some p
    | _ => none

/-- Example run: `List(2, 9, alloca)` at address `100`; the first node is built in storage
`10`, then `allocate` throws. -/
def exBulkAllocThrows : Option (Res Nat) :=
  ctorNVal 4 Mem.zero 100 2 9 7 (fun i => if i = 0 then .built 10 else .allocThrows)

/-- Example run: `List(2, alloca)` at address `100` with `T() = 0`; the first node is
built in storage `10`, then `allocate` throws. -/
def exBulkDefaultAllocThrows : Option (Res Nat) :=
  ctorN 0 4 Mem.zero 100 2 7 (fun i => if i = 0 then .built 10 else .allocThrows)

/-- Example run: `List(2, 9, alloca)` at address `100`; the first node is built in storage
`10`, then the copy of `val` into storage `11` throws. -/
def exBulkCtorThrows : Option (Res Nat) :=
  ctorNVal 4 Mem.zero 100 2 9 7 (fun i => if i = 0 then .built 10 else .ctorThrows 11)

/-- Example run: copy construction at address `200` from the list `[5, 6]` of `exMem`;
the first node is built in storage `20`, then `allocate` throws. -/
def exCopyAllocThrows : Option (Res Nat) :=
  copyCtor id 4 exMem 200 100 (fun i => if i = 0 then .built 20 else .allocThrows)

/-- Example run: copy construction at address `200` from the list `[5, 6]` of `exMem`;
the first node is built in storage `20`, then the copy of the second element into
storage `21` throws. -/
def exCopyCtorThrows : Option (Res Nat) :=
  copyCtor id 4 exMem 200 100 (fun i => if i = 0 then .built 20 else .ctorThrows 21)


/-! ## The life of a list object -/

/-- A constructor call: `List(alloca)`, `List(n, alloca)` (with `T() = dflt`),
`List(n, val, alloca)` and `List(other)`; `socc` is
`select_on_container_copy_construction` of the allocator type. -/
inductive Build (T : Type) where
  | withAlloc (alloca : AllocId)
  | count (n : Nat) (dflt : T) (alloca : AllocId)
  | countVal (n : Nat) (val : T) (alloca : AllocId)
  | copy (socc : AllocId → AllocId) (other : Ptr)

/-- Run a constructor for the object at `this`. -/
def Build.run (fuel : Nat) (m : Mem T) (this : Ptr) (ω : Nat → Outcome) :
    Build T → Option (Res T)
  | .withAlloc a => some (.ok (ctor m this a))
  | .count n dflt a => ctorN dflt fuel m this n a ω
  | .countVal n val a => ctorNVal fuel m this n val a ω
  | .copy socc other => copyCtor socc fuel m this other ω

/-- Precondition of a constructor call that returns normally: the object lives at a
non-null machine address, the allocator hands out the pairwise distinct non-null storage
`news`, one piece per node, and nothing throws; for the copy constructor the source is a
well-formed list of constructed elements, the new object and the storage are fresh, and
the fuel covers the traversal of the source. -/
def Build.pre (fuel : Nat) (m : Mem T) (this : Ptr) (ω : Nat → Outcome) (news : List Ptr) :
    Build T → Prop
  | .withAlloc _ => (0 < this ∧ this < SIZE_MOD) ∧ news = []
  | .count n _ _ => (0 < this ∧ this < SIZE_MOD) ∧ news.length = n ∧ (this :: news).Nodup ∧
      (∀ x ∈ news, 0 < x ∧ x < SIZE_MOD) ∧ (List.range n).map ω = news.map .built
  | .countVal n _ _ => (0 < this ∧ this < SIZE_MOD) ∧ news.length = n ∧
      (this :: news).Nodup ∧ (∀ x ∈ news, 0 < x ∧ x < SIZE_MOD) ∧
      (List.range n).map ω = news.map .built
  | .copy _ other => WellFormed m other ∧ (∀ x ∈ nodePtrs m other, (m.val x).isSome) ∧
      news.length = size m other ∧ Fresh m other this ∧ (this :: news).Nodup ∧
      (∀ p ∈ news, Fresh m other p) ∧
      (List.range (size m other)).map ω = news.map .built ∧ size m other < fuel

instance Build.pre.decidable (fuel : Nat) (m : Mem T) (this : Ptr) (ω : Nat → Outcome)
    (news : List Ptr) : (b : Build T) → Decidable (Build.pre fuel m this ω news b)
  | .withAlloc _ => inferInstanceAs (Decidable ((0 < this ∧ this < SIZE_MOD) ∧ news = []))
  | .count n _ _ => inferInstanceAs (Decidable ((0 < this ∧ this < SIZE_MOD) ∧
      news.length = n ∧ (this :: news).Nodup ∧
      (∀ x ∈ news, 0 < x ∧ x < SIZE_MOD) ∧ (List.range n).map ω = news.map .built))
  | .countVal n _ _ => inferInstanceAs (Decidable ((0 < this ∧ this < SIZE_MOD) ∧
      news.length = n ∧ (this :: news).Nodup ∧
      (∀ x ∈ news, 0 < x ∧ x < SIZE_MOD) ∧ (List.range n).map ω = news.map .built))
  | .copy _ other => inferInstanceAs (Decidable (WellFormed m other ∧
      (∀ x ∈ nodePtrs m other, (m.val x).isSome) ∧
      news.length = size m other ∧ Fresh m other this ∧ (this :: news).Nodup ∧
      (∀ p ∈ news, Fresh m other p) ∧
      (List.range (size m other)).map ω = news.map .built ∧ size m other < fuel))

/-- A constructor that returns normally, followed by a sequence of mutating calls, each
within its precondition. -/
def Build.thenOps (fuel : Nat) (m : Mem T) (this : Ptr) (ω : Nat → Outcome) (b : Build T)
    (ops : List (Op T)) : Option (Mem T) :=
  match b.run fuel m this ω with
  | some (.ok m1) => runOps this m1 ops
  | _ => none

/-- Example memory: the list at `100` built by `List(2, 9, alloca)` into storage `10`,
`11`, then `push_back(5)` into storage `20` and `pop_front()`. -/
def exLife : Mem Nat :=
  (Build.thenOps 4 Mem.zero 100 (fun i => .built (10 + i)) (.countVal 2 9 7)
    [.push_back 5 20, .pop_front]).getD Mem.zero

/-- Example memory: the copy at `200` of the list `[5, 6]` of `exMem`, built into storage
`20`, `21`, then `pop_back()`. -/
def exLifeCopy : Mem Nat :=
  (Build.thenOps 4 exMem 200 (fun i => .built (20 + i)) (.copy id 100)
    [.pop_back]).getD Mem.zero


/-! ## `stackallocator.h`: the arena -/

/-- `StackStorage<N>`: `data` is the address of the buffer `data[N]`, `N` the template
parameter, `space` the member of that name. -/
structure StackStorage where
  data : Nat
  N : Nat
  space : Nat
  deriving DecidableEq

/-- A default-constructed `StackStorage<N>` whose buffer starts at `data`: `space = N`. -/
def StackStorage.fresh (data N : Nat) : StackStorage := ⟨data, N, N⟩

/-- The address `data + (N - space)` from which the next request is served; the
subtraction is done in `std::size_t`. -/
def StackStorage.cursor (s : StackStorage) : Nat :=
  s.data + (s.N + SIZE_MOD - s.space) % SIZE_MOD

/-- `std::align(alignment, size, ptr, space)` as the C++ standard specifies it
([ptr.align]): when `size` bytes aligned by `alignment` fit into the `space` bytes that
start at `ptr`, the result is the first such address and `space` is decreased by the
bytes used for alignment; otherwise the result is a null pointer and `space` is left as
it is. The result is the pair of the returned pointer (`0` for `nullptr`) and the new
value of `space`. -/
def stdAlign (alignment size ptr space : Nat) : Nat × Nat :=
  let diff := (alignment - ptr % alignment) % alignment
  if diff + size ≤ space then (ptr + diff, space - diff) else (0, space)

/-- `StackStorage::alloc(cnt, align)`: the returned pointer (`0` for `nullptr`) and the
storage afterwards. -/
def StackStorage.alloc (s : StackStorage) (cnt align : Nat) : Nat × StackStorage :=
  let ptr := s.data + (s.N + SIZE_MOD - s.space) % SIZE_MOD
  let space := (s.space + SIZE_MOD - cnt) % SIZE_MOD
  let r := stdAlign align cnt ptr space
  (r.1, { s with space := r.2 })

/-- A sequence of `alloc(cnt, align)` calls on one storage: the pointer each call
returns and the storage after it. -/
def StackStorage.allocs : StackStorage → List (Nat × Nat) → List (Nat × StackStorage)
  | _, [] => []
  | s, (cnt, align) :: reqs =>
    let r := s.alloc cnt align
    r :: StackStorage.allocs r.2 reqs

/-- Every request of the sequence asks for no more than the capacity remaining at the
time of its call. -/
def StackStorage.within : StackStorage → List (Nat × Nat) → Prop
  | _, [] => True
  | s, (cnt, align) :: reqs =>
    cnt ≤ s.space ∧ StackStorage.within (s.alloc cnt align).2 reqs

instance StackStorage.within.decidable : (s : StackStorage) → (reqs : List (Nat × Nat)) →
    Decidable (StackStorage.within s reqs)
  | _, [] => isTrue trivial
  | s, (cnt, align) :: reqs =>
    have := StackStorage.within.decidable (s.alloc cnt align).2 reqs
    inferInstanceAs (Decidable (cnt ≤ s.space ∧
      StackStorage.within (s.alloc cnt align).2 reqs))

/-- The regions `(p, cnt)` returned by a sequence of calls, in call order. -/
def StackStorage.regions (s : StackStorage) (reqs : List (Nat × Nat)) : List (Nat × Nat) :=
  (s.allocs reqs).zipWith (fun r req => (r.1, req.1)) reqs

/-- `StackAllocator<T, N>`: `storage` is the address of the `StackStorage<N>` the handle
refers to. -/
structure StackAllocator (T : Type) where
  storage : Ptr
  deriving DecidableEq

/-- `StackAllocator(StackStorage<N>& storage)`. -/
def StackAllocator.ofStorage (storage : Ptr) : StackAllocator T := ⟨storage⟩

/-- `get_storage()`. -/
def StackAllocator.get_storage (a : StackAllocator T) : Ptr := a.storage

/-- The converting constructor `StackAllocator(const StackAllocator<U, N>& oth)`. -/
def StackAllocator.convert {U : Type} (oth : StackAllocator U) : StackAllocator T :=
  ⟨oth.get_storage⟩

/-- The converting `operator=`. -/
def StackAllocator.assign {U : Type} (_this : StackAllocator T) (oth : StackAllocator U) :
    StackAllocator T :=
  ⟨oth.get_storage⟩

/-- `operator==`. -/
def StackAllocator.eq (a b : StackAllocator T) : Bool :=
  a.get_storage == b.get_storage

/-- `operator!=`. -/
def StackAllocator.ne (a b : StackAllocator T) : Bool :=
  !(a.eq b)

/-- `deallocate(ptr, n)`; `arenas` maps the address of a storage to its state. -/
def StackAllocator.deallocate (_a : StackAllocator T) (arenas : Ptr → StackStorage)
    (_ptr _n : Nat) : Ptr → StackStorage :=
  arenas

/-- `allocate(cnt)` for an element type with `sizeof(T) = size` and
`alignof(T) = align`; the product is computed in `std::size_t`. -/
def StackAllocator.allocate (size align : Nat) (a : StackAllocator T)
    (arenas : Ptr → StackStorage) (cnt : Nat) : Nat × (Ptr → StackStorage) :=
  let r := (arenas a.storage).alloc ((cnt * size) % SIZE_MOD) align
  (r.1, Function.update arenas a.storage r.2)

/-- Example run: a fresh `StackStorage<16>` at address `4096` serving `alloc(8, 8)`
twice. -/
def exArena : List (Nat × StackStorage) :=
  (StackStorage.fresh 4096 16).allocs [(8, 8), (8, 8)]


/-! ## Segments of links -/

theorem Seg.append {m : Mem T} {xs : List Ptr} : ∀ {a y : Ptr} {ys : List Ptr} {b : Ptr},
    Seg m a (xs ++ y :: ys) b ↔ Seg m a xs y ∧ Seg m y ys b := by
  induction xs with
  | nil => intro a y ys b; simp [Seg, and_assoc]
  | cons x xs ih => intro a y ys b; simp [Seg, ih, and_assoc]

theorem Seg.frame {m m' : Mem T} {xs : List Ptr} : ∀ {a b : Ptr}, Seg m a xs b →
    (∀ x ∈ a :: xs, m'.next x = m.next x) → (∀ x ∈ xs ++ [b], m'.prev x = m.prev x) →
    Seg m' a xs b := by
  induction xs with
  | nil =>
    intro a b h hn hp
    simp only [Seg] at h ⊢
    rw [hn a (by simp), hp b (by simp)]
    exact h
  | cons x xs ih =>
    intro a b h hn hp
    simp only [Seg] at h ⊢
    refine ⟨?_, ?_, ih h.2.2 ?_ ?_⟩
    · rw [hn a (by simp)]; exact h.1
    · rw [hp x (by simp)]; exact h.2.1
    · intro z hz; exact hn z (List.mem_cons_of_mem _ hz)
    · intro z hz; exact hp z (by simpa using Or.inr (by simpa using hz))

theorem Seg.prev_mem {m : Mem T} {xs : List Ptr} : ∀ {a b : Ptr}, Seg m a xs b →
    m.prev b ∈ a :: xs := by
  induction xs with
  | nil => intro a b h; simp only [Seg] at h; simp [h.2]
  | cons x xs ih => intro a b h; simp only [Seg] at h; exact List.mem_cons_of_mem _ (ih h.2.2)

theorem Seg.retarget {m m' : Mem T} {xs : List Ptr} : ∀ {a b c : Ptr}, Seg m a xs b →
    (a :: xs).Nodup →
    (∀ x ∈ a :: xs, x ≠ m.prev b → m'.next x = m.next x) →
    (∀ x ∈ xs, m'.prev x = m.prev x) →
    m'.next (m.prev b) = c → m'.prev c = m.prev b → Seg m' a xs c := by
  induction xs with
  | nil =>
    intro a b c h _ _ _ h1 h2
    simp only [Seg] at h ⊢
    rw [h.2] at h1 h2
    exact ⟨h1, h2⟩
  | cons x xs ih =>
    intro a b c h nd hn hp h1 h2
    simp only [Seg] at h ⊢
    have hmem := Seg.prev_mem h.2.2
    have hne : a ≠ m.prev b := by
      intro e; rw [← e] at hmem; exact (List.nodup_cons.1 nd).1 hmem
    refine ⟨?_, ?_, ih h.2.2 (List.nodup_cons.1 nd).2 ?_ ?_ h1 h2⟩
    · rw [hn a (by simp) hne]; exact h.1
    · rw [hp x (by simp)]; exact h.2.1
    · intro z hz hz'; exact hn z (List.mem_cons_of_mem _ hz) hz'
    · intro z hz; exact hp z (List.mem_cons_of_mem _ hz)

theorem Seg.take {m : Mem T} {a b : Ptr} {pre post : List Ptr}
    (h : Seg m a (pre ++ post) b) : Seg m a pre (post.headD b) := by
  cases post with
  | nil => simpa using h
  | cons y ys => exact (Seg.append.1 h).1

theorem Seg.drop {m : Mem T} {a b : Ptr} {pre : List Ptr} {y : Ptr} {ys : List Ptr}
    (h : Seg m a (pre ++ y :: ys) b) : Seg m y ys b :=
  (Seg.append.1 h).2

theorem Seg.next_head {m : Mem T} {a b : Ptr} {xs : List Ptr}
    (h : Seg m a xs b) : m.next a = xs.headD b := by
  cases xs with
  | nil => exact h.1
  | cons y ys => exact h.1

theorem Seg.iterate_next {m : Mem T} {pre : List Ptr} : ∀ {a b : Ptr} {post : List Ptr},
    Seg m a (pre ++ post) b → m.next^[pre.length] (m.next a) = post.headD b := by
  induction pre with
  | nil => intro a b post h; simpa using Seg.next_head h
  | cons x pre ih =>
    intro a b post h
    have h' : Seg m a (x :: (pre ++ post)) b := h
    simp only [Seg] at h'
    rw [List.length_cons, Function.iterate_succ_apply, h'.1]
    exact ih h'.2.2

theorem Seg.iterate_list {m : Mem T} {xs : List Ptr} : ∀ {a b : Ptr},
    Seg m a xs b → List.iterate m.next (m.next a) xs.length = xs := by
  induction xs with
  | nil => intro a b _; rfl
  | cons x xs ih =>
    intro a b h
    simp only [Seg] at h
    rw [List.length_cons, List.iterate, h.1, ih h.2.2]

theorem Seg.forwardFrom_eq {m : Mem T} {this : Ptr} {xs : List Ptr} : ∀ {a : Ptr} (k : Nat),
    Seg m a xs this → this ∉ xs →
    forwardFrom m this (xs.length + 1 + k) (m.next a) = some xs := by
  induction xs with
  | nil =>
    intro a k h _
    simp only [Seg] at h
    simp [forwardFrom, end_, h.1, Nat.add_comm 1 k]
  | cons x xs ih =>
    intro a k h hx
    simp only [Seg] at h
    have hne : x ≠ this := fun e => hx (by simp [e])
    have hrec := ih k h.2.2 (fun hm => hx (List.mem_cons_of_mem _ hm))
    rw [h.1, List.length_cons, show xs.length + 1 + 1 + k = (xs.length + 1 + k) + 1 by omega,
      forwardFrom]
    simp [end_, hne, hrec]

/-- A duplicate-free list of non-null machine addresses is shorter than `SIZE_MOD`. -/
theorem length_lt_SIZE_MOD {l : List Ptr} (nd : l.Nodup)
    (h : ∀ p ∈ l, 0 < p ∧ p < SIZE_MOD) : l.length < SIZE_MOD := by
  have hsub : l.toFinset ⊆ Finset.Ico 1 SIZE_MOD := by
    intro p hp
    have := h p (List.mem_toFinset.1 hp)
    exact Finset.mem_Ico.2 ⟨this.1, this.2⟩
  have hc := Finset.card_le_card hsub
  rw [List.toFinset_card_of_nodup nd, Nat.card_Ico] at hc
  have : 0 < SIZE_MOD := by simp [SIZE_MOD]
  omega


/-! ## Well-formed lists -/

theorem WF.nodePtrs_eq {m : Mem T} {L : Ptr} {nodes : List Ptr} (h : WF m L nodes) :
    nodePtrs m L = nodes := by
  unfold nodePtrs begin size
  rw [h.size_eq]
  exact Seg.iterate_list h.ring

theorem WF.wellFormed {m : Mem T} {L : Ptr} {nodes : List Ptr} (h : WF m L nodes) :
    WellFormed m L := by
  unfold WellFormed
  rw [h.nodePtrs_eq]
  exact h

theorem WF.length_bound {m : Mem T} {L : Ptr} {nodes : List Ptr} (h : WF m L nodes) :
    nodes.length + 1 < SIZE_MOD := by
  have := length_lt_SIZE_MOD h.nodup h.addr
  simpa using this

theorem WF.iterAt_eq {m : Mem T} {L : Ptr} {pre post : List Ptr}
    (h : WF m L (pre ++ post)) : iterAt m L pre.length = post.headD L :=
  Seg.iterate_next h.ring

theorem insert_built (m : Mem T) (L it : Ptr) (v : T) (p : Ptr) :
    insert m L it v (.built p) = .ok
      { prev := Function.update (Function.update (Function.update m.prev p 0) p (m.prev it)) it p
        next := Function.update (Function.update (Function.update m.next p 0) (m.prev it) p) p it
        val := Function.update m.val p (some v)
        sz := Function.update m.sz L (incSz (m.sz L))
        alloc := m.alloc
        trace := m.trace ++ [.allocate (m.alloc L) p] ++ [.construct (m.alloc L) p] } :=
  rfl

theorem erase_eq (m : Mem T) (L it : Ptr) :
    erase m L it =
      { prev := Function.update m.prev (m.next it) (m.prev it)
        next := Function.update m.next (m.prev it) (m.next it)
        val := Function.update m.val it none
        sz := Function.update m.sz L (decSz (m.sz L))
        alloc := m.alloc
        trace := m.trace ++ [.destroy (m.alloc L) it] ++ [.deallocate (m.alloc L) it] } :=
  rfl

theorem incSz_eq {n : Nat} (h : n + 1 < SIZE_MOD) : incSz n = n + 1 :=
  Nat.mod_eq_of_lt h

theorem decSz_eq {n : Nat} (h : n + 1 < SIZE_MOD) : decSz (n + 1) = n := by
  unfold decSz
  rw [show n + 1 + SIZE_MOD - 1 = n + SIZE_MOD by omega, Nat.add_mod_right]
  exact Nat.mod_eq_of_lt (by omega)

/-- Splicing a fresh node `p` in front of the position `it`, the head of `post`
(or the sentinel when `post` is empty). -/
theorem WF.insert_ok {m m' : Mem T} {L : Ptr} {pre post : List Ptr} {p it : Ptr} {v : T}
    (h : WF m L (pre ++ post)) (hit : it = post.headD L)
    (hp : 0 < p ∧ p < SIZE_MOD) (hpt : p ≠ L) (hpn : p ∉ pre ++ post)
    (hm : insert m L it v (.built p) = .ok m') :
    WF m' L (pre ++ p :: post) := by
  rw [insert_built] at hm
  injection hm with hm
  subst hm
  have hnd := h.nodup
  have hring := h.ring
  have hpre : Seg m L pre it := hit ▸ Seg.take hring
  have hq : m.prev it ∈ L :: pre := Seg.prev_mem hpre
  have hnd' : (L :: pre).Nodup ∧ (∀ x ∈ L :: pre, x ∉ post) ∧ post.Nodup := by
    have h0 := hnd
    rw [← List.cons_append, List.nodup_append] at h0
    exact ⟨h0.1, fun x hx hx' => h0.2.2 hx hx', h0.2.1⟩
  have hpn' : p ∉ L :: (pre ++ post) := by
    intro hx
    rcases List.mem_cons.1 hx with e | hx
    · exact hpt e
    · exact hpn hx
  have hpre_p : ∀ x ∈ L :: pre, x ≠ p := by
    intro x hx e
    subst e
    rcases List.mem_cons.1 hx with e | hx
    · exact hpt e
    · exact hpn (List.mem_append_left _ hx)
  have hpost_p : ∀ x ∈ post, x ≠ p := by
    intro x hx e
    subst e
    exact hpn (List.mem_append_right _ hx)
  have hit_pre : ∀ x ∈ pre, x ≠ it := by
    intro x hx e
    cases post with
    | nil =>
      simp only [List.headD_nil] at hit
      rw [hit] at e
      subst e
      exact (List.nodup_cons.1 hnd'.1).1 hx
    | cons y ys =>
      simp only [List.headD_cons] at hit
      rw [hit] at e
      subst e
      exact hnd'.2.1 x (List.mem_cons_of_mem _ hx) (List.mem_cons_self _ _)
  have hit_p : p ≠ it := by
    cases post with
    | nil => simpa [hit] using hpt
    | cons y ys => simpa [hit] using (hpost_p y (List.mem_cons_self _ _)).symm
  refine ⟨?_, ?_, ?_, ?_⟩
  · refine Seg.append.2 ⟨?_, ?_⟩
    · refine Seg.retarget hpre hnd'.1 ?_ ?_ ?_ ?_
      · intro x hx hxq
        simp [Function.update_apply, hpre_p x hx, hxq]
      · intro x hx
        simp [Function.update_apply, hit_pre x hx, hpre_p x (List.mem_cons_of_mem _ hx)]
      · simp [Function.update_apply, hpre_p _ hq]
      · simp [Function.update_apply, hit_p]
    · cases post with
      | nil =>
        simp only [List.headD_nil] at hit
        subst hit
        simp [Seg, Function.update_apply]
      | cons y ys =>
        simp only [List.headD_cons] at hit
        subst hit
        have hy : Seg m it ys L := Seg.drop hring
        simp only [Seg]
        refine ⟨by simp [Function.update_apply], by simp [Function.update_apply], ?_⟩
        refine Seg.frame hy ?_ ?_
        · intro x hx
          have h1 : x ≠ p := hpost_p x hx
          have h2 : x ≠ m.prev it := by
            intro e
            rw [← e] at hq
            exact hnd'.2.1 x hq hx
          simp [Function.update_apply, h1, h2]
        · intro x hx
          have h1 : x ≠ p := by
            rcases List.mem_append.1 hx with hx | hx
            · exact hpost_p x (List.mem_cons_of_mem _ hx)
            · simp only [List.mem_singleton] at hx
              subst hx
              exact fun e => hpt e.symm
          have h2 : x ≠ it := by
            rcases List.mem_append.1 hx with hx | hx
            · intro e
              subst e
              exact (List.nodup_cons.1 hnd'.2.2).1 hx
            · simp only [List.mem_singleton] at hx
              subst hx
              intro e
              exact hnd'.2.1 x (List.mem_cons_self _ _) (by simp [e])
          simp [Function.update_apply, h1, h2]
  · have h1 : (p :: L :: (pre ++ post)).Nodup := List.nodup_cons.2 ⟨hpn', hnd⟩
    have h2 : (L :: (pre ++ p :: post)).Perm (p :: L :: (pre ++ post)) :=
      (List.Perm.cons _ List.perm_middle).trans (List.Perm.swap _ _ _)
    exact h2.nodup_iff.2 h1
  · have hb : (p :: L :: (pre ++ post)).length < SIZE_MOD := by
      refine length_lt_SIZE_MOD (List.nodup_cons.2 ⟨hpn', hnd⟩) ?_
      intro x hx
      rcases List.mem_cons.1 hx with e | hx
      · subst e; exact hp
      · exact h.addr x hx
    simp only [List.length_cons] at hb
    simp only [Function.update_same, h.size_eq]
    rw [incSz_eq (by omega)]
    simp only [List.length_append, List.length_cons]
    omega
  · intro x hx
    have hx' : x = p ∨ x ∈ L :: (pre ++ post) := by
      simp only [List.mem_cons, List.mem_append] at hx ⊢
      tauto
    rcases hx' with e | hx
    · subst e; exact hp
    · exact h.addr x hx


theorem erase_next (m : Mem T) (L it : Ptr) :
    (erase m L it).next = Function.update m.next (m.prev it) (m.next it) := rfl

theorem erase_prev (m : Mem T) (L it : Ptr) :
    (erase m L it).prev = Function.update m.prev (m.next it) (m.prev it) := rfl

theorem erase_val (m : Mem T) (L it : Ptr) :
    (erase m L it).val = Function.update m.val it none := rfl

theorem erase_sz (m : Mem T) (L it : Ptr) :
    (erase m L it).sz = Function.update m.sz L (decSz (m.sz L)) := rfl

theorem erase_alloc (m : Mem T) (L it : Ptr) : (erase m L it).alloc = m.alloc := rfl

theorem erase_trace (m : Mem T) (L it : Ptr) :
    (erase m L it).trace =
      m.trace ++ [.destroy (m.alloc L) it, .deallocate (m.alloc L) it] := by
  simp [erase_eq]

/-- Unlinking the node `y` of a well-formed list. -/
theorem WF.erase_ok {m : Mem T} {L : Ptr} {pre post : List Ptr} {y : Ptr}
    (h : WF m L (pre ++ y :: post)) : WF (erase m L y) L (pre ++ post) := by
  have hnd := h.nodup
  have hring := h.ring
  have hpre : Seg m L pre y := (Seg.append.1 hring).1
  have hpost : Seg m y post L := (Seg.append.1 hring).2
  have hq : m.prev y ∈ L :: pre := Seg.prev_mem hpre
  have hr : m.next y = post.headD L := Seg.next_head hpost
  have hnd' : (L :: pre).Nodup ∧ (∀ x ∈ L :: pre, x ∉ y :: post) ∧ (y :: post).Nodup := by
    have h0 := hnd
    rw [← List.cons_append, List.nodup_append] at h0
    exact ⟨h0.1, fun x hx hx' => h0.2.2 hx hx', h0.2.1⟩
  have hr_pre : ∀ x ∈ pre, x ≠ m.next y := by
    intro x hx e
    rw [hr] at e
    cases post with
    | nil =>
      simp only [List.headD_nil] at e
      subst e
      exact (List.nodup_cons.1 hnd'.1).1 hx
    | cons z zs =>
      simp only [List.headD_cons] at e
      subst e
      exact hnd'.2.1 x (List.mem_cons_of_mem _ hx) (by simp)
  have hsub : (L :: (pre ++ post)).Sublist (L :: (pre ++ y :: post)) :=
    (List.Sublist.refl _).cons₂ _ |>.trans <| by
      exact List.Sublist.cons₂ _ (List.Sublist.append (List.Sublist.refl _)
        (List.sublist_cons_self _ _))
  refine ⟨?_, hnd.sublist hsub, ?_, fun x hx => h.addr x (hsub.subset hx)⟩
  · have h1 : Seg (erase m L y) L pre (m.next y) := by
      refine Seg.retarget hpre hnd'.1 ?_ ?_ ?_ ?_
      · intro x _ hxq
        simp [erase_next, Function.update_apply, hxq]
      · intro x hx
        simp [erase_prev, Function.update_apply, hr_pre x hx]
      · simp [erase_next]
      · simp [erase_prev]
    cases post with
    | nil =>
      simp only [List.headD_nil] at hr
      rw [hr] at h1
      simpa using h1
    | cons z zs =>
      simp only [List.headD_cons] at hr
      rw [hr] at h1
      refine Seg.append.2 ⟨h1, ?_⟩
      have hz : Seg m z zs L := by
        simp only [Seg] at hpost
        exact hpost.2.2
      refine Seg.frame hz ?_ ?_
      · intro x hx
        have h2 : x ≠ m.prev y := by
          intro e
          rw [← e] at hq
          exact hnd'.2.1 x hq (List.mem_cons_of_mem _ hx)
        simp [erase_next, Function.update_apply, h2]
      · intro x hx
        have h2 : x ≠ m.next y := by
          rw [hr]
          rcases List.mem_append.1 hx with hx | hx
          · intro e
            subst e
            exact (List.nodup_cons.1 (List.nodup_cons.1 hnd'.2.2).2).1 hx
          · simp only [List.mem_singleton] at hx
            subst hx
            intro e
            exact hnd'.2.1 x (List.mem_cons_self _ _) (by simp [e])
        simp [erase_prev, Function.update_apply, h2]
  · have hb := h.length_bound
    simp only [List.length_append, List.length_cons] at hb
    simp only [erase_sz, Function.update_same, h.size_eq, List.length_append, List.length_cons]
    rw [show pre.length + (post.length + 1) = (pre.length + post.length) + 1 by omega,
      decSz_eq (by omega)]


theorem WF.congr {m m' : Mem T} {L : Ptr} {nodes : List Ptr} (h : WF m L nodes)
    (hn : ∀ x ∈ L :: nodes, m'.next x = m.next x)
    (hp : ∀ x ∈ L :: nodes, m'.prev x = m.prev x) (hs : m'.sz L = m.sz L) :
    WF m' L nodes := by
  refine ⟨Seg.frame h.ring hn ?_, h.nodup, hs.trans h.size_eq, h.addr⟩
  intro x hx
  refine hp x ?_
  rcases List.mem_append.1 hx with hx | hx
  · exact List.mem_cons_of_mem _ hx
  · simp only [List.mem_singleton] at hx
    simp [hx]

theorem ListOf.intro {m : Mem T} {L : Ptr} {nodes : List Ptr} {xs : List T}
    (h : WF m L nodes) (hv : nodes.map m.val = xs.map some) : ListOf m L xs := by
  refine ⟨h.wellFormed, ?_⟩
  unfold elems
  rw [h.nodePtrs_eq]
  exact hv

theorem ListOf.length_eq {m : Mem T} {L : Ptr} {xs : List T} (h : ListOf m L xs) :
    (nodePtrs m L).length = xs.length := by
  have := congrArg List.length h.2
  simpa [elems] using this

theorem ListOf.size_eq {m : Mem T} {L : Ptr} {xs : List T} (h : ListOf m L xs) :
    size m L = xs.length := by
  rw [← h.length_eq]
  exact h.1.size_eq

theorem map_update_of_not_mem {α : Type} (f : Ptr → α) (p : Ptr) (a : α) {l : List Ptr}
    (h : p ∉ l) : l.map (Function.update f p a) = l.map f := by
  refine List.map_congr_left ?_
  intro x hx
  have : x ≠ p := fun e => h (e ▸ hx)
  simp [Function.update_apply, this]

theorem ListOf.forwardElems_eq {m : Mem T} {L : Ptr} {xs : List T} (h : ListOf m L xs)
    {fuel : Nat} (hf : xs.length < fuel) : forwardElems m L fuel = some (xs.map some) := by
  have hw : WF m L (nodePtrs m L) := h.1
  have hL : L ∉ nodePtrs m L := (List.nodup_cons.1 hw.nodup).1
  have hlen := h.length_eq
  have := Seg.forwardFrom_eq (fuel - (nodePtrs m L).length - 1) hw.ring hL
  rw [show (nodePtrs m L).length + 1 + (fuel - (nodePtrs m L).length - 1) = fuel by omega]
    at this
  unfold forwardElems forward begin
  rw [this]
  exact congrArg some h.2

/-- The core of `insert`: the list whose nodes are `pre ++ post` gets the fresh node `p`
in front of `post`. -/
theorem ListOf.insert_split {m : Mem T} {L : Ptr} {xs ys : List T} {pre post : List Ptr}
    {p : Ptr} (v : T) (h : WF m L (pre ++ post))
    (hpre : pre.map m.val = xs.map some) (hpost : post.map m.val = ys.map some)
    (hp : 0 < p ∧ p < SIZE_MOD) (hpt : p ≠ L) (hpn : p ∉ pre ++ post) :
    ∃ m', insert m L (post.headD L) v (.built p) = .ok m' ∧
      WF m' L (pre ++ p :: post) ∧
      ListOf m' L (xs ++ v :: ys) ∧
      size m' L = size m L + 1 ∧
      m'.val = Function.update m.val p (some v) ∧
      m'.alloc = m.alloc ∧
      m'.trace = m.trace ++ [.allocate (m.alloc L) p, .construct (m.alloc L) p] := by
  have hwf := WF.insert_ok (v := v) h rfl hp hpt hpn (insert_built _ _ _ _ _)
  refine ⟨_, insert_built _ _ _ _ _, hwf, ListOf.intro hwf ?_, ?_, rfl, rfl, by simp⟩
  · have h1 : p ∉ pre := fun hx => hpn (List.mem_append_left _ hx)
    have h2 : p ∉ post := fun hx => hpn (List.mem_append_right _ hx)
    simp [map_update_of_not_mem _ _ _ h1, map_update_of_not_mem _ _ _ h2, hpre, hpost]
  · have := hwf.size_eq
    simp only [size] at this ⊢
    rw [this, h.size_eq]
    simp only [List.length_append, List.length_cons]
    omega

/-- The core of `erase`: the node `y` between `pre` and `post` is removed. -/
theorem ListOf.erase_split {m : Mem T} {L : Ptr} {xs ys : List T} {pre post : List Ptr}
    {y : Ptr} (h : WF m L (pre ++ y :: post))
    (hpre : pre.map m.val = xs.map some) (hpost : post.map m.val = ys.map some) :
    WF (erase m L y) L (pre ++ post) ∧
      ListOf (erase m L y) L (xs ++ ys) ∧
      size (erase m L y) L + 1 = size m L := by
  have hwf := WF.erase_ok h
  have hnd : (pre ++ y :: post).Nodup := (List.nodup_cons.1 h.nodup).2
  have h1 : y ∉ pre := fun hx => by
    have := (List.nodup_append.1 hnd).2.2 hx
    exact this (List.mem_cons_self _ _)
  have h2 : y ∉ post := fun hx => by
    have := (List.nodup_cons.1 (List.nodup_append.1 hnd).2.1).1
    exact this hx
  refine ⟨hwf, ListOf.intro hwf ?_, ?_⟩
  · simp [erase_val, map_update_of_not_mem _ _ _ h1, map_update_of_not_mem _ _ _ h2, hpre,
      hpost]
  · have := hwf.size_eq
    simp only [size] at this ⊢
    rw [this, h.size_eq]
    simp only [List.length_append, List.length_cons]
    omega

/-- Splitting the nodes of a list at a position `i ≤ size()`. -/
theorem ListOf.split_at {m : Mem T} {L : Ptr} {xs : List T} (h : ListOf m L xs) (i : Nat)
    (hi : i ≤ xs.length) :
    WF m L ((nodePtrs m L).take i ++ (nodePtrs m L).drop i) ∧
      ((nodePtrs m L).take i).map m.val = (xs.take i).map some ∧
      ((nodePtrs m L).drop i).map m.val = (xs.drop i).map some ∧
      iterAt m L i = ((nodePtrs m L).drop i).headD L := by
  have hw : WF m L (nodePtrs m L) := h.1
  have hv : (nodePtrs m L).map m.val = xs.map some := h.2
  have hlen := h.length_eq
  have hw' : WF m L ((nodePtrs m L).take i ++ (nodePtrs m L).drop i) := by
    rw [List.take_append_drop]; exact hw
  refine ⟨hw', ?_, ?_, ?_⟩
  · rw [List.map_take, hv, ← List.map_take]
  · rw [List.map_drop, hv, ← List.map_drop]
  · have := hw'.iterAt_eq
    rwa [List.length_take, Nat.min_eq_left (by omega)] at this


theorem ListOf.erase_at {m : Mem T} {L : Ptr} {xs : List T} (h : ListOf m L xs) {i : Nat}
    (hi : i < xs.length) :
    iterAt m L i ∈ nodePtrs m L ∧
      WF m L ((nodePtrs m L).take i ++ iterAt m L i :: (nodePtrs m L).drop (i + 1)) ∧
      ListOf (erase m L (iterAt m L i)) L (xs.take i ++ xs.drop (i + 1)) ∧
      size (erase m L (iterAt m L i)) L + 1 = size m L := by
  obtain ⟨hw, hpre, hpost, hit⟩ := h.split_at i (Nat.le_of_lt hi)
  have hlen := h.length_eq
  have hi' : i < (nodePtrs m L).length := by omega
  have hd : (nodePtrs m L).drop i = (nodePtrs m L)[i] :: (nodePtrs m L).drop (i + 1) :=
    List.drop_eq_getElem_cons hi'
  rw [hd, List.headD_cons] at hit
  rw [hd, ← hit] at hw
  have hpost' : ((nodePtrs m L).drop (i + 1)).map m.val = (xs.drop (i + 1)).map some := by
    rw [List.map_drop, show List.map m.val (nodePtrs m L) = List.map some xs from h.2,
      ← List.map_drop]
  obtain ⟨_, h2, h3⟩ := ListOf.erase_split hw hpre hpost'
  refine ⟨?_, hw, h2, h3⟩
  rw [hit]
  exact List.getElem_mem _

theorem ListOf.insert_at {m : Mem T} {L : Ptr} {xs : List T} (h : ListOf m L xs) {i : Nat}
    (v : T) {p : Ptr} (hi : i ≤ xs.length) (hp : Fresh m L p) :
    ∃ m', insert m L (iterAt m L i) v (.built p) = .ok m' ∧
      ListOf m' L (xs.take i ++ v :: xs.drop i) ∧
      forwardElems m' L (xs.length + 2) = some ((xs.take i ++ v :: xs.drop i).map some) ∧
      size m' L = size m L + 1 ∧
      m'.trace = m.trace ++ [.allocate (m.alloc L) p, .construct (m.alloc L) p] ∧
      (i = xs.length → iterAt m L i = end_ L) := by
  obtain ⟨hw, hpre, hpost, hit⟩ := h.split_at i hi
  have hpn : p ∉ (nodePtrs m L).take i ++ (nodePtrs m L).drop i := by
    rw [List.take_append_drop]; exact hp.2.2.2
  obtain ⟨m', h1, _, h3, h4, _, _, h7⟩ :=
    ListOf.insert_split v hw hpre hpost ⟨hp.1, hp.2.1⟩ hp.2.2.1 hpn
  rw [← hit] at h1
  refine ⟨m', h1, h3, ?_, h4, h7, ?_⟩
  · refine h3.forwardElems_eq ?_
    simp only [List.length_append, List.length_cons, List.length_take, List.length_drop]
    omega
  · intro e
    rw [hit, List.drop_of_length_le (by rw [h.length_eq, e])]
    rfl

/-- C4: `insert` at the position reached by `i` steps from `begin()` (`i = size()` is
`end()`), with fresh storage `p` and a constructor that succeeds, returns normally, turns
the element sequence `xs` into `xs[0..i) ++ [v] ++ xs[i..n)` (also as read by a forward
traversal), raises `size()` by one and makes exactly one `allocate` call. -/
theorem insert_places_before_position (m : Mem T) (L : Ptr) (xs : List T) (i : Nat) (v : T)
    (p : Ptr) (h : ListOf m L xs) (hi : i ≤ xs.length) (hp : Fresh m L p) :
    ∃ m', insert m L (iterAt m L i) v (.built p) = .ok m' ∧
      ListOf m' L (xs.take i ++ v :: xs.drop i) ∧
      forwardElems m' L (xs.length + 2) = some ((xs.take i ++ v :: xs.drop i).map some) ∧
      size m' L = size m L + 1 ∧
      m'.trace = m.trace ++ [.allocate (m.alloc L) p, .construct (m.alloc L) p] ∧
      (i = xs.length → iterAt m L i = end_ L) :=
  h.insert_at v hi hp

/-- C5: when `allocate` throws, or `allocate` returns fresh storage `p` and the element
constructor throws, `insert` exits by exception; the links and elements of the sentinel
and of every node, `sz` and `alloc` are what they were, the list is still well-formed
with the same element sequence, and the log grows by `allocate p, deallocate p` (the
storage is handed back), or by the `deallocate(nullptr)` of the handler when nothing was
obtained. -/
theorem insert_failure_leaves_list (m : Mem T) (L : Ptr) (xs : List T) (it : Ptr) (v : T)
    (o : Outcome) (h : ListOf m L xs)
    (ho : o = .allocThrows ∨ ∃ p, o = .ctorThrows p ∧ Fresh m L p) :
    ∃ m', insert m L it v o = .threw m' ∧
      (∀ x ∈ L :: nodePtrs m L,
        m'.prev x = m.prev x ∧ m'.next x = m.next x ∧ m'.val x = m.val x) ∧
      m'.sz = m.sz ∧ m'.alloc = m.alloc ∧
      nodePtrs m' L = nodePtrs m L ∧
      ListOf m' L xs ∧
      m'.trace = m.trace ++
        (match o with
          | .ctorThrows p => [.allocate (m.alloc L) p, .deallocate (m.alloc L) p]
          | _ => [.deallocate (m.alloc L) 0]) := by
  rcases ho with rfl | ⟨p, rfl, hp⟩
  · refine ⟨_, rfl, fun x _ => ⟨rfl, rfl, rfl⟩, rfl, rfl, rfl, ?_, rfl⟩
    exact ListOf.intro (WF.congr h.1 (fun _ _ => rfl) (fun _ _ => rfl) rfl) h.2
  · have hne : ∀ x ∈ L :: nodePtrs m L, x ≠ p := by
      intro x hx e
      subst e
      rcases List.mem_cons.1 hx with e | hx
      · exact hp.2.2.1 e
      · exact hp.2.2.2 hx
    have hcell : ∀ x ∈ L :: nodePtrs m L,
        (insert m L it v (.ctorThrows p)).mem.prev x = m.prev x ∧
        (insert m L it v (.ctorThrows p)).mem.next x = m.next x ∧
        (insert m L it v (.ctorThrows p)).mem.val x = m.val x := by
      intro x hx
      simp [insert, Res.mem, Mem.log, Mem.baseInit, Function.update_apply, hne x hx]
    have hw : WF (insert m L it v (.ctorThrows p)).mem L (nodePtrs m L) :=
      WF.congr h.1 (fun x hx => (hcell x hx).2.1) (fun x hx => (hcell x hx).1) rfl
    refine ⟨_, rfl, hcell, rfl, rfl, hw.nodePtrs_eq, ListOf.intro hw ?_, ?_⟩
    · rw [← h.2]
      exact List.map_congr_left fun x hx => (hcell x (List.mem_cons_of_mem _ hx)).2.2
    · simp [Mem.log, Mem.baseInit]

/-- C6: `erase` at the position reached by `i < size()` steps from `begin()` turns the
element sequence `xs` into `xs[0..i) ++ xs[i+1..n)`, lowers `size()` by one, and logs one
`destroy` and one `deallocate`, both of the erased node, which is a node of the list and
not the sentinel; on a one-element list the result has `size() == 0` and
`begin() == end()`. -/
theorem erase_removes_position (m : Mem T) (L : Ptr) (xs : List T) (i : Nat)
    (h : ListOf m L xs) (hi : i < xs.length) :
    ListOf (erase m L (iterAt m L i)) L (xs.take i ++ xs.drop (i + 1)) ∧
      forwardElems (erase m L (iterAt m L i)) L (xs.length + 1) =
        some ((xs.take i ++ xs.drop (i + 1)).map some) ∧
      size (erase m L (iterAt m L i)) L + 1 = size m L ∧
      (erase m L (iterAt m L i)).trace = m.trace ++
        [.destroy (m.alloc L) (iterAt m L i), .deallocate (m.alloc L) (iterAt m L i)] ∧
      iterAt m L i ∈ nodePtrs m L ∧ iterAt m L i ≠ end_ L ∧
      (xs.length = 1 → size (erase m L (iterAt m L i)) L = 0 ∧
        begin (erase m L (iterAt m L i)) L = end_ L) := by
  obtain ⟨h1, _, h3, h4⟩ := h.erase_at hi
  have hL : L ∉ nodePtrs m L := (List.nodup_cons.1 h.1.nodup).1
  refine ⟨h3, ?_, h4, erase_trace _ _ _, h1, fun e => hL (by rw [end_] at e; rwa [e] at h1), ?_⟩
  · refine h3.forwardElems_eq ?_
    simp only [List.length_append, List.length_take, List.length_drop]
    omega
  · intro hlen
    have hs := h.size_eq
    have hz : size (erase m L (iterAt m L i)) L = 0 := by omega
    refine ⟨hz, ?_⟩
    have hw : WF _ L (nodePtrs (erase m L (iterAt m L i)) L) := h3.1
    have hnil : nodePtrs (erase m L (iterAt m L i)) L = [] := by
      apply List.eq_nil_of_length_eq_zero
      rw [← hw.size_eq]; exact hz
    rw [hnil] at hw
    exact hw.ring.1


theorem insert_places_before_position_witness :
    ∃ m', insert exMem 100 (iterAt exMem 100 1) 9 (.built 13) = .ok m' ∧
      ListOf m' 100 [5, 9, 6] ∧
      forwardElems m' 100 4 = some [some 5, some 9, some 6] ∧
      size m' 100 = size exMem 100 + 1 ∧
      m'.trace = exMem.trace ++ [.allocate (exMem.alloc 100) 13, .construct (exMem.alloc 100) 13] ∧
      (1 = 2 → iterAt exMem 100 1 = end_ 100) :=
  insert_places_before_position exMem 100 [5, 6] 1 9 13 (by decide!) (by decide) (by decide!)

theorem insert_failure_leaves_list_witness :
    ∃ m', insert exMem 100 (iterAt exMem 100 1) 9 (.ctorThrows 13) = .threw m' ∧
      (∀ x ∈ 100 :: nodePtrs exMem 100,
        m'.prev x = exMem.prev x ∧ m'.next x = exMem.next x ∧ m'.val x = exMem.val x) ∧
      m'.sz = exMem.sz ∧ m'.alloc = exMem.alloc ∧
      nodePtrs m' 100 = nodePtrs exMem 100 ∧
      ListOf m' 100 [5, 6] ∧
      m'.trace = exMem.trace ++
        [.allocate (exMem.alloc 100) 13, .deallocate (exMem.alloc 100) 13] :=
  insert_failure_leaves_list exMem 100 [5, 6] (iterAt exMem 100 1) 9 (.ctorThrows 13)
    (by decide!) (Or.inr ⟨13, rfl, by decide!⟩)

theorem erase_removes_position_witness :
    ListOf (erase exMem 100 (iterAt exMem 100 0)) 100 [6] ∧
      forwardElems (erase exMem 100 (iterAt exMem 100 0)) 100 3 = some [some 6] ∧
      size (erase exMem 100 (iterAt exMem 100 0)) 100 + 1 = size exMem 100 ∧
      (erase exMem 100 (iterAt exMem 100 0)).trace = exMem.trace ++
        [.destroy (exMem.alloc 100) (iterAt exMem 100 0),
          .deallocate (exMem.alloc 100) (iterAt exMem 100 0)] ∧
      iterAt exMem 100 0 ∈ nodePtrs exMem 100 ∧ iterAt exMem 100 0 ≠ end_ 100 ∧
      (2 = 1 → size (erase exMem 100 (iterAt exMem 100 0)) 100 = 0 ∧
        begin (erase exMem 100 (iterAt exMem 100 0)) 100 = end_ 100) :=
  erase_removes_position exMem 100 [5, 6] 0 (by decide!) (by decide)

/-- C7: on a well-formed list with element sequence `xs`, `push_back(v)` gives
`xs ++ [v]` and `push_front(v)` gives `[v] ++ xs` (fresh storage, constructor succeeds),
each raising `size()` by one; on a non-empty list `pop_back()` gives `xs` without its
last element and `pop_front()` gives `xs` without its first, each lowering `size()` by
one. -/
theorem boundary_operations (m : Mem T) (L : Ptr) (xs : List T) (h : ListOf m L xs) :
    (∀ v p, Fresh m L p → ∃ m', push_back m L v (.built p) = .ok m' ∧
      ListOf m' L (xs ++ [v]) ∧ size m' L = size m L + 1) ∧
    (∀ v p, Fresh m L p → ∃ m', push_front m L v (.built p) = .ok m' ∧
      ListOf m' L ([v] ++ xs) ∧ size m' L = size m L + 1) ∧
    (xs ≠ [] → ListOf (pop_back m L) L xs.dropLast ∧
      size (pop_back m L) L + 1 = size m L) ∧
    (xs ≠ [] → ListOf (pop_front m L) L xs.tail ∧
      size (pop_front m L) L + 1 = size m L) := by
  refine ⟨?_, ?_, ?_, ?_⟩
  · intro v p hp
    obtain ⟨m', h1, h2, _, h4, _, h6⟩ :=
      h.insert_at v (Nat.le_refl _) hp
    rw [h6 rfl] at h1
    rw [List.take_length, List.drop_length] at h2
    exact ⟨m', h1, h2, h4⟩
  · intro v p hp
    obtain ⟨m', h1, h2, _, h4, _, _⟩ :=
      h.insert_at v (Nat.zero_le _) hp
    exact ⟨m', h1, by simpa using h2, h4⟩
  · intro hne
    have hpos : 0 < xs.length := List.length_pos.2 hne
    obtain ⟨_, hw, h3, h4⟩ := h.erase_at (i := xs.length - 1) (by omega)
    have hlen := h.length_eq
    have hd : (nodePtrs m L).drop (xs.length - 1 + 1) = [] :=
      List.drop_of_length_le (by omega)
    rw [hd] at hw
    have hy : m.prev L = iterAt m L (xs.length - 1) := (Seg.append.1 hw.ring).2.2
    have he : pop_back m L = erase m L (iterAt m L (xs.length - 1)) := by
      unfold pop_back end_; rw [hy]
    rw [he]
    refine ⟨?_, h4⟩
    rw [List.drop_of_length_le (by omega), List.append_nil, ← List.dropLast_eq_take] at h3
    exact h3
  · intro hne
    have hpos : 0 < xs.length := List.length_pos.2 hne
    obtain ⟨_, _, h3, h4⟩ := h.erase_at (i := 0) hpos
    have he : pop_front m L = erase m L (iterAt m L 0) := rfl
    rw [he]
    exact ⟨by simpa using h3, h4⟩

theorem boundary_operations_witness :
    (∀ v p, Fresh exMem 100 p → ∃ m', push_back exMem 100 v (.built p) = .ok m' ∧
      ListOf m' 100 ([5, 6] ++ [v]) ∧ size m' 100 = size exMem 100 + 1) ∧
    (∀ v p, Fresh exMem 100 p → ∃ m', push_front exMem 100 v (.built p) = .ok m' ∧
      ListOf m' 100 ([v] ++ [5, 6]) ∧ size m' 100 = size exMem 100 + 1) ∧
    (([5, 6] : List Nat) ≠ [] → ListOf (pop_back exMem 100) 100 [5] ∧
      size (pop_back exMem 100) 100 + 1 = size exMem 100) ∧
    (([5, 6] : List Nat) ≠ [] → ListOf (pop_front exMem 100) 100 [6] ∧
      size (pop_front exMem 100) 100 + 1 = size exMem 100) :=
  boundary_operations exMem 100 [5, 6] (by decide!)


/-! ## Traversals and the ring invariant -/

theorem Seg.prev_head {m : Mem T} {a b : Ptr} {xs : List Ptr} (h : Seg m a xs b) :
    m.prev (xs.headD b) = a := by
  cases xs with
  | nil => exact h.2
  | cons y ys => exact h.2.1

theorem Seg.links {m : Mem T} {xs : List Ptr} : ∀ {a b : Ptr}, Seg m a xs b →
    (∀ x ∈ a :: xs, m.prev (m.next x) = x) ∧ (∀ x ∈ xs ++ [b], m.next (m.prev x) = x) := by
  induction xs with
  | nil =>
    intro a b h
    simp only [Seg] at h
    constructor
    · intro x hx
      simp only [List.mem_singleton] at hx
      subst hx; rw [h.1, h.2]
    · intro x hx
      simp only [List.nil_append, List.mem_singleton] at hx
      subst hx; rw [h.2, h.1]
  | cons y ys ih =>
    intro a b h
    simp only [Seg] at h
    obtain ⟨h1, h2⟩ := ih h.2.2
    constructor
    · intro x hx
      rcases List.mem_cons.1 hx with e | hx
      · subst e; rw [h.1, h.2.1]
      · exact h1 x hx
    · intro x hx
      rcases List.mem_cons.1 hx with e | hx
      · subst e; rw [h.2.1, h.1]
      · exact h2 x hx

theorem WF.backwardFrom_eq {m : Mem T} {L : Ptr} (pre : List Ptr) :
    ∀ (post : List Ptr) (k : Nat), WF m L (pre ++ post) →
      backwardFrom m L (pre.length + 1 + k) (post.headD L) = some pre.reverse := by
  induction pre using List.reverseRecOn with
  | nil =>
    intro post k h
    have hb : begin m L = post.headD L := by
      have := Seg.next_head h.ring
      simpa [begin] using this
    rw [List.length_nil, show 0 + 1 + k = k + 1 by omega, backwardFrom]
    simp [hb]
  | append_singleton pre x ih =>
    intro post k h
    have h' : WF m L (pre ++ x :: post) := by simpa using h
    have hx : m.prev (post.headD L) = x := Seg.prev_head (Seg.drop h'.ring)
    have hb : begin m L = (pre ++ [x]).headD L := by
      have := Seg.next_head (Seg.take h.ring)
      cases pre <;> exact this
    have hmem : begin m L ∈ pre ++ [x] := by
      rw [hb]
      cases pre with
      | nil => simp
      | cons z zs => simp
    have hnd : (L :: ((pre ++ [x]) ++ post)).Nodup := h.nodup
    have hne : post.headD L ≠ begin m L := by
      intro e
      rw [← e] at hmem
      cases post with
      | nil =>
        simp only [List.headD_nil] at hmem
        exact (List.nodup_cons.1 hnd).1 (List.mem_append_left _ hmem)
      | cons z zs =>
        simp only [List.headD_cons] at hmem
        exact (List.nodup_append.1 (List.nodup_cons.1 hnd).2).2.2 hmem (List.mem_cons_self _ _)
    have hrec := ih (x :: post) k h'
    simp only [List.headD_cons] at hrec
    rw [List.length_append, List.length_singleton,
      show pre.length + 1 + 1 + k = (pre.length + 1 + k) + 1 by omega, backwardFrom,
      if_neg hne, hx, hrec]
    simp

theorem WF.forward_eq {m : Mem T} {L : Ptr} {nodes : List Ptr} (h : WF m L nodes)
    {fuel : Nat} (hf : nodes.length < fuel) : forward m L fuel = some nodes := by
  have hL : L ∉ nodes := (List.nodup_cons.1 h.nodup).1
  have := Seg.forwardFrom_eq (fuel - nodes.length - 1) h.ring hL
  rwa [show nodes.length + 1 + (fuel - nodes.length - 1) = fuel by omega] at this

theorem WF.backward_eq {m : Mem T} {L : Ptr} {nodes : List Ptr} (h : WF m L nodes)
    {fuel : Nat} (hf : nodes.length < fuel) : backward m L fuel = some nodes.reverse := by
  have := WF.backwardFrom_eq nodes [] (fuel - nodes.length - 1) (by simpa using h)
  rwa [show nodes.length + 1 + (fuel - nodes.length - 1) = fuel by omega] at this

/-- C8: on a well-formed list, with fuel above `size()`, both traversals finish; the
links (and so the elements read through `operator*`) visited from `end()` back to
`begin()` with `--` are the reverse of those visited from `begin()` to `end()` with `++`,
and each traversal visits `size()` of them. -/
theorem backward_is_reverse_of_forward (m : Mem T) (L : Ptr) (fuel : Nat)
    (h : WellFormed m L) (hf : size m L < fuel) :
    ∃ ps es, forward m L fuel = some ps ∧ backward m L fuel = some ps.reverse ∧
      forwardElems m L fuel = some es ∧ backwardElems m L fuel = some es.reverse ∧
      ps.length = size m L ∧ es.length = size m L ∧ ps.reverse.length = size m L ∧
      es.reverse.length = size m L := by
  have hw : WF m L (nodePtrs m L) := h
  have hlen : (nodePtrs m L).length < fuel := by rw [← hw.size_eq]; exact hf
  have hs : (nodePtrs m L).length = size m L := hw.size_eq.symm
  refine ⟨nodePtrs m L, (nodePtrs m L).map m.val, hw.forward_eq hlen, hw.backward_eq hlen,
    ?_, ?_, hs, by simpa using hs, by simpa using hs, by simpa using hs⟩
  · simp [forwardElems, hw.forward_eq hlen]
  · simp [backwardElems, hw.backward_eq hlen]

theorem backward_is_reverse_of_forward_witness :
    ∃ ps es, forward exMem 100 3 = some ps ∧ backward exMem 100 3 = some ps.reverse ∧
      forwardElems exMem 100 3 = some es ∧ backwardElems exMem 100 3 = some es.reverse ∧
      ps.length = size exMem 100 ∧ es.length = size exMem 100 ∧
      ps.reverse.length = size exMem 100 ∧ es.reverse.length = size exMem 100 :=
  backward_is_reverse_of_forward exMem 100 3 (by decide!) (by decide!)

theorem ctor_listOf (m0 : Mem T) {L : Ptr} (a : AllocId) (hL : 0 < L ∧ L < SIZE_MOD) :
    ListOf (ctor m0 L a) L [] := by
  have hw : WF (ctor m0 L a) L [] := by
    refine ⟨?_, by simp, ?_, ?_⟩
    · simp [Seg, ctor, Mem.setNext, Mem.setPrev, Mem.setSz, Mem.baseInit, Mem.setAlloc]
    · simp [ctor, Mem.setNext, Mem.setPrev, Mem.setSz, Mem.baseInit, Mem.setAlloc]
    · intro p hp
      simp only [List.mem_singleton] at hp
      subst hp; exact hL
  exact ListOf.intro hw rfl

/-- One call within its precondition returns normally and keeps the list well-formed. -/
theorem Op.run_listOf {m : Mem T} {L : Ptr} {xs : List T} (h : ListOf m L xs) (op : Op T)
    (hpre : Op.pre m L op) : ∃ m' ys, op.run m L = some m' ∧ ListOf m' L ys := by
  have hsz := h.size_eq
  cases op with
  | push_back v p =>
    obtain ⟨m', h1, h2, _, _, _, h6⟩ := h.insert_at v (Nat.le_refl _) hpre
    rw [h6 rfl] at h1
    refine ⟨m', _, ?_, h2⟩
    show (ListAlloc.insert m L (end_ L) v (.built p)).toOption = some m'
    rw [h1]; rfl
  | push_front v p =>
    obtain ⟨m', h1, h2, _⟩ := h.insert_at v (Nat.zero_le _) hpre
    refine ⟨m', _, ?_, h2⟩
    show (ListAlloc.insert m L (iterAt m L 0) v (.built p)).toOption = some m'
    rw [h1]; rfl
  | insert i v p =>
    obtain ⟨m', h1, h2, _⟩ := h.insert_at (i := i) v (by rw [← hsz]; exact hpre.1) hpre.2
    refine ⟨m', _, ?_, h2⟩
    show (ListAlloc.insert m L (iterAt m L i) v (.built p)).toOption = some m'
    rw [h1]; rfl
  | erase i =>
    have hi : i < xs.length := by rw [← hsz]; exact hpre
    exact ⟨_, _, rfl, (h.erase_at hi).2.2.1⟩
  | pop_back =>
    have hpos : 0 < xs.length := by rw [← hsz]; exact hpre
    obtain ⟨_, hw, h3, _⟩ := h.erase_at (i := xs.length - 1) (by omega)
    have hlen := h.length_eq
    have hd : (nodePtrs m L).drop (xs.length - 1 + 1) = [] :=
      List.drop_of_length_le (by omega)
    rw [hd] at hw
    have hy : m.prev L = iterAt m L (xs.length - 1) := (Seg.append.1 hw.ring).2.2
    refine ⟨_, xs.take (xs.length - 1) ++ xs.drop (xs.length - 1 + 1), rfl, ?_⟩
    have he : ListAlloc.pop_back m L = ListAlloc.erase m L (iterAt m L (xs.length - 1)) := by
      unfold ListAlloc.pop_back end_; rw [hy]
    show ListOf (ListAlloc.pop_back m L) L _
    rw [he]
    exact h3
  | pop_front =>
    have hpos : 0 < xs.length := by rw [← hsz]; exact hpre
    exact ⟨_, _, rfl, (h.erase_at (i := 0) hpos).2.2.1⟩

theorem runOps_listOf {L : Ptr} (ops : List (Op T)) : ∀ {m m' : Mem T} {xs : List T},
    ListOf m L xs → runOps L m ops = some m' → ∃ ys, ListOf m' L ys := by
  induction ops with
  | nil =>
    intro m m' xs h hr
    simp only [runOps, Option.some.injEq] at hr
    subst hr
    exact ⟨xs, h⟩
  | cons op ops ih =>
    intro m m' xs h hr
    simp only [runOps] at hr
    split at hr
    · rename_i hpre
      obtain ⟨m1, ys, h1, h2⟩ := Op.run_listOf h op hpre
      rw [h1] at hr
      exact ih h2 hr
    · cases hr

/-- C3: after every sequence of calls of `push_back`, `push_front`, `insert`, `erase`,
`pop_back`, `pop_front`, each within its precondition, on a list constructed empty, the
forward traversal from the sentinel returns to the sentinel after visiting pairwise
distinct nodes, `x.next.prev = x` and `x.prev.next = x` hold at the sentinel and at every
node, and `size()` is the number of nodes visited. -/
theorem ring_invariant (m0 : Mem T) (L : Ptr) (a : AllocId) (ops : List (Op T)) (m : Mem T)
    (hL : 0 < L ∧ L < SIZE_MOD) (h : runOps L (ctor m0 L a) ops = some m) :
    ∃ nodes, forward m L (nodes.length + 1) = some nodes ∧
      (L :: nodes).Nodup ∧
      (∀ x ∈ L :: nodes, m.prev (m.next x) = x ∧ m.next (m.prev x) = x) ∧
      size m L = nodes.length ∧ WellFormed m L := by
  obtain ⟨ys, hys⟩ := runOps_listOf ops (ctor_listOf m0 a hL) h
  have hw : WF m L (nodePtrs m L) := hys.1
  obtain ⟨h1, h2⟩ := Seg.links hw.ring
  refine ⟨nodePtrs m L, hw.forward_eq (Nat.lt_succ_self _), hw.nodup, ?_, hw.size_eq, hys.1⟩
  intro x hx
  refine ⟨h1 x hx, h2 x ?_⟩
  rcases List.mem_cons.1 hx with e | hx
  · simp [e]
  · exact List.mem_append_left _ hx

theorem ring_invariant_witness :
    ∃ nodes, forward exMemOps 100 (nodes.length + 1) = some nodes ∧
      (100 :: nodes).Nodup ∧
      (∀ x ∈ 100 :: nodes,
        exMemOps.prev (exMemOps.next x) = x ∧ exMemOps.next (exMemOps.prev x) = x) ∧
      size exMemOps 100 = nodes.length ∧ WellFormed exMemOps 100 :=
  ring_invariant Mem.zero 100 7 exOps exMemOps (by decide)
    (Option.eq_some_of_isSome (by decide!))


/-! ## Copy construction -/

theorem closeRing_eq (m : Mem T) (L node : Ptr) :
    closeRing m L node =
      { prev := Function.update m.prev L node
        next := Function.update m.next node L
        val := m.val, sz := m.sz, alloc := m.alloc, trace := m.trace } := rfl

/-- One round of the copy loop with a successful allocation and construction. -/
theorem copyLoop_built {L2 L1 : Ptr} {ω : Nat → Outcome} {fuel0 fuel i : Nat} {m : Mem T}
    {it node p : Ptr} {e : T} (hit : it ≠ L1) (hω : ω i = .built p)
    (hv : m.val it = some e) (hnp : node ≠ p) :
    copyLoop L2 L1 ω fuel0 (fuel + 1) m i it node =
      copyLoop L2 L1 ω fuel0 fuel
        { prev := Function.update (Function.update m.prev p 0) p node
          next := Function.update (Function.update m.next node p) p 0
          val := Function.update m.val p (some e)
          sz := Function.update m.sz L2 (incSz (m.sz L2))
          alloc := m.alloc
          trace := m.trace ++ [.allocate (m.alloc L2) p] ++ [.construct (m.alloc L2) p] }
        (i + 1) (Function.update (Function.update m.next node p) p 0 it) p := by
  rw [copyLoop]
  simp only [end_, if_neg hit, hω]
  simp only [Mem.log, Mem.setNext, hv, Function.update_same, Mem.construct, Mem.baseInit,
    Mem.setPrev, Mem.setSz, Function.update_noteq hnp]

/-- One round of the copy loop seen on the closed ring: it is a `push_back`. -/
theorem copyRound_wf {m : Mem T} {L2 node p : Ptr} {done : List Ptr} (e : T)
    (hwf : WF (closeRing m L2 node) L2 done) (hp_addr : 0 < p ∧ p < SIZE_MOD)
    (hp_notin : p ∉ L2 :: done) :
    WF (closeRing
        { prev := Function.update (Function.update m.prev p 0) p node
          next := Function.update (Function.update m.next node p) p 0
          val := Function.update m.val p (some e)
          sz := Function.update m.sz L2 (incSz (m.sz L2))
          alloc := m.alloc
          trace := m.trace ++ [.allocate (m.alloc L2) p] ++ [.construct (m.alloc L2) p] }
        L2 p) L2 (done ++ [p]) := by
  have hpL : p ≠ L2 := fun e' => hp_notin (by simp [e'])
  have hnode : node ∈ L2 :: done := by
    have := Seg.prev_mem hwf.ring
    simpa [closeRing_eq] using this
  have hnp : node ≠ p := fun e' => hp_notin (e' ▸ hnode)
  have hI := @WF.insert_ok T (closeRing m L2 node) _ L2 done [] p L2 e
    (by simpa using hwf) rfl hp_addr hpL
    (by simpa using fun hx => hp_notin (List.mem_cons_of_mem _ hx)) (insert_built _ _ _ _ _)
  refine WF.congr hI ?_ ?_ ?_
  · intro x _
    by_cases h1 : x = p
    · subst h1; simp [closeRing_eq]
    · by_cases h2 : x = node
      · subst h2; simp [closeRing_eq, Function.update_apply, h1]
      · simp [closeRing_eq, Function.update_apply, h1, h2]
  · intro x _
    by_cases h1 : x = L2
    · subst h1; simp [closeRing_eq]
    · by_cases h2 : x = p
      · subst h2; simp [closeRing_eq, Function.update_apply, h1]
      · simp [closeRing_eq, Function.update_apply, h1, h2]
  · simp [closeRing_eq]

theorem copyLoop_ok {L2 L1 : Ptr} {ω : Nat → Outcome} {fuel0 : Nat} (src : List Ptr)
    (hL1 : L1 ∈ src) :
    ∀ (spost : List Ptr) (ys : List T) (news : List Ptr) (m : Mem T) (fuel i : Nat)
      (q node : Ptr) (done : List Ptr) (zs : List T),
      Seg m q spost L1 → L1 ∉ spost → q ∈ src → (∀ x ∈ spost, x ∈ src) →
      spost.map m.val = ys.map some →
      WF (closeRing m L2 node) L2 done →
      done.map m.val = zs.map some →
      (L2 :: (done ++ news)).Nodup →
      (∀ p ∈ news, 0 < p ∧ p < SIZE_MOD) →
      (∀ x ∈ L2 :: (done ++ news), x ∉ src) →
      (List.range' i spost.length).map ω = news.map .built →
      spost.length < fuel →
      ∃ m', copyLoop L2 L1 ω fuel0 fuel m i (m.next q) node = some (.ok m') ∧
        WF m' L2 (done ++ news) ∧
        (done ++ news).map m'.val = (zs ++ ys).map some ∧
        (∀ x, x ∉ L2 :: (done ++ news) →
          m'.prev x = m.prev x ∧ m'.next x = m.next x ∧ m'.val x = m.val x) ∧
        (∀ l, l ≠ L2 → m'.sz l = m.sz l) ∧ m'.alloc = m.alloc ∧
        m'.trace = m.trace ++ buildEvents (m.alloc L2) news := by
  intro spost
  induction spost with
  | nil =>
    intro ys news m fuel i q node done zs hseg _ _ _ hvs hwf hvd _ _ _ hω hfuel
    have hnews : news = [] := by
      have := congrArg List.length hω
      simpa using this.symm
    have hys : ys = [] := by
      have := congrArg List.length hvs
      simpa using this.symm
    subst hnews hys
    obtain ⟨f, rfl⟩ : ∃ f, fuel = f + 1 := ⟨fuel - 1, by simp at hfuel; omega⟩
    have hnode : node ∈ L2 :: done := by
      have := Seg.prev_mem hwf.ring
      simpa [closeRing_eq] using this
    refine ⟨closeRing m L2 node, ?_, by simpa using hwf, by simpa using hvd, ?_,
      fun _ _ => rfl, rfl, by simp [closeRing_eq, buildEvents]⟩
    · rw [copyLoop, hseg.1]
      simp [end_]
    · intro x hx
      have h1 : x ≠ L2 := fun e => hx (by simp [e])
      have h2 : x ≠ node := fun e => hx (by simpa [e] using hnode)
      simp [closeRing_eq, Function.update_apply, h1, h2]
  | cons y ys' ih =>
    intro ys news m fuel i q node done zs hseg hL1n hq hsub hvs hwf hvd hnd haddr hdisj hω
      hfuel
    simp only [Seg] at hseg
    obtain ⟨p, news', rfl⟩ : ∃ p news', news = p :: news' := by
      cases news with
      | nil => simp [List.range'] at hω
      | cons p news' => exact ⟨p, news', rfl⟩
    obtain ⟨e, es, rfl⟩ : ∃ e es, ys = e :: es := by
      cases ys with
      | nil => simp at hvs
      | cons e es => exact ⟨e, es, rfl⟩
    obtain ⟨f, rfl⟩ : ∃ f, fuel = f + 1 := ⟨fuel - 1, by simp at hfuel; omega⟩
    simp only [List.length_cons, List.range'_succ, List.map_cons, List.cons.injEq] at hω
    simp only [List.map_cons, List.cons.injEq, Option.some.injEq] at hvs
    have hnode : node ∈ L2 :: done := by
      have := Seg.prev_mem hwf.ring
      simpa [closeRing_eq] using this
    have hp_notin : p ∉ L2 :: done := by
      have h1 : (L2 :: (done ++ p :: news')).Perm (p :: (L2 :: (done ++ news'))) :=
        (List.Perm.cons _ List.perm_middle).trans (List.Perm.swap _ _ _)
      have h2 := (List.nodup_cons.1 (h1.nodup_iff.1 hnd)).1
      intro hx
      apply h2
      rcases List.mem_cons.1 hx with e' | hx
      · simp [e']
      · exact List.mem_cons_of_mem _ (List.mem_append_left _ hx)
    have hp_src : p ∉ src := hdisj p (by simp)
    have hnode_src : node ∉ src := by
      apply hdisj
      rcases List.mem_cons.1 hnode with e' | hx
      · simp [e']
      · exact List.mem_cons_of_mem _ (List.mem_append_left _ hx)
    have hnp : node ≠ p := fun e' => hp_notin (e' ▸ hnode)
    have hy_src : y ∈ src := hsub y (List.mem_cons_self _ _)
    have hyL1 : y ≠ L1 := fun e' => hL1n (by simp [e'])
    have hp_addr : 0 < p ∧ p < SIZE_MOD := haddr p (List.mem_cons_self _ _)
    rw [hseg.1, copyLoop_built hyL1 hω.1 hvs.1 hnp]
    obtain ⟨m', h1, h2, h3, h4, h5, h6, h7⟩ := ih es news'
      { prev := Function.update (Function.update m.prev p 0) p node
        next := Function.update (Function.update m.next node p) p 0
        val := Function.update m.val p (some e)
        sz := Function.update m.sz L2 (incSz (m.sz L2))
        alloc := m.alloc
        trace := m.trace ++ [.allocate (m.alloc L2) p] ++ [.construct (m.alloc L2) p] }
      f (i + 1) y p (done ++ [p]) (zs ++ [e])
      (by
        refine Seg.frame hseg.2.2 ?_ ?_
        · intro x hx
          have hx' : x ∈ src := hsub x hx
          have e1 : x ≠ p := fun e' => hp_src (e' ▸ hx')
          have e2 : x ≠ node := fun e' => hnode_src (e' ▸ hx')
          simp [Function.update_apply, e1, e2]
        · intro x hx
          have hx' : x ∈ src := by
            rcases List.mem_append.1 hx with hx | hx
            · exact hsub x (List.mem_cons_of_mem _ hx)
            · simp only [List.mem_singleton] at hx
              rw [hx]; exact hL1
          have e1 : x ≠ p := fun e' => hp_src (e' ▸ hx')
          simp [Function.update_apply, e1])
      (fun hx => hL1n (List.mem_cons_of_mem _ hx)) hy_src
      (fun x hx => hsub x (List.mem_cons_of_mem _ hx))
      (by
        have : p ∉ ys' := fun hx => hp_src (hsub p (List.mem_cons_of_mem _ hx))
        simp only [map_update_of_not_mem _ _ _ this]
        exact hvs.2)
      (copyRound_wf e hwf hp_addr hp_notin)
      (by
        have : p ∉ done := fun hx => hp_notin (List.mem_cons_of_mem _ hx)
        simp [map_update_of_not_mem _ _ _ this, hvd])
      (by simpa using hnd) (fun x hx => haddr x (List.mem_cons_of_mem _ hx))
      (by simpa using hdisj) hω.2 (by simp at hfuel; omega)
    refine ⟨m', h1, by simpa using h2, by simpa using h3, ?_, ?_, h6,
      by rw [h7]; simp [buildEvents]⟩
    · intro x hx
      have hx' : x ∉ L2 :: (done ++ [p] ++ news') := by simpa using hx
      obtain ⟨a1, a2, a3⟩ := h4 x hx'
      have e1 : x ≠ p := fun e' => hx (by simp [e'])
      have e2 : x ≠ node := by
        intro e'
        apply hx
        rcases List.mem_cons.1 hnode with e'' | hn
        · simp [e', e'']
        · rw [e']
          exact List.mem_cons_of_mem _ (List.mem_append_left _ hn)
      rw [a1, a2, a3]
      simp [Function.update_apply, e1, e2]
    · intro l hl
      rw [h5 l hl]
      simp [Function.update_apply, hl]

theorem SameList.listOf {m m' : Mem T} {L : Ptr} {xs : List T} (hs : SameList m m' L)
    (h : ListOf m L xs) : ListOf m' L xs ∧ nodePtrs m' L = nodePtrs m L := by
  have hw : WF m' L (nodePtrs m L) :=
    WF.congr h.1 (fun x hx => (hs.1 x hx).2.1) (fun x hx => (hs.1 x hx).1) hs.2.1
  refine ⟨ListOf.intro hw ?_, hw.nodePtrs_eq⟩
  rw [← show elems m L = xs.map some from h.2]
  exact List.map_congr_left fun x hx => (hs.1 x (List.mem_cons_of_mem _ hx)).2.2

/-- Copy construction with fresh storage and no failure. -/
theorem copyCtor_ok (socc : AllocId → AllocId) {m : Mem T} {L1 L2 : Ptr} {xs : List T}
    {news : List Ptr} {ω : Nat → Outcome} {fuel : Nat}
    (h : ListOf m L1 xs) (hL2 : Fresh m L1 L2) (hnd : (L2 :: news).Nodup)
    (hfresh : ∀ p ∈ news, Fresh m L1 p)
    (hω : (List.range xs.length).map ω = news.map .built) (hfuel : xs.length < fuel) :
    ∃ m', copyCtor socc fuel m L2 L1 ω = some (.ok m') ∧
      WF m' L2 news ∧ ListOf m' L2 xs ∧ ListOf m' L1 xs ∧ SameList m m' L1 ∧
      m'.alloc L2 = socc (m.alloc L1) ∧
      (∀ x, x ∉ L2 :: news →
        m'.prev x = m.prev x ∧ m'.next x = m.next x ∧ m'.val x = m.val x) ∧
      m'.trace = m.trace ++ buildEvents (socc (m.alloc L1)) news := by
  have hw : WF m L1 (nodePtrs m L1) := h.1
  have hlen := h.length_eq
  have hnotsrc : ∀ x ∈ L2 :: news, x ∉ L1 :: nodePtrs m L1 := by
    intro x hx hx'
    have hf : Fresh m L1 x := by
      rcases List.mem_cons.1 hx with e | hx
      · rw [e]; exact hL2
      · exact hfresh x hx
    rcases List.mem_cons.1 hx' with e | hx'
    · exact hf.2.2.1 e
    · exact hf.2.2.2 hx'
  have hL2src : ∀ x ∈ L1 :: nodePtrs m L1, x ≠ L2 :=
    fun x hx e => hnotsrc L2 (List.mem_cons_self _ _) (e ▸ hx)
  obtain ⟨m', h1, h2, h3, h4, h5, h6, h7⟩ := @copyLoop_ok T L2 L1 ω fuel
    (L1 :: nodePtrs m L1) (List.mem_cons_self _ _) (nodePtrs m L1) xs news
    (((m.setAlloc L2 (socc (m.alloc L1))).baseInit L2).setSz L2 0) fuel 0 L1 L2 [] []
    (by
      refine Seg.frame hw.ring ?_ ?_
      · intro x hx
        simp [Mem.setAlloc, Mem.baseInit, Mem.setSz, Function.update_apply, hL2src x hx]
      · intro x hx
        have hx' : x ∈ L1 :: nodePtrs m L1 := by
          rcases List.mem_append.1 hx with hx | hx
          · exact List.mem_cons_of_mem _ hx
          · simp only [List.mem_singleton] at hx
            simp [hx]
        simp [Mem.setAlloc, Mem.baseInit, Mem.setSz, Function.update_apply, hL2src x hx'])
    (List.nodup_cons.1 hw.nodup).1 (List.mem_cons_self _ _)
    (fun x hx => List.mem_cons_of_mem _ hx)
    (show (nodePtrs m L1).map m.val = xs.map some from h.2)
    (by
      refine ⟨?_, by simp, ?_, ?_⟩
      · simp [Seg, closeRing_eq, Mem.setAlloc, Mem.baseInit, Mem.setSz]
      · simp [closeRing_eq, Mem.setAlloc, Mem.baseInit, Mem.setSz]
      · intro p hp
        simp only [List.mem_singleton] at hp
        rw [hp]; exact ⟨hL2.1, hL2.2.1⟩)
    rfl (by simpa using hnd) (fun p hp => ⟨(hfresh p hp).1, (hfresh p hp).2.1⟩)
    (by simpa using hnotsrc)
    (by rw [hlen, ← List.range_eq_range']; exact hω) (by omega)
  have hsame : SameList m m' L1 := by
    refine ⟨?_, ?_, ?_⟩
    · intro x hx
      have hx' : x ∉ L2 :: ([] ++ news) := fun hn => hnotsrc x (by simpa using hn) hx
      obtain ⟨a1, a2, a3⟩ := h4 x hx'
      rw [a1, a2, a3]
      simp [Mem.setAlloc, Mem.baseInit, Mem.setSz, Function.update_apply, hL2src x hx]
    · rw [h5 L1 (hL2src L1 (List.mem_cons_self _ _))]
      simp [Mem.setAlloc, Mem.baseInit, Mem.setSz, Function.update_apply,
        hL2src L1 (List.mem_cons_self _ _)]
    · rw [h6]
      simp [Mem.setAlloc, Mem.baseInit, Mem.setSz, Function.update_apply,
        hL2src L1 (List.mem_cons_self _ _)]
  have hw2 : WF m' L2 news := by simpa using h2
  refine ⟨m', h1, hw2, ListOf.intro hw2 (by simpa using h3), (hsame.listOf h).1, hsame,
    ?_, ?_, ?_⟩
  · rw [h6]
    simp [Mem.setAlloc, Mem.baseInit, Mem.setSz]
  · intro x hx
    have hx' : x ∉ L2 :: ([] ++ news) := by simpa using hx
    obtain ⟨a1, a2, a3⟩ := h4 x hx'
    have e1 : x ≠ L2 := fun e => hx (by simp [e])
    rw [a1, a2, a3]
    simp [Mem.setAlloc, Mem.baseInit, Mem.setSz, Function.update_apply, e1]
  · rw [h7]
    simp [Mem.setAlloc, Mem.baseInit, Mem.setSz]

/-- C9: copy construction `L2(L1)` from a well-formed list `L1` with element sequence
`xs` (possibly empty), where the new object and the storage returned by the allocator are
fresh and nothing throws, returns normally with enough fuel; `L2` is a well-formed ring
through its own sentinel with the same element sequence (also as read by forward
traversals) and the same `size()`, and `L1` keeps its links, elements, size and
allocator. -/
theorem copy_construction_copies (socc : AllocId → AllocId) (m : Mem T) (L1 L2 : Ptr)
    (xs : List T) (news : List Ptr) (ω : Nat → Outcome) (fuel : Nat)
    (h : ListOf m L1 xs) (hL2 : Fresh m L1 L2) (hnd : (L2 :: news).Nodup)
    (hfresh : ∀ p ∈ news, Fresh m L1 p)
    (hω : (List.range xs.length).map ω = news.map .built) (hfuel : xs.length < fuel) :
    ∃ m', copyCtor socc fuel m L2 L1 ω = some (.ok m') ∧
      ListOf m' L2 xs ∧ nodePtrs m' L2 = news ∧
      forwardElems m' L2 fuel = some (xs.map some) ∧
      forwardElems m' L1 fuel = some (xs.map some) ∧
      forwardElems m L1 fuel = some (xs.map some) ∧
      size m' L2 = size m L1 ∧
      ListOf m' L1 xs ∧ SameList m m' L1 ∧
      m'.alloc L2 = socc (m.alloc L1) := by
  obtain ⟨m', h1, h2, h3, h4, h5, h6, _, _⟩ := copyCtor_ok socc h hL2 hnd hfresh hω hfuel
  refine ⟨m', h1, h3, h2.nodePtrs_eq, h3.forwardElems_eq hfuel, h4.forwardElems_eq hfuel,
    h.forwardElems_eq hfuel, ?_, h4, h5, h6⟩
  rw [h3.size_eq, h.size_eq]

theorem copy_construction_copies_witness :
    ∃ m', copyCtor id 3 exMem 200 100 (fun i => .built (20 + i)) = some (.ok m') ∧
      ListOf m' 200 [5, 6] ∧ nodePtrs m' 200 = [20, 21] ∧
      forwardElems m' 200 3 = some [some 5, some 6] ∧
      forwardElems m' 100 3 = some [some 5, some 6] ∧
      forwardElems exMem 100 3 = some [some 5, some 6] ∧
      size m' 200 = size exMem 100 ∧
      ListOf m' 100 [5, 6] ∧ SameList exMem m' 100 ∧
      m'.alloc 200 = id (exMem.alloc 100) :=
  copy_construction_copies id exMem 100 200 [5, 6] [20, 21] (fun i => .built (20 + i)) 3
    (by decide!) (by decide!) (by decide) (by decide!) (by decide) (by decide)


/-! ## Frame of the mutating calls -/

theorem Seg.closed {m : Mem T} {xs : List Ptr} : ∀ {a b : Ptr}, Seg m a xs b →
    (∀ x ∈ a :: xs, m.next x ∈ xs ++ [b]) ∧ (∀ x ∈ xs ++ [b], m.prev x ∈ a :: xs) := by
  induction xs with
  | nil =>
    intro a b h
    simp only [Seg] at h
    constructor
    · intro x hx
      simp only [List.mem_singleton] at hx
      subst hx; simp [h.1]
    · intro x hx
      simp only [List.nil_append, List.mem_singleton] at hx
      subst hx; simp [h.2]
  | cons y ys ih =>
    intro a b h
    simp only [Seg] at h
    obtain ⟨h1, h2⟩ := ih h.2.2
    constructor
    · intro x hx
      rcases List.mem_cons.1 hx with e | hx
      · subst e; simp [h.1]
      · exact List.mem_cons_of_mem _ (h1 x hx)
    · intro x hx
      rcases List.mem_cons.1 hx with e | hx
      · subst e; simp [h.2.1]
      · exact List.mem_cons_of_mem _ (h2 x hx)

theorem WF.next_mem_cells {m : Mem T} {L : Ptr} {nodes : List Ptr} (h : WF m L nodes) {x : Ptr}
    (hx : x ∈ L :: nodes) : m.next x ∈ L :: nodes := by
  have := (Seg.closed h.ring).1 x hx
  rcases List.mem_append.1 this with h1 | h1
  · exact List.mem_cons_of_mem _ h1
  · simp only [List.mem_singleton] at h1
    simp [h1]

theorem WF.prev_mem_cells {m : Mem T} {L : Ptr} {nodes : List Ptr} (h : WF m L nodes) {x : Ptr}
    (hx : x ∈ L :: nodes) : m.prev x ∈ L :: nodes := by
  refine (Seg.closed h.ring).2 x ?_
  rcases List.mem_cons.1 hx with e | hx
  · simp [e]
  · exact List.mem_append_left _ hx

theorem WF.iterAt_mem {m : Mem T} {L : Ptr} {nodes : List Ptr} (h : WF m L nodes) (i : Nat) :
    iterAt m L i ∈ L :: nodes := by
  unfold iterAt begin
  induction i with
  | zero => exact h.next_mem_cells (List.mem_cons_self _ _)
  | succ i ih =>
    rw [Function.iterate_succ_apply']
    exact h.next_mem_cells ih

/-- What `insert` at position `i` leaves alone. -/
theorem ListOf.insert_frame {m : Mem T} {L : Ptr} {xs : List T} (h : ListOf m L xs) {i : Nat}
    (v : T) {p : Ptr} (hi : i ≤ xs.length) (hp : Fresh m L p) :
    ∃ m' ys, insert m L (iterAt m L i) v (.built p) = .ok m' ∧ ListOf m' L ys ∧
      (∀ x ∈ nodePtrs m' L, x ∈ nodePtrs m L ∨ x = p) ∧
      (∀ x, x ∉ L :: nodePtrs m L → x ≠ p →
        m'.prev x = m.prev x ∧ m'.next x = m.next x ∧ m'.val x = m.val x) ∧
      (∀ l, l ≠ L → m'.sz l = m.sz l) ∧ m'.alloc = m.alloc := by
  obtain ⟨hw, hpre, hpost, hit⟩ := h.split_at i hi
  have hpn : p ∉ (nodePtrs m L).take i ++ (nodePtrs m L).drop i := by
    rw [List.take_append_drop]; exact hp.2.2.2
  obtain ⟨m', h1, h2, h3, _, _, _, _⟩ :=
    ListOf.insert_split v hw hpre hpost ⟨hp.1, hp.2.1⟩ hp.2.2.1 hpn
  rw [← hit] at h1
  have hm := h1
  rw [insert_built] at hm
  injection hm with hm
  have hw0 : WF m L (nodePtrs m L) := h.1
  refine ⟨m', _, h1, h3, ?_, ?_, ?_, ?_⟩
  · intro x hx
    rw [h2.nodePtrs_eq] at hx
    rcases List.mem_append.1 hx with hx | hx
    · exact Or.inl (List.mem_of_mem_take hx)
    · rcases List.mem_cons.1 hx with e | hx
      · exact Or.inr e
      · exact Or.inl (List.mem_of_mem_drop hx)
  · intro x hx hxp
    have e1 : x ≠ iterAt m L i := fun e => hx (e ▸ hw0.iterAt_mem i)
    have e2 : x ≠ m.prev (iterAt m L i) := fun e => hx (e ▸ hw0.prev_mem_cells (hw0.iterAt_mem i))
    subst hm
    simp [Function.update_apply, hxp, e1, e2]
  · intro l hl
    subst hm
    simp [Function.update_apply, hl]
  · subst hm; rfl

/-- What `erase` at position `i` leaves alone. -/
theorem ListOf.erase_frame {m : Mem T} {L : Ptr} {xs : List T} (h : ListOf m L xs) {i : Nat}
    (hi : i < xs.length) :
    ∃ ys, ListOf (erase m L (iterAt m L i)) L ys ∧
      (∀ x ∈ nodePtrs (erase m L (iterAt m L i)) L, x ∈ nodePtrs m L) ∧
      (∀ x, x ∉ L :: nodePtrs m L →
        (erase m L (iterAt m L i)).prev x = m.prev x ∧
        (erase m L (iterAt m L i)).next x = m.next x ∧
        (erase m L (iterAt m L i)).val x = m.val x) ∧
      (∀ l, l ≠ L → (erase m L (iterAt m L i)).sz l = m.sz l) ∧
      (erase m L (iterAt m L i)).alloc = m.alloc := by
  obtain ⟨_, hw, h3, _⟩ := h.erase_at hi
  have hw' := WF.erase_ok hw
  have hw0 : WF m L (nodePtrs m L) := h.1
  refine ⟨_, h3, ?_, ?_, ?_, rfl⟩
  · intro x hx
    rw [hw'.nodePtrs_eq] at hx
    rcases List.mem_append.1 hx with hx | hx
    · exact List.mem_of_mem_take hx
    · exact List.mem_of_mem_drop hx
  · intro x hx
    have e1 : x ≠ iterAt m L i := fun e => hx (e ▸ hw0.iterAt_mem i)
    have e2 : x ≠ m.prev (iterAt m L i) := fun e => hx (e ▸ hw0.prev_mem_cells (hw0.iterAt_mem i))
    have e3 : x ≠ m.next (iterAt m L i) := fun e => hx (e ▸ hw0.next_mem_cells (hw0.iterAt_mem i))
    simp [erase_prev, erase_next, erase_val, Function.update_apply, e1, e2, e3]
  · intro l hl
    simp [erase_sz, Function.update_apply, hl]

/-- Every call is an `insert` or an `erase` at a position inside the list. -/
theorem Op.run_cases {m : Mem T} {L : Ptr} {xs : List T} (h : ListOf m L xs) (op : Op T)
    (hpre : Op.pre m L op) :
    (∃ i v p, i ≤ xs.length ∧ Fresh m L p ∧ op.storage = [p] ∧
      op.run m L = (ListAlloc.insert m L (iterAt m L i) v (.built p)).toOption) ∨
    (∃ i, i < xs.length ∧ op.storage = [] ∧
      op.run m L = some (ListAlloc.erase m L (iterAt m L i))) := by
  have hsz := h.size_eq
  cases op with
  | push_back v p =>
    obtain ⟨_, _, _, _, _, _, h6⟩ := h.insert_at v (Nat.le_refl _) hpre
    refine Or.inl ⟨xs.length, v, p, Nat.le_refl _, hpre, rfl, ?_⟩
    rw [h6 rfl]; rfl
  | push_front v p => exact Or.inl ⟨0, v, p, Nat.zero_le _, hpre, rfl, rfl⟩
  | insert i v p => exact Or.inl ⟨i, v, p, by rw [← hsz]; exact hpre.1, hpre.2, rfl, rfl⟩
  | erase i => exact Or.inr ⟨i, by rw [← hsz]; exact hpre, rfl, rfl⟩
  | pop_back =>
    have hpos : 0 < xs.length := by rw [← hsz]; exact hpre
    obtain ⟨_, hw, _, _⟩ := h.erase_at (i := xs.length - 1) (by omega)
    have hlen := h.length_eq
    have hd : (nodePtrs m L).drop (xs.length - 1 + 1) = [] :=
      List.drop_of_length_le (by omega)
    rw [hd] at hw
    have hy : m.prev L = iterAt m L (xs.length - 1) := (Seg.append.1 hw.ring).2.2
    refine Or.inr ⟨xs.length - 1, by omega, rfl, ?_⟩
    show some (ListAlloc.erase m L (m.prev (end_ L))) = _
    rw [end_, hy]
  | pop_front =>
    exact Or.inr ⟨0, by rw [← hsz]; exact hpre, rfl, rfl⟩

theorem Op.run_frame {m : Mem T} {L : Ptr} {xs : List T} (h : ListOf m L xs) (op : Op T)
    (hpre : Op.pre m L op) :
    ∃ m' ys, op.run m L = some m' ∧ ListOf m' L ys ∧
      (∀ x ∈ nodePtrs m' L, x ∈ nodePtrs m L ∨ x ∈ op.storage) ∧
      (∀ x, x ∉ L :: nodePtrs m L → x ∉ op.storage →
        m'.prev x = m.prev x ∧ m'.next x = m.next x ∧ m'.val x = m.val x) ∧
      (∀ l, l ≠ L → m'.sz l = m.sz l) ∧ m'.alloc = m.alloc := by
  rcases Op.run_cases h op hpre with ⟨i, v, p, hi, hp, hst, hrun⟩ | ⟨i, hi, hst, hrun⟩
  · obtain ⟨m', ys, h1, h2, h3, h4, h5, h6⟩ := h.insert_frame v hi hp
    refine ⟨m', ys, by rw [hrun, h1]; rfl, h2, ?_, ?_, h5, h6⟩
    · intro x hx
      rcases h3 x hx with h' | h'
      · exact Or.inl h'
      · exact Or.inr (by rw [hst, h']; exact List.mem_singleton_self _)
    · intro x hx hxs
      exact h4 x hx (fun e => hxs (by rw [hst, e]; exact List.mem_singleton_self _))
  · obtain ⟨ys, h2, h3, h4, h5, h6⟩ := h.erase_frame hi
    exact ⟨_, ys, hrun, h2, fun x hx => Or.inl (h3 x hx), fun x hx _ => h4 x hx, h5, h6⟩

/-- A sequence of calls on the list at `A` leaves every address in `F` alone, when `F`
holds no cell of the list and none of the storage the calls obtain. -/
theorem runOps_frame {A : Ptr} (F : List Ptr) (ops : List (Op T)) :
    ∀ {m m' : Mem T} {xs : List T}, ListOf m A xs →
      (∀ x ∈ F, x ∉ A :: nodePtrs m A) →
      (∀ op ∈ ops, ∀ p ∈ op.storage, p ∉ F) →
      runOps A m ops = some m' →
      (∀ x ∈ F, m'.prev x = m.prev x ∧ m'.next x = m.next x ∧ m'.val x = m.val x) ∧
      (∀ l, l ≠ A → m'.sz l = m.sz l) ∧ m'.alloc = m.alloc := by
  induction ops with
  | nil =>
    intro m m' xs _ _ _ hr
    simp only [runOps, Option.some.injEq] at hr
    subst hr
    exact ⟨fun _ _ => ⟨rfl, rfl, rfl⟩, fun _ _ => rfl, rfl⟩
  | cons op ops ih =>
    intro m m' xs h hF hst hr
    simp only [runOps] at hr
    split at hr
    · rename_i hpre
      obtain ⟨m1, ys, h1, h2, h3, h4, h5, h6⟩ := Op.run_frame h op hpre
      rw [h1] at hr
      have hst1 : ∀ p ∈ op.storage, p ∉ F := hst op (List.mem_cons_self _ _)
      have hF1 : ∀ x ∈ F, x ∉ A :: nodePtrs m1 A := by
        intro x hx hx'
        rcases List.mem_cons.1 hx' with e | hx'
        · exact hF x hx (by simp [e])
        · rcases h3 x hx' with h' | h'
          · exact hF x hx (List.mem_cons_of_mem _ h')
          · exact hst1 x h' hx
      obtain ⟨a1, a2, a3⟩ := ih h2 hF1 (fun o ho => hst o (List.mem_cons_of_mem _ ho)) hr
      refine ⟨?_, fun l hl => (a2 l hl).trans (h5 l hl), a3.trans h6⟩
      intro x hx
      obtain ⟨b1, b2, b3⟩ := a1 x hx
      obtain ⟨c1, c2, c3⟩ := h4 x (hF x hx) (fun hs => hst1 x hs hx)
      exact ⟨b1.trans c1, b2.trans c2, b3.trans c3⟩
    · cases hr


theorem runOps_sameList {A B : Ptr} {m m' : Mem T} {xs ys : List T} {ops : List (Op T)}
    (hA : ListOf m A xs) (hB : ListOf m B ys) (hAB : A ≠ B)
    (hdisj : ∀ x ∈ B :: nodePtrs m B, x ∉ A :: nodePtrs m A)
    (hr : runOps A m ops = some m')
    (hst : ∀ op ∈ ops, ∀ p ∈ op.storage, p ∉ B :: nodePtrs m B) :
    SameList m m' B ∧ ListOf m' B ys ∧ nodePtrs m' B = nodePtrs m B := by
  obtain ⟨h1, h2, h3⟩ := runOps_frame (B :: nodePtrs m B) ops hA hdisj hst hr
  have hs : SameList m m' B := ⟨h1, h2 B (Ne.symm hAB), by rw [h3]⟩
  exact ⟨hs, hs.listOf hB⟩

/-- C10: after the copy construction `L2(L1)` (fresh storage, nothing throws) the two
lists have different sentinels and share no node; every later run of `insert`, `erase`,
`push_*`, `pop_*` calls on `L1`, each within its precondition and obtaining storage that
is no cell of `L2`, leaves the links, elements, size and allocator of `L2` as they were,
and every such run on `L2` leaves `L1` as it was. -/
theorem copy_is_independent (socc : AllocId → AllocId) (m : Mem T) (L1 L2 : Ptr)
    (xs : List T) (news : List Ptr) (ω : Nat → Outcome) (fuel : Nat)
    (h : ListOf m L1 xs) (hL2 : Fresh m L1 L2) (hnd : (L2 :: news).Nodup)
    (hfresh : ∀ p ∈ news, Fresh m L1 p)
    (hω : (List.range xs.length).map ω = news.map .built) (hfuel : xs.length < fuel) :
    ∃ m1, copyCtor socc fuel m L2 L1 ω = some (.ok m1) ∧
      L1 ≠ L2 ∧
      (∀ x ∈ L1 :: nodePtrs m1 L1, x ∉ L2 :: nodePtrs m1 L2) ∧
      (∀ (ops : List (Op T)) (m2 : Mem T), runOps L1 m1 ops = some m2 →
        (∀ op ∈ ops, ∀ p ∈ op.storage, p ∉ L2 :: nodePtrs m1 L2) →
        SameList m1 m2 L2 ∧ ListOf m2 L2 xs ∧ nodePtrs m2 L2 = nodePtrs m1 L2) ∧
      (∀ (ops : List (Op T)) (m2 : Mem T), runOps L2 m1 ops = some m2 →
        (∀ op ∈ ops, ∀ p ∈ op.storage, p ∉ L1 :: nodePtrs m1 L1) →
        SameList m1 m2 L1 ∧ ListOf m2 L1 xs ∧ nodePtrs m2 L1 = nodePtrs m1 L1) := by
  obtain ⟨m1, h1, h2, h3, h4, h5, _, _, _⟩ := copyCtor_ok socc h hL2 hnd hfresh hω hfuel
  have hn1 : nodePtrs m1 L1 = nodePtrs m L1 := (h5.listOf h).2
  have hn2 : nodePtrs m1 L2 = news := h2.nodePtrs_eq
  have hdisj : ∀ x ∈ L2 :: nodePtrs m1 L2, x ∉ L1 :: nodePtrs m1 L1 := by
    intro x hx hx'
    rw [hn2] at hx
    rw [hn1] at hx'
    have hf : Fresh m L1 x := by
      rcases List.mem_cons.1 hx with e | hx
      · rw [e]; exact hL2
      · exact hfresh x hx
    rcases List.mem_cons.1 hx' with e | hx'
    · exact hf.2.2.1 e
    · exact hf.2.2.2 hx'
  have hne : L1 ≠ L2 := Ne.symm hL2.2.2.1
  refine ⟨m1, h1, hne, fun x hx hx' => hdisj x hx' hx, ?_, ?_⟩
  · intro ops m2 hr hst
    exact runOps_sameList h4 h3 hne hdisj hr hst
  · intro ops m2 hr hst
    exact runOps_sameList h3 h4 (Ne.symm hne) (fun x hx hx' => hdisj x hx' hx) hr hst

theorem copy_is_independent_witness :
    ∃ m1, copyCtor id 3 exMem 200 100 (fun i => .built (20 + i)) = some (.ok m1) ∧
      100 ≠ 200 ∧
      (∀ x ∈ 100 :: nodePtrs m1 100, x ∉ 200 :: nodePtrs m1 200) ∧
      (∀ (ops : List (Op Nat)) (m2 : Mem Nat), runOps 100 m1 ops = some m2 →
        (∀ op ∈ ops, ∀ p ∈ op.storage, p ∉ 200 :: nodePtrs m1 200) →
        SameList m1 m2 200 ∧ ListOf m2 200 [5, 6] ∧ nodePtrs m2 200 = nodePtrs m1 200) ∧
      (∀ (ops : List (Op Nat)) (m2 : Mem Nat), runOps 200 m1 ops = some m2 →
        (∀ op ∈ ops, ∀ p ∈ op.storage, p ∉ 100 :: nodePtrs m1 100) →
        SameList m1 m2 100 ∧ ListOf m2 100 [5, 6] ∧ nodePtrs m2 100 = nodePtrs m1 100) :=
  copy_is_independent id exMem 100 200 [5, 6] [20, 21] (fun i => .built (20 + i)) 3
    (by decide!) (by decide!) (by decide) (by decide!) (by decide) (by decide)


/-! ## Destruction of a well-formed list -/

theorem releaseEvents_append (a : AllocId) (ps qs : List Ptr) :
    releaseEvents a (ps ++ qs) = releaseEvents a ps ++ releaseEvents a qs := by
  simp [releaseEvents, List.flatMap_append]

/-- The destructor pops the nodes from the back until the list is empty; it writes no
cell outside the list. -/
theorem dtor_ok {A : Ptr} (nodes : List Ptr) :
    ∀ (m : Mem T) (fuel : Nat), WF m A nodes → nodes.length < fuel →
      ∃ m', dtor A fuel m = some m' ∧ WF m' A [] ∧
        (∀ x, x ∉ A :: nodes →
          m'.prev x = m.prev x ∧ m'.next x = m.next x ∧ m'.val x = m.val x) ∧
        (∀ l, l ≠ A → m'.sz l = m.sz l) ∧ m'.alloc = m.alloc ∧
        m'.trace = m.trace ++ releaseEvents (m.alloc A) nodes.reverse := by
  induction nodes using List.reverseRecOn with
  | nil =>
    intro m fuel h hf
    obtain ⟨f, rfl⟩ : ∃ f, fuel = f + 1 := ⟨fuel - 1, by simp at hf; omega⟩
    refine ⟨m, ?_, h, fun _ _ => ⟨rfl, rfl, rfl⟩, fun _ _ => rfl, rfl, by simp [releaseEvents]⟩
    have hs : m.sz A = 0 := h.size_eq
    simp [dtor, empty, hs]
  | append_singleton pre y ih =>
    intro m fuel h hf
    obtain ⟨f, rfl⟩ : ∃ f, fuel = f + 1 := ⟨fuel - 1, by simp at hf; omega⟩
    have hs : m.sz A = pre.length + 1 := by simpa using h.size_eq
    have hy : m.prev A = y := (Seg.append.1 h.ring).2.2
    have he : pop_back m A = erase m A y := by unfold pop_back end_; rw [hy]
    have hw : WF (erase m A y) A pre := by
      have := @WF.erase_ok T m A pre [] y h
      simpa using this
    obtain ⟨m', h1, h2, h3, h4, h5, h6⟩ := ih (erase m A y) f hw
      (by simp at hf; omega)
    have hymem : y ∈ A :: (pre ++ [y]) := by simp
    refine ⟨m', ?_, h2, ?_, ?_, by rw [h5]; rfl, ?_⟩
    · rw [dtor]
      simp only [empty, hs]
      rw [he]
      simpa using h1
    · intro x hx
      have hx' : x ∉ A :: pre := fun hn => hx (by
        rcases List.mem_cons.1 hn with e | hn
        · simp [e]
        · exact List.mem_cons_of_mem _ (List.mem_append_left _ hn))
      obtain ⟨a1, a2, a3⟩ := h3 x hx'
      have e1 : x ≠ y := fun e => hx (e ▸ hymem)
      have e2 : x ≠ m.prev y := fun e => hx (e ▸ h.prev_mem_cells hymem)
      have e3 : x ≠ m.next y := fun e => hx (e ▸ h.next_mem_cells hymem)
      rw [a1, a2, a3]
      simp [erase_prev, erase_next, erase_val, Function.update_apply, e1, e2, e3]
    · intro l hl
      rw [h4 l hl]
      simp [erase_sz, Function.update_apply, hl]
    · rw [h6, erase_trace, erase_alloc]
      simp [releaseEvents]


/-! ## The copy loop of `operator=` -/

theorem buildEvents_cons (a : AllocId) (p : Ptr) (ps : List Ptr) :
    buildEvents a (p :: ps) = [.allocate a p, .construct a p] ++ buildEvents a ps := by
  simp [buildEvents]

/-- An `insert` whose outcome is an exception writes at most the storage it obtained. -/
theorem insert_fails (m : Mem T) (L it : Ptr) (v : T) {o : Outcome} (ho : o.fails = true) :
    ∃ m', insert m L it v o = .threw m' ∧
      (∀ x, x ∉ o.storage → m'.prev x = m.prev x ∧ m'.next x = m.next x) ∧
      m'.val = m.val ∧ m'.sz = m.sz ∧ m'.alloc = m.alloc ∧
      m'.trace = m.trace ++ failEvents (m.alloc L) o := by
  cases o with
  | built p => simp [Outcome.fails] at ho
  | allocThrows =>
    exact ⟨_, rfl, fun _ _ => ⟨rfl, rfl⟩, rfl, rfl, rfl, rfl⟩
  | ctorThrows p =>
    refine ⟨_, rfl, ?_, rfl, rfl, rfl, ?_⟩
    · intro x hx
      have e : x ≠ p := fun e => hx (by simp [Outcome.storage, e])
      simp [Mem.log, Mem.baseInit, Function.update_apply, e]
    · simp [Mem.log, Mem.baseInit, failEvents]

/-- The loop `for (const auto& el : oth) temp.push_back(el)`: the outcomes build the
nodes `news`; then either the source is exhausted and the loop ends normally, or the
next outcome `o` is an exception that leaves the loop. -/
theorem assignLoop_run {temp src : Ptr} {ω : Nat → Outcome} (S : List Ptr) (o : Outcome)
    (hsrcS : src ∈ S) :
    ∀ (spost : List Ptr) (ys : List T) (news : List Ptr) (m : Mem T) (fuel i : Nat)
      (q : Ptr) (done : List Ptr),
      Seg m q spost src → src ∉ spost → q ∈ S → (∀ x ∈ spost, x ∈ S) →
      spost.map m.val = ys.map some →
      WF m temp done →
      (temp :: (done ++ news)).Nodup →
      (∀ p ∈ news, 0 < p ∧ p < SIZE_MOD) →
      (∀ x ∈ temp :: (done ++ news), x ∉ S) →
      (List.range' i news.length).map ω = news.map .built →
      (news.length = spost.length ∨
        (news.length < spost.length ∧ ω (i + news.length) = o ∧ o.fails = true ∧
          ∀ p ∈ o.storage, p ∉ S ∧ p ∉ temp :: (done ++ news))) →
      spost.length < fuel →
      ∃ m', assignLoop temp src ω fuel m i (m.next q) =
          some (if news.length = spost.length then .ok m' else .threw m') ∧
        WF m' temp (done ++ news) ∧
        (done ++ news).map m'.val = done.map m.val ++ (ys.take news.length).map some ∧
        (∀ x, x ∉ temp :: (done ++ news) → x ∉ o.storage →
          m'.prev x = m.prev x ∧ m'.next x = m.next x ∧ m'.val x = m.val x) ∧
        (∀ l, l ≠ temp → m'.sz l = m.sz l) ∧ m'.alloc = m.alloc ∧
        m'.trace = m.trace ++ buildEvents (m.alloc temp) news ++
          (if news.length = spost.length then [] else failEvents (m.alloc temp) o) := by
  intro spost
  induction spost with
  | nil =>
    intro ys news m fuel i q done hseg _ _ _ _ hwf _ _ _ _ hlast hfuel
    have hnews : news = [] := by
      rcases hlast with h | h
      · exact List.eq_nil_of_length_eq_zero (by simpa using h)
      · simp at h
    subst hnews
    obtain ⟨f, rfl⟩ : ∃ f, fuel = f + 1 := ⟨fuel - 1, by simp at hfuel; omega⟩
    refine ⟨m, ?_, by simpa using hwf, by simp, fun _ _ _ => ⟨rfl, rfl, rfl⟩,
      fun _ _ => rfl, rfl, by simp [buildEvents]⟩
    rw [assignLoop, hseg.1]
    simp [end_]
  | cons y ys' ih =>
    intro ys news m fuel i q done hseg hsrcn hq hsub hvs hwf hnd haddr hdisj hω hlast hfuel
    simp only [Seg] at hseg
    obtain ⟨e, es, rfl⟩ : ∃ e es, ys = e :: es := by
      cases ys with
      | nil => simp at hvs
      | cons e es => exact ⟨e, es, rfl⟩
    obtain ⟨f, rfl⟩ : ∃ f, fuel = f + 1 := ⟨fuel - 1, by simp at hfuel; omega⟩
    simp only [List.map_cons, List.cons.injEq] at hvs
    have hysrc : y ≠ src := fun e' => hsrcn (by simp [e'])
    have hy_S : y ∈ S := hsub y (List.mem_cons_self _ _)
    have hprevT : m.prev temp ∈ temp :: done := Seg.prev_mem hwf.ring
    cases news with
    | nil =>
      have hfail : ω i = o ∧ o.fails = true ∧ ∀ p ∈ o.storage, p ∉ S ∧ p ∉ temp :: done := by
        rcases hlast with h | h
        · simp at h
        · simpa using h.2
      obtain ⟨m', h1, h2, h3, h4, h5, h6⟩ := insert_fails m temp (end_ temp) e hfail.2.1
      refine ⟨m', ?_, ?_, ?_, ?_, fun l _ => by rw [h4], h5, ?_⟩
      · rw [hseg.1, assignLoop]
        simp only [end_, if_neg hysrc, hvs.1, push_back, hfail.1]
        rw [show insert m temp temp e o = .threw m' from h1]
        simp
      · have hw : WF m' temp done := by
          refine WF.congr hwf ?_ ?_ (by rw [h4])
          · intro x hx
            exact (h2 x (fun hs => (hfail.2.2 x hs).2 hx)).2
          · intro x hx
            exact (h2 x (fun hs => (hfail.2.2 x hs).2 hx)).1
        simpa using hw
      · simp [h3]
      · intro x _ hxs
        obtain ⟨a1, a2⟩ := h2 x hxs
        exact ⟨a1, a2, by rw [h3]⟩
      · simp [h6, buildEvents]
    | cons p news' =>
      simp only [List.length_cons, List.range'_succ, List.map_cons, List.cons.injEq] at hω
      have hp_notin : p ∉ temp :: done := by
        have h1 : (temp :: (done ++ p :: news')).Perm (p :: (temp :: (done ++ news'))) :=
          (List.Perm.cons _ List.perm_middle).trans (List.Perm.swap _ _ _)
        have h2 := (List.nodup_cons.1 (h1.nodup_iff.1 hnd)).1
        intro hx
        apply h2
        rcases List.mem_cons.1 hx with e' | hx
        · simp [e']
        · exact List.mem_cons_of_mem _ (List.mem_append_left _ hx)
      have hp_S : p ∉ S := hdisj p (by simp)
      have hp_addr : 0 < p ∧ p < SIZE_MOD := haddr p (List.mem_cons_self _ _)
      have hprevT_S : m.prev temp ∉ S := by
        apply hdisj
        rcases List.mem_cons.1 hprevT with e' | hx
        · simp [e']
        · exact List.mem_cons_of_mem _ (List.mem_append_left _ hx)
      have htemp_S : temp ∉ S := hdisj temp (List.mem_cons_self _ _)
      have hw1 := @WF.insert_ok T m _ temp done [] p temp e (by simpa using hwf) rfl hp_addr
        (fun e' => hp_notin (by simp [e']))
        (by simpa using fun hx => hp_notin (List.mem_cons_of_mem _ hx))
        (insert_built _ _ _ _ _)
      obtain ⟨m', h1, h2, h3, h4, h5, h6, h7⟩ := ih es news'
        { prev := Function.update (Function.update (Function.update m.prev p 0) p
            (m.prev temp)) temp p
          next := Function.update (Function.update (Function.update m.next p 0)
            (m.prev temp) p) p temp
          val := Function.update m.val p (some e)
          sz := Function.update m.sz temp (incSz (m.sz temp))
          alloc := m.alloc
          trace := m.trace ++ [.allocate (m.alloc temp) p] ++ [.construct (m.alloc temp) p] }
        f (i + 1) y (done ++ [p])
        (by
          refine Seg.frame hseg.2.2 ?_ ?_
          · intro x hx
            have hx' : x ∈ S := hsub x hx
            have e1 : x ≠ p := fun e' => hp_S (e' ▸ hx')
            have e2 : x ≠ m.prev temp := fun e' => hprevT_S (e' ▸ hx')
            simp [Function.update_apply, e1, e2]
          · intro x hx
            have hx' : x ∈ S := by
              rcases List.mem_append.1 hx with hx | hx
              · exact hsub x (List.mem_cons_of_mem _ hx)
              · simp only [List.mem_singleton] at hx
                rw [hx]; exact hsrcS
            have e1 : x ≠ p := fun e' => hp_S (e' ▸ hx')
            have e2 : x ≠ temp := fun e' => htemp_S (e' ▸ hx')
            simp [Function.update_apply, e1, e2])
        (fun hx => hsrcn (List.mem_cons_of_mem _ hx)) hy_S
        (fun x hx => hsub x (List.mem_cons_of_mem _ hx))
        (by
          have : p ∉ ys' := fun hx => hp_S (hsub p (List.mem_cons_of_mem _ hx))
          simp only [map_update_of_not_mem _ _ _ this]
          exact hvs.2)
        hw1 (by simpa using hnd) (fun x hx => haddr x (List.mem_cons_of_mem _ hx))
        (by simpa using hdisj) hω.2
        (by
          rcases hlast with h | h
          · exact Or.inl (by simpa using h)
          · refine Or.inr ⟨by simpa using h.1, ?_, h.2.2.1, ?_⟩
            · rw [← h.2.1]
              congr 1
              simp only [List.length_cons]; omega
            · intro x hx
              have := h.2.2.2 x hx
              exact ⟨this.1, by simpa using this.2⟩)
        (by simp at hfuel; omega)
      have hcond : ((p :: news').length = (y :: ys').length) ↔ (news'.length = ys'.length) := by
        simp
      refine ⟨m', ?_, by simpa using h2, ?_, ?_, ?_, h6, ?_⟩
      · rw [hseg.1, assignLoop]
        simp only [end_, if_neg hysrc, hvs.1, push_back, hω.1]
        rw [insert_built]
        refine Eq.trans h1 ?_
        by_cases hc : news'.length = ys'.length
        · simp [hc]
        · simp [hc]
      · have hpd : p ∉ done := fun hx => hp_notin (List.mem_cons_of_mem _ hx)
        have := h3
        simp only [List.append_assoc, List.singleton_append, List.map_append, List.map_cons,
          List.map_nil, Function.update_same, map_update_of_not_mem _ _ _ hpd] at this
        simp only [List.map_append, List.map_cons, List.length_cons, List.take_succ_cons]
        exact this
      · intro x hx hxs
        have hx' : x ∉ temp :: (done ++ [p] ++ news') := by simpa using hx
        obtain ⟨a1, a2, a3⟩ := h4 x hx' hxs
        have e1 : x ≠ p := fun e' => hx (by simp [e'])
        have e2 : x ≠ temp := fun e' => hx (by simp [e'])
        have e3 : x ≠ m.prev temp := by
          intro e'
          apply hx
          rw [e']
          rcases List.mem_cons.1 hprevT with e'' | hn
          · simp [e'']
          · exact List.mem_cons_of_mem _ (List.mem_append_left _ hn)
        rw [a1, a2, a3]
        simp [Function.update_apply, e1, e2, e3]
      · intro l hl
        rw [h5 l hl]
        simp [Function.update_apply, hl]
      · rw [h7]
        simp only [buildEvents_cons, hcond, List.length_cons]
        by_cases hc : news'.length = ys'.length
        · simp [hc]
        · simp [hc]


/-! ## Copy assignment: the exit by exception -/

theorem ctor_frame (m : Mem T) (L : Ptr) (a : AllocId) :
    (∀ x, x ≠ L → (ctor m L a).prev x = m.prev x ∧ (ctor m L a).next x = m.next x) ∧
      (ctor m L a).val = m.val ∧ (∀ l, l ≠ L → (ctor m L a).sz l = m.sz l) ∧
      (∀ l, l ≠ L → (ctor m L a).alloc l = m.alloc l) ∧ (ctor m L a).alloc L = a ∧
      (ctor m L a).trace = m.trace := by
  refine ⟨?_, rfl, ?_, ?_, ?_, rfl⟩
  · intro x hx
    simp [ctor, Mem.setNext, Mem.setPrev, Mem.setSz, Mem.baseInit, Mem.setAlloc,
      Function.update_apply, hx]
  · intro l hl
    simp [ctor, Mem.setNext, Mem.setPrev, Mem.setSz, Mem.baseInit, Mem.setAlloc,
      Function.update_apply, hl]
  · intro l hl
    simp [ctor, Mem.setNext, Mem.setPrev, Mem.setSz, Mem.baseInit, Mem.setAlloc,
      Function.update_apply, hl]
  · simp [ctor, Mem.setNext, Mem.setPrev, Mem.setSz, Mem.baseInit, Mem.setAlloc]

theorem ctor_wf (m : Mem T) {L : Ptr} (a : AllocId) (hL : 0 < L ∧ L < SIZE_MOD) :
    WF (ctor m L a) L [] := by
  refine ⟨?_, by simp, ?_, ?_⟩
  · simp [Seg, ctor, Mem.setNext, Mem.setPrev, Mem.setSz, Mem.baseInit, Mem.setAlloc]
  · simp [ctor, Mem.setNext, Mem.setPrev, Mem.setSz, Mem.baseInit, Mem.setAlloc]
  · intro p hp
    simp only [List.mem_singleton] at hp
    subst hp; exact hL

/-- The memory in which `operator=` starts its copy loop differs from the one it was
called in at the sentinel of `temp` and in the allocator of the destination. -/
theorem assignStart_frame (pocca : Bool) (m : Mem T) {dst temp : Ptr} (src : Ptr)
    (hne : temp ≠ dst) :
    (∀ x, x ≠ temp → (assignStart pocca m dst src temp).prev x = m.prev x ∧
      (assignStart pocca m dst src temp).next x = m.next x) ∧
    (assignStart pocca m dst src temp).val = m.val ∧
    (∀ l, l ≠ temp → (assignStart pocca m dst src temp).sz l = m.sz l) ∧
    (∀ l, l ≠ temp → l ≠ dst → (assignStart pocca m dst src temp).alloc l = m.alloc l) ∧
    (assignStart pocca m dst src temp).alloc dst
      = (if pocca = true then m.alloc src else m.alloc dst) ∧
    (assignStart pocca m dst src temp).alloc temp
      = (if pocca = true then m.alloc src else m.alloc dst) ∧
    (assignStart pocca m dst src temp).trace = m.trace := by
  cases pocca
  · obtain ⟨h1, h2, h3, h4, h5, h6⟩ := ctor_frame m temp (m.alloc dst)
    simp only [assignStart, Bool.false_eq_true, if_false]
    exact ⟨h1, h2, h3, fun l hl _ => h4 l hl, h4 dst (Ne.symm hne), h5, h6⟩
  · obtain ⟨h1, h2, h3, h4, h5, h6⟩ :=
      ctor_frame (m.setAlloc dst (m.alloc src)) temp ((m.setAlloc dst (m.alloc src)).alloc dst)
    simp only [assignStart, if_true]
    refine ⟨h1, h2, h3, ?_, ?_, ?_, h6⟩
    · intro l hl hl'
      rw [h4 l hl]
      simp [Mem.setAlloc, Function.update_apply, hl']
    · rw [h4 dst (Ne.symm hne)]
      simp [Mem.setAlloc]
    · rw [h5]
      simp [Mem.setAlloc]

/-- The copy loop of `operator=` started on two well-formed lists without common cells,
with a fresh `temp` and fresh storage. -/
theorem assignLoop_from_start (pocca : Bool) {m : Mem T} {dst src temp : Ptr}
    {xs : List T} {news : List Ptr} {ω : Nat → Outcome} {fuel : Nat} (o : Outcome)
    (hs : ListOf m src xs)
    (hnd : (temp :: news).Nodup)
    (hfresh : ∀ p ∈ temp :: news, Fresh m dst p ∧ Fresh m src p)
    (hω : (List.range news.length).map ω = news.map .built)
    (hlast : news.length = xs.length ∨
      (news.length < xs.length ∧ ω news.length = o ∧ o.fails = true ∧
        ∀ p ∈ o.storage, (Fresh m dst p ∧ Fresh m src p) ∧ p ∉ temp :: news))
    (hfuel : xs.length < fuel) :
    ∃ m', assignLoop temp src ω fuel (assignStart pocca m dst src temp) 0
          (begin (assignStart pocca m dst src temp) src) =
          some (if news.length = xs.length then .ok m' else .threw m') ∧
      WF m' temp news ∧
      news.map m'.val = (xs.take news.length).map some ∧
      (∀ x, x ∉ temp :: news → x ∉ o.storage →
        m'.prev x = m.prev x ∧ m'.next x = m.next x ∧ m'.val x = m.val x) ∧
      (∀ l, l ≠ temp → m'.sz l = m.sz l) ∧
      (∀ l, l ≠ temp → l ≠ dst → m'.alloc l = m.alloc l) ∧
      m'.alloc dst = (if pocca = true then m.alloc src else m.alloc dst) ∧
      m'.alloc temp = (if pocca = true then m.alloc src else m.alloc dst) ∧
      m'.trace = m.trace ++
        buildEvents (if pocca = true then m.alloc src else m.alloc dst) news ++
        (if news.length = xs.length then []
          else failEvents (if pocca = true then m.alloc src else m.alloc dst) o) := by
  have htd : temp ≠ dst := (hfresh temp (List.mem_cons_self _ _)).1.2.2.1
  have hts : temp ≠ src := (hfresh temp (List.mem_cons_self _ _)).2.2.2.1
  obtain ⟨f1, f2, f3, f4, f5, f6, f7⟩ := assignStart_frame pocca m src htd
  have hws : WF m src (nodePtrs m src) := hs.1
  have hnotS : ∀ x ∈ temp :: news, x ∉ cells m dst ++ cells m src := by
    intro x hx hx'
    obtain ⟨a1, a2⟩ := hfresh x hx
    rcases List.mem_append.1 hx' with h | h
    · rcases List.mem_cons.1 h with e | h
      · exact a1.2.2.1 e
      · exact a1.2.2.2 h
    · rcases List.mem_cons.1 h with e | h
      · exact a2.2.2.1 e
      · exact a2.2.2.2 h
  have hsrcS : src ∈ cells m dst ++ cells m src :=
    List.mem_append_right _ (List.mem_cons_self _ _)
  have hsubS : ∀ x ∈ nodePtrs m src, x ∈ cells m dst ++ cells m src :=
    fun x hx => List.mem_append_right _ (List.mem_cons_of_mem _ hx)
  have hSt : ∀ x ∈ cells m dst ++ cells m src, x ≠ temp :=
    fun x hx e => hnotS temp (List.mem_cons_self _ _) (e ▸ hx)
  have ht_addr : 0 < temp ∧ temp < SIZE_MOD :=
    ⟨(hfresh temp (List.mem_cons_self _ _)).1.1, (hfresh temp (List.mem_cons_self _ _)).1.2.1⟩
  obtain ⟨m', h1, h2, h3, h4, h5, h6, h7⟩ := @assignLoop_run T temp src ω
    (cells m dst ++ cells m src) o hsrcS (nodePtrs m src) xs news
    (assignStart pocca m dst src temp) fuel 0 src []
    (by
      refine Seg.frame hws.ring ?_ ?_
      · intro x hx
        exact (f1 x (hSt x (List.mem_append_right _ hx))).2
      · intro x hx
        refine (f1 x (hSt x ?_)).1
        rcases List.mem_append.1 hx with hx | hx
        · exact hsubS x hx
        · simp only [List.mem_singleton] at hx
          rw [hx]; exact hsrcS)
    (List.nodup_cons.1 hws.nodup).1 hsrcS hsubS
    (by rw [f2]; exact hs.2)
    (by
      have := ctor_wf (if pocca = true then m.setAlloc dst (m.alloc src) else m)
        ((if pocca = true then m.setAlloc dst (m.alloc src) else m).alloc dst) ht_addr
      exact this)
    (by simpa using hnd)
    (fun p hp => ⟨(hfresh p (List.mem_cons_of_mem _ hp)).1.1,
      (hfresh p (List.mem_cons_of_mem _ hp)).1.2.1⟩)
    (by simpa using hnotS)
    (by rw [← List.range_eq_range']; exact hω)
    (by
      rw [hs.length_eq]
      rcases hlast with h | h
      · exact Or.inl h
      · refine Or.inr ⟨h.1, by simpa using h.2.1, h.2.2.1, ?_⟩
        intro p hp
        obtain ⟨⟨a1, a2⟩, a3⟩ := h.2.2.2 p hp
        refine ⟨?_, by simpa using a3⟩
        intro hx
        rcases List.mem_append.1 hx with h' | h'
        · rcases List.mem_cons.1 h' with e | h'
          · exact a1.2.2.1 e
          · exact a1.2.2.2 h'
        · rcases List.mem_cons.1 h' with e | h'
          · exact a2.2.2.1 e
          · exact a2.2.2.2 h')
    (by rw [hs.length_eq]; exact hfuel)
  rw [hs.length_eq] at h1 h7
  refine ⟨m', h1, by simpa using h2, by simpa using h3, ?_, ?_, ?_, ?_, ?_, ?_⟩
  · intro x hx hxs
    have hx' : x ∉ temp :: ([] ++ news) := by simpa using hx
    obtain ⟨a1, a2, a3⟩ := h4 x hx' hxs
    have e : x ≠ temp := fun e => hx (by simp [e])
    rw [a1, a2, a3, (f1 x e).1, (f1 x e).2, f2]
    exact ⟨rfl, rfl, rfl⟩
  · intro l hl
    rw [h5 l hl, f3 l hl]
  · intro l hl hl'
    rw [h6, f4 l hl hl']
  · rw [h6, f5]
  · rw [h6, f6]
  · rw [h7, f6, f7]

/-- Cells that a call leaves alone keep the list that lives in them. -/
theorem sameList_of_frame {m m' : Mem T} {L : Ptr}
    (hc : ∀ x ∈ cells m L, m'.prev x = m.prev x ∧ m'.next x = m.next x ∧ m'.val x = m.val x)
    (hsz : m'.sz L = m.sz L) (ha : m'.alloc L = m.alloc L) : SameList m m' L :=
  ⟨hc, hsz, ha⟩

/-- Copy assignment when the copy of an element fails after the nodes `news` were built
for `temp`: the call exits by exception; the destination keeps its links, elements and
size, and so does the source; every node built for `temp` is released; the allocator of
the destination is the one of the source when the allocator type propagates on copy
assignment, and its own otherwise. -/
theorem copyAssign_throws (pocca : Bool) {m : Mem T} {dst src temp : Ptr}
    {ds xs : List T} {news : List Ptr} {ω : Nat → Outcome} {fuel : Nat}
    (hd : ListOf m dst ds) (hs : ListOf m src xs) (hne : dst ≠ src)
    (hnd : (temp :: news).Nodup)
    (hfresh : ∀ p ∈ temp :: news, Fresh m dst p ∧ Fresh m src p)
    (hω : (List.range news.length).map ω = news.map .built)
    (hk : news.length < xs.length) (ho : (ω news.length).fails = true)
    (hos : ∀ p ∈ (ω news.length).storage,
      (Fresh m dst p ∧ Fresh m src p) ∧ p ∉ temp :: news)
    (hfuel : xs.length < fuel) :
    ∃ m', copyAssign pocca fuel m dst src temp ω = some (.threw m') ∧
      (∀ x ∈ cells m dst,
        m'.prev x = m.prev x ∧ m'.next x = m.next x ∧ m'.val x = m.val x) ∧
      m'.sz dst = m.sz dst ∧
      ListOf m' dst ds ∧ nodePtrs m' dst = nodePtrs m dst ∧
      m'.alloc dst = (if pocca = true then m.alloc src else m.alloc dst) ∧
      SameList m m' src ∧ ListOf m' src xs ∧
      m'.trace = m.trace ++
        buildEvents (if pocca = true then m.alloc src else m.alloc dst) news ++
        failEvents (if pocca = true then m.alloc src else m.alloc dst) (ω news.length) ++
        releaseEvents (if pocca = true then m.alloc src else m.alloc dst) news.reverse := by
  have hkne : ¬ news.length = xs.length := Nat.ne_of_lt hk
  obtain ⟨m2, h1, h2, _, h4, h5, h6, h7, h8, h9⟩ :=
    assignLoop_from_start pocca (ω news.length) hs hnd hfresh hω
      (Or.inr ⟨hk, rfl, ho, hos⟩) hfuel
  rw [if_neg hkne] at h1 h9
  obtain ⟨m3, g1, _, g3, g4, g5, g6⟩ := dtor_ok news m2 fuel h2 (by omega)
  have htd : temp ≠ dst := (hfresh temp (List.mem_cons_self _ _)).1.2.2.1
  have hts : temp ≠ src := (hfresh temp (List.mem_cons_self _ _)).2.2.2.1
  have hcell : ∀ L, (∀ p ∈ temp :: news, Fresh m L p) →
      (∀ p ∈ (ω news.length).storage, Fresh m L p) →
      ∀ x ∈ cells m L, m3.prev x = m.prev x ∧ m3.next x = m.next x ∧ m3.val x = m.val x := by
    intro L hf hfo x hx
    have e1 : x ∉ temp :: news := by
      intro hn
      have := hf x hn
      rcases List.mem_cons.1 hx with e | hx
      · exact this.2.2.1 e
      · exact this.2.2.2 hx
    have e2 : x ∉ (ω news.length).storage := by
      intro hn
      have := hfo x hn
      rcases List.mem_cons.1 hx with e | hx
      · exact this.2.2.1 e
      · exact this.2.2.2 hx
    obtain ⟨a1, a2, a3⟩ := g3 x e1
    obtain ⟨b1, b2, b3⟩ := h4 x e1 e2
    exact ⟨a1.trans b1, a2.trans b2, a3.trans b3⟩
  have hcd := hcell dst (fun p hp => (hfresh p hp).1) (fun p hp => (hos p hp).1.1)
  have hcs := hcell src (fun p hp => (hfresh p hp).2) (fun p hp => (hos p hp).1.2)
  have hszd : m3.sz dst = m.sz dst := by rw [g4 dst (Ne.symm htd), h5 dst (Ne.symm htd)]
  have hszs : m3.sz src = m.sz src := by rw [g4 src (Ne.symm hts), h5 src (Ne.symm hts)]
  have hwd : WF m3 dst (nodePtrs m dst) :=
    WF.congr hd.1 (fun x hx => (hcd x hx).2.1) (fun x hx => (hcd x hx).1) hszd
  have hsame : SameList m m3 src :=
    sameList_of_frame hcs hszs (by rw [g5, h6 src (Ne.symm hts) (Ne.symm hne)])
  refine ⟨m3, ?_, hcd, hszd, ListOf.intro hwd ?_, hwd.nodePtrs_eq, by rw [g5, h7], hsame,
    (hsame.listOf hs).1, ?_⟩
  · unfold copyAssign
    rw [if_neg hne]
    simp only [h1, g1, Option.map_some']
  · rw [← show elems m dst = ds.map some from hd.2]
    exact List.map_congr_left fun x hx => (hcd x (List.mem_cons_of_mem _ hx)).2.2
  · rw [g6, h9, h8]


/-! ## Copy assignment: the swap with `temp` -/

/-- A non-empty ring seen from another sentinel `a'` that took the place of `a`. -/
theorem Seg.reroot {m m' : Mem T} {a a' x : Ptr} {rest : List Ptr}
    (h : Seg m a (x :: rest) a) (nd : (x :: rest).Nodup)
    (h1 : m'.next a' = x) (h2 : m'.prev x = a')
    (h3 : m'.next (m.prev a) = a') (h4 : m'.prev a' = m.prev a)
    (hn : ∀ z ∈ x :: rest, z ≠ m.prev a → m'.next z = m.next z)
    (hp : ∀ z ∈ rest, m'.prev z = m.prev z) : Seg m' a' (x :: rest) a' := by
  simp only [Seg] at h ⊢
  exact ⟨h1, h2, Seg.retarget h.2.2 nd hn hp h3 h4⟩

/-- The memory after the swap, when neither list is empty. -/
theorem swapRings_eq {m : Mem T} {dst temp : Ptr} (hne : dst ≠ temp)
    (h1 : m.next temp ≠ dst) (h2 : m.next temp ≠ temp) (h3 : m.prev temp ≠ temp)
    (h4 : m.next dst ≠ temp) :
    swapRings m dst temp =
      { prev := Function.update (Function.update (Function.update (Function.update
            m.prev dst (m.prev temp)) temp (m.prev dst)) (m.next temp) dst) (m.next dst) temp
        next := Function.update (Function.update (Function.update (Function.update
            m.next dst (m.next temp)) temp (m.next dst)) (m.prev temp) dst) (m.prev dst) temp
        val := m.val
        sz := Function.update (Function.update m.sz dst (m.sz temp)) temp (m.sz dst)
        alloc := m.alloc
        trace := m.trace } := by
  have e1 : temp ≠ dst := Ne.symm hne
  have e2 : dst ≠ m.next temp := Ne.symm h1
  have e3 : temp ≠ m.next temp := Ne.symm h2
  have e4 : temp ≠ m.prev temp := Ne.symm h3
  have e5 : temp ≠ m.next dst := Ne.symm h4
  simp [swapRings, Mem.setPrev, Mem.setNext, Mem.setSz, Function.update_apply, hne, e1, e2,
    e3, e4, e5, h1, h2, h3, h4]

/-- The swap of two non-empty well-formed lists without common cells exchanges their
nodes and sizes and writes no other cell. -/
theorem swapRings_wf {m : Mem T} {dst temp d1 n1 : Ptr} {ds' ns' : List Ptr}
    (hd : WF m dst (d1 :: ds')) (ht : WF m temp (n1 :: ns'))
    (hdisj : ∀ x ∈ dst :: d1 :: ds', x ∉ temp :: n1 :: ns') :
    WF (swapRings m dst temp) dst (n1 :: ns') ∧
      WF (swapRings m dst temp) temp (d1 :: ds') ∧
      (∀ x, x ∉ dst :: d1 :: ds' → x ∉ temp :: n1 :: ns' →
        (swapRings m dst temp).prev x = m.prev x ∧
        (swapRings m dst temp).next x = m.next x) ∧
      (swapRings m dst temp).val = m.val ∧
      (∀ l, l ≠ dst → l ≠ temp → (swapRings m dst temp).sz l = m.sz l) ∧
      (swapRings m dst temp).alloc = m.alloc ∧
      (swapRings m dst temp).trace = m.trace := by
  have hdr := hd.ring
  have htr := ht.ring
  simp only [Seg] at hdr htr
  have hdm : m.prev dst ∈ d1 :: ds' := Seg.prev_mem hdr.2.2
  have hnk : m.prev temp ∈ n1 :: ns' := Seg.prev_mem htr.2.2
  have hdn := hd.nodup
  have htn := ht.nodup
  -- membership in the two cell sets decides every comparison below
  have sep : ∀ {x y : Ptr}, x ∈ dst :: d1 :: ds' → y ∈ temp :: n1 :: ns' → x ≠ y :=
    fun hx hy e => hdisj _ hx (e ▸ hy)
  have mD : dst ∈ dst :: d1 :: ds' := List.mem_cons_self _ _
  have mD1 : d1 ∈ dst :: d1 :: ds' := List.mem_cons_of_mem _ (List.mem_cons_self _ _)
  have mDm : m.prev dst ∈ dst :: d1 :: ds' := List.mem_cons_of_mem _ hdm
  have mT : temp ∈ temp :: n1 :: ns' := List.mem_cons_self _ _
  have mN1 : n1 ∈ temp :: n1 :: ns' := List.mem_cons_of_mem _ (List.mem_cons_self _ _)
  have mNk : m.prev temp ∈ temp :: n1 :: ns' := List.mem_cons_of_mem _ hnk
  have dD1 : dst ≠ d1 := fun e => (List.nodup_cons.1 hdn).1 (e ▸ List.mem_cons_self _ _)
  have dDm : dst ≠ m.prev dst := fun e => (List.nodup_cons.1 hdn).1 (e ▸ hdm)
  have tN1 : temp ≠ n1 := fun e => (List.nodup_cons.1 htn).1 (e ▸ List.mem_cons_self _ _)
  have tNk : temp ≠ m.prev temp := fun e => (List.nodup_cons.1 htn).1 (e ▸ hnk)
  have heq := swapRings_eq (m := m) (sep mD mT)
    (by rw [htr.1]; exact (sep mD mN1).symm) (by rw [htr.1]; exact tN1.symm) tNk.symm
    (by rw [hdr.1]; exact sep mD1 mT)
  rw [heq, hdr.1, htr.1]
  refine ⟨⟨?_, ?_, ?_, ?_⟩, ⟨?_, ?_, ?_, ?_⟩, ?_, rfl, ?_, rfl, rfl⟩
  · refine Seg.reroot ht.ring (List.nodup_cons.1 htn).2 ?_ ?_ ?_ ?_ ?_ ?_
    · simp [Function.update_apply, dDm, sep mD mNk, sep mD mT]
    · simp [Function.update_apply, (sep mD1 mN1).symm]
    · simp [Function.update_apply, (sep mDm mNk).symm]
    · simp [Function.update_apply, dD1, sep mD mN1, sep mD mT]
    · intro z hz hzk
      have hz' : z ∈ temp :: n1 :: ns' := List.mem_cons_of_mem _ hz
      simp [Function.update_apply, (sep mDm hz').symm, hzk,
        show z ≠ temp from fun e => (List.nodup_cons.1 htn).1 (e ▸ hz), (sep mD hz').symm]
    · intro z hz
      have hz' : z ∈ temp :: n1 :: ns' :=
        List.mem_cons_of_mem _ (List.mem_cons_of_mem _ hz)
      simp [Function.update_apply, (sep mD1 hz').symm,
        show z ≠ n1 from fun e =>
          (List.nodup_cons.1 (List.nodup_cons.1 htn).2).1 (e ▸ hz),
        show z ≠ temp from fun e =>
          (List.nodup_cons.1 htn).1 (e ▸ List.mem_cons_of_mem _ hz), (sep mD hz').symm]
  · refine List.nodup_cons.2 ⟨fun hx => hdisj dst mD (List.mem_cons_of_mem _ hx),
      (List.nodup_cons.1 htn).2⟩
  · simp [Function.update_apply, sep mD mT, ht.size_eq]
  · intro x hx
    rcases List.mem_cons.1 hx with e | hx
    · rw [e]; exact hd.addr dst mD
    · exact ht.addr x (List.mem_cons_of_mem _ hx)
  · refine Seg.reroot hd.ring (List.nodup_cons.1 hdn).2 ?_ ?_ ?_ ?_ ?_ ?_
    · simp [Function.update_apply, (sep mDm mT).symm, tNk]
    · simp [Function.update_apply]
    · simp [Function.update_apply]
    · simp [Function.update_apply, (sep mD1 mT).symm, tN1]
    · intro z hz hzm
      have hz' : z ∈ dst :: d1 :: ds' := List.mem_cons_of_mem _ hz
      simp [Function.update_apply, hzm, sep hz' mNk, sep hz' mT,
        show z ≠ dst from fun e => (List.nodup_cons.1 hdn).1 (e ▸ hz)]
    · intro z hz
      have hz' : z ∈ dst :: d1 :: ds' :=
        List.mem_cons_of_mem _ (List.mem_cons_of_mem _ hz)
      simp [Function.update_apply, sep hz' mN1, sep hz' mT,
        show z ≠ d1 from fun e =>
          (List.nodup_cons.1 (List.nodup_cons.1 hdn).2).1 (e ▸ hz),
        show z ≠ dst from fun e =>
          (List.nodup_cons.1 hdn).1 (e ▸ List.mem_cons_of_mem _ hz)]
  · refine List.nodup_cons.2 ⟨fun hx => hdisj _ (List.mem_cons_of_mem _ hx) mT,
      (List.nodup_cons.1 hdn).2⟩
  · simp [Function.update_apply, hd.size_eq]
  · intro x hx
    rcases List.mem_cons.1 hx with e | hx
    · rw [e]; exact ht.addr temp mT
    · exact hd.addr x (List.mem_cons_of_mem _ hx)
  · intro x hx hx'
    have a1 : x ≠ dst := fun e => hx (e ▸ mD)
    have a2 : x ≠ d1 := fun e => hx (e ▸ mD1)
    have a3 : x ≠ m.prev dst := fun e => hx (e ▸ mDm)
    have b1 : x ≠ temp := fun e => hx' (e ▸ mT)
    have b2 : x ≠ n1 := fun e => hx' (e ▸ mN1)
    have b3 : x ≠ m.prev temp := fun e => hx' (e ▸ mNk)
    simp [Function.update_apply, a1, a2, a3, b1, b2, b3]
  · intro l hl hl'
    simp [Function.update_apply, hl, hl']


/-! ## Copy assignment between non-empty lists -/

/-- Copy assignment `dst = src` between two non-empty well-formed lists without common
cells, with a fresh `temp`, fresh storage and no exception. -/
theorem copyAssign_ok (pocca : Bool) {m : Mem T} {dst src temp : Ptr}
    {ds xs : List T} {news : List Ptr} {ω : Nat → Outcome} {fuel : Nat}
    (hd : ListOf m dst ds) (hs : ListOf m src xs) (hds : ds ≠ []) (hxs : xs ≠ [])
    (hdisj : ∀ x ∈ cells m dst, x ∉ cells m src)
    (hnd : (temp :: news).Nodup)
    (hfresh : ∀ p ∈ temp :: news, Fresh m dst p ∧ Fresh m src p)
    (hω : (List.range xs.length).map ω = news.map .built)
    (hfuel : xs.length < fuel) (hfuel' : ds.length < fuel) :
    ∃ m', copyAssign pocca fuel m dst src temp ω = some (.ok m') ∧
      WF m' dst news ∧ ListOf m' dst xs ∧
      SameList m m' src ∧ ListOf m' src xs ∧
      m'.alloc dst = (if pocca = true then m.alloc src else m.alloc dst) ∧
      m'.trace = m.trace ++
        buildEvents (if pocca = true then m.alloc src else m.alloc dst) news ++
        releaseEvents (if pocca = true then m.alloc src else m.alloc dst)
          (nodePtrs m dst).reverse := by
  have hlen : news.length = xs.length := by
    have := congrArg List.length hω
    simpa using this.symm
  have hne : dst ≠ src := fun e => hdisj dst (List.mem_cons_self _ _)
    (by rw [e]; exact List.mem_cons_self _ _)
  obtain ⟨m2, h1, h2, h3, h4, h5, h6, h7, h8, h9⟩ :=
    assignLoop_from_start pocca .allocThrows hs hnd hfresh (by rw [hlen]; exact hω)
      (Or.inl hlen) hfuel
  rw [if_pos hlen] at h1 h9
  rw [hlen, List.take_length] at h3
  have htd : temp ≠ dst := (hfresh temp (List.mem_cons_self _ _)).1.2.2.1
  have hts : temp ≠ src := (hfresh temp (List.mem_cons_self _ _)).2.2.2.1
  have hnoS : ∀ x, x ∉ (Outcome.allocThrows).storage := by
    intro x hx; simp [Outcome.storage] at hx
  -- the cells of both lists are no cells of `temp`
  have hoff : ∀ L, (∀ p ∈ temp :: news, Fresh m L p) → ∀ x ∈ cells m L, x ∉ temp :: news := by
    intro L hf x hx hn
    have := hf x hn
    rcases List.mem_cons.1 hx with e | hx
    · exact this.2.2.1 e
    · exact this.2.2.2 hx
  have hoffd := hoff dst (fun p hp => (hfresh p hp).1)
  have hoffs := hoff src (fun p hp => (hfresh p hp).2)
  have hwd2 : WF m2 dst (nodePtrs m dst) :=
    WF.congr hd.1 (fun x hx => (h4 x (hoffd x hx) (hnoS x)).2.1)
      (fun x hx => (h4 x (hoffd x hx) (hnoS x)).1) (h5 dst (Ne.symm htd))
  obtain ⟨d1, ds', hdn⟩ : ∃ d1 ds', nodePtrs m dst = d1 :: ds' := by
    have hl := hd.length_eq
    cases hc : nodePtrs m dst with
    | nil => rw [hc] at hl; exact absurd (List.eq_nil_of_length_eq_zero hl.symm) hds
    | cons d1 ds' => exact ⟨d1, ds', rfl⟩
  obtain ⟨n1, ns', hnn⟩ : ∃ n1 ns', news = n1 :: ns' := by
    cases hc : news with
    | nil => rw [hc] at hlen; exact absurd (List.eq_nil_of_length_eq_zero hlen.symm) hxs
    | cons n1 ns' => exact ⟨n1, ns', rfl⟩
  have hcd : cells m dst = dst :: d1 :: ds' := by rw [cells, hdn]
  have hsep : ∀ x ∈ dst :: d1 :: ds', x ∉ temp :: n1 :: ns' := by
    intro x hx
    rw [← hnn]
    exact hoffd x (by rw [hcd]; exact hx)
  rw [hdn] at hwd2
  have h2' : WF m2 temp (n1 :: ns') := by rw [← hnn]; exact h2
  obtain ⟨s1, s2, s3, s4, s5, s6, s7⟩ := swapRings_wf hwd2 h2' hsep
  obtain ⟨m4, g1, _, g3, g4, g5, g6⟩ := dtor_ok (d1 :: ds') (swapRings m2 dst temp) fuel s2
    (by
      have := hd.length_eq
      rw [hdn] at this
      rw [this]; exact hfuel')
  have hoff4 : ∀ x ∈ dst :: n1 :: ns', x ∉ temp :: d1 :: ds' := by
    intro x hx hn
    rcases List.mem_cons.1 hx with e | hx
    · rcases List.mem_cons.1 hn with e' | hn
      · exact htd (e'.symm.trans e)
      · rw [e] at hn
        exact (List.nodup_cons.1 hwd2.nodup).1 hn
    · rcases List.mem_cons.1 hn with e' | hn
      · rw [e', ← hnn] at hx
        exact (List.nodup_cons.1 hnd).1 hx
      · exact hsep x (List.mem_cons_of_mem _ hn) (List.mem_cons_of_mem _ hx)
  have hwd4 : WF m4 dst news := by
    rw [hnn]
    exact WF.congr s1 (fun x hx => (g3 x (hoff4 x hx)).2.1)
      (fun x hx => (g3 x (hoff4 x hx)).1) (g4 dst (Ne.symm htd))
  have hval4 : news.map m4.val = xs.map some := by
    rw [← h3]
    refine List.map_congr_left ?_
    intro x hx
    have hx' : x ∉ temp :: d1 :: ds' :=
      hoff4 x (List.mem_cons_of_mem _ (by rw [← hnn]; exact hx))
    rw [(g3 x hx').2.2, s4]
  have hsrc : SameList m m4 src := by
    refine ⟨?_, ?_, ?_⟩
    · intro x hx
      have hx1 : x ∉ temp :: news := hoffs x hx
      have hx2 : x ∉ dst :: d1 :: ds' := by
        rw [← hcd]
        exact fun hn => hdisj x hn hx
      have hx3 : x ∉ temp :: d1 :: ds' := by
        intro hn
        rcases List.mem_cons.1 hn with e | hn
        · exact hx1 (by rw [e]; exact List.mem_cons_self _ _)
        · exact hx2 (List.mem_cons_of_mem _ hn)
      obtain ⟨a1, a2, a3⟩ := g3 x hx3
      obtain ⟨b1, b2⟩ := s3 x hx2 (by rw [← hnn]; exact hx1)
      obtain ⟨c1, c2, c3⟩ := h4 x hx1 (hnoS x)
      exact ⟨a1.trans (b1.trans c1), a2.trans (b2.trans c2), a3.trans (by rw [s4]; exact c3)⟩
    · rw [g4 src (Ne.symm hts), s5 src (Ne.symm hne) (Ne.symm hts), h5 src (Ne.symm hts)]
    · rw [g5, s6, h6 src (Ne.symm hts) (Ne.symm hne)]
  refine ⟨m4, ?_, hwd4, ListOf.intro hwd4 hval4, hsrc, (hsrc.listOf hs).1, ?_, ?_⟩
  · unfold copyAssign
    rw [if_neg hne]
    simp only [h1, g1, Option.map_some']
  · rw [g5, s6, h7]
  · rw [g6, s7, s6, h9, h8, hdn]
    simp


/-! ## Copy assignment on concrete lists -/

/-- C1 (the code on inputs with an empty list): `exTwo` holds the well-formed lists
`[5, 6]` at `100` and `[]` at `200`; `temp` lives at `300`.
Assigning the empty list to `[5, 6]` returns normally, but the sentinel of the
destination then links to `300` in both directions, the list is not well-formed, a
forward traversal does not come back to the sentinel within 10 steps, and the destructor
of `temp` has passed the sentinels `100` and `300` to `destroy` and `deallocate` while
the old nodes `10`, `11` were never released.
Assigning `[5, 6]` to the empty list returns normally with `size() == 2`, but the
sentinel of the destination again links to `300`; the forward traversal visits the one
link `300`, which holds no element, and the two copies `20`, `21` are not reachable. -/
theorem copy_assign_with_empty_list_breaks_ring :
    ListOf exTwo 100 [5, 6] ∧ ListOf exTwo 200 [] ∧
    exAssignEmptySrc.map Res.isOk = some true ∧
    exAssignEmptySrc.map (fun r => begin r.mem 100) = some 300 ∧
    exAssignEmptySrc.map (fun r => r.mem.prev 100) = some 300 ∧
    exAssignEmptySrc.map (fun r => size r.mem 100) = some 0 ∧
    exAssignEmptySrc.map (fun r => decide (WellFormed r.mem 100)) = some false ∧
    exAssignEmptySrc.map (fun r => forward r.mem 100 10) = some none ∧
    exAssignEmptySrc.map (fun r => r.mem.trace.drop exTwo.trace.length) =
      some [.destroy 7 100, .deallocate 7 100, .destroy 7 300, .deallocate 7 300] ∧
    exAssignEmptyDst.map Res.isOk = some true ∧
    exAssignEmptyDst.map (fun r => begin r.mem 200) = some 300 ∧
    exAssignEmptyDst.map (fun r => r.mem.prev 200) = some 300 ∧
    exAssignEmptyDst.map (fun r => size r.mem 200) = some 2 ∧
    exAssignEmptyDst.map (fun r => decide (WellFormed r.mem 200)) = some false ∧
    exAssignEmptyDst.map (fun r => forward r.mem 200 10) = some (some [300]) ∧
    exAssignEmptyDst.map (fun r => forwardElems r.mem 200 10) = some (some [none]) ∧
    exAssignEmptyDst.map (fun r => r.mem.trace.drop exTwo.trace.length) =
      some [.allocate 7 20, .construct 7 20, .allocate 7 21, .construct 7 21] := by
  refine ⟨by decide!, by decide!, by decide!, by decide!, by decide!, by decide!,
    by decide!, by decide!, by decide!, by decide!, by decide!, by decide!, by decide!,
    by decide!, by decide!, by decide!, by decide!⟩

/-- C2 (the code on a failing input): `exOther` holds the well-formed lists `[5, 6]` at
`100` with allocator `7` and `[1]` at `200` with allocator `8`. When the allocator type
propagates on copy assignment and the copy of the first element throws, the assignment
to the list at `100` exits by exception with links, elements and size of that list as
before and the storage `20` released, but its allocator is now `8`. With an allocator
type that does not propagate, the allocator is still `7`. -/
theorem copy_assign_failure_replaces_allocator :
    ListOf exOther 100 [5, 6] ∧ ListOf exOther 200 [1] ∧
    exOther.alloc 100 = 7 ∧ exOther.alloc 200 = 8 ∧
    (exAssignThrows true).map Res.isOk = some false ∧
    (exAssignThrows true).map (fun r => r.mem.alloc 100) = some 8 ∧
    (exAssignThrows true).map (fun r => decide (ListOf r.mem 100 [5, 6])) = some true ∧
    (exAssignThrows true).map (fun r => nodePtrs r.mem 100) = some (nodePtrs exOther 100) ∧
    (exAssignThrows true).map (fun r => r.mem.trace.drop exOther.trace.length) =
      some [.allocate 8 20, .deallocate 8 20] ∧
    (exAssignThrows false).map Res.isOk = some false ∧
    (exAssignThrows false).map (fun r => r.mem.alloc 100) = some 7 ∧
    (exAssignThrows false).map (fun r => decide (ListOf r.mem 100 [5, 6])) = some true ∧
    (exAssignThrows false).map (fun r => r.mem.trace.drop exOther.trace.length) =
      some [.allocate 7 20, .deallocate 7 20] := by
  refine ⟨by decide!, by decide!, by decide!, by decide!, by decide!, by decide!,
    by decide!, by decide!, by decide!, by decide!, by decide!, by decide!, by decide!⟩


/-! ## Copy assignment in general -/

/-- Copy assignment `dst = src` between two non-empty well-formed lists that share no
cell, with a fresh address for `temp`, fresh storage and no exception, returns normally
with enough fuel; afterwards `dst` is a well-formed ring through its own sentinel whose
nodes are the new ones and whose element sequence (also as read by a forward traversal)
and `size()` are those of `src`, `src` is unchanged, the old nodes of `dst` were released
by the destructor of `temp`, back to front, and the allocator of `dst` is the one of
`src` when the allocator type propagates on copy assignment and its own otherwise. -/
theorem copy_assign_between_nonempty_lists (pocca : Bool) (m : Mem T) (dst src temp : Ptr)
    (ds xs : List T) (news : List Ptr) (ω : Nat → Outcome) (fuel : Nat)
    (hd : ListOf m dst ds) (hs : ListOf m src xs) (hds : ds ≠ []) (hxs : xs ≠ [])
    (hdisj : ∀ x ∈ cells m dst, x ∉ cells m src)
    (hnd : (temp :: news).Nodup)
    (hfresh : ∀ p ∈ temp :: news, Fresh m dst p ∧ Fresh m src p)
    (hω : (List.range xs.length).map ω = news.map .built)
    (hfuel : xs.length < fuel) (hfuel' : ds.length < fuel) :
    ∃ m', copyAssign pocca fuel m dst src temp ω = some (.ok m') ∧
      ListOf m' dst xs ∧ nodePtrs m' dst = news ∧
      forwardElems m' dst fuel = some (xs.map some) ∧
      size m' dst = size m src ∧
      SameList m m' src ∧ ListOf m' src xs ∧
      m'.alloc dst = (if pocca = true then m.alloc src else m.alloc dst) ∧
      m'.trace = m.trace ++
        buildEvents (if pocca = true then m.alloc src else m.alloc dst) news ++
        releaseEvents (if pocca = true then m.alloc src else m.alloc dst)
          (nodePtrs m dst).reverse := by
  obtain ⟨m', h1, h2, h3, h4, h5, h6, h7⟩ :=
    copyAssign_ok pocca hd hs hds hxs hdisj hnd hfresh hω hfuel hfuel'
  refine ⟨m', h1, h3, h2.nodePtrs_eq, h3.forwardElems_eq hfuel, ?_, h4, h5, h6, h7⟩
  rw [h3.size_eq, hs.size_eq]

theorem copy_assign_between_nonempty_lists_witness :
    ∃ m', copyAssign true 4 exOther 200 100 300 (fun i => .built (20 + i)) = some (.ok m') ∧
      ListOf m' 200 [5, 6] ∧ nodePtrs m' 200 = [20, 21] ∧
      forwardElems m' 200 4 = some [some 5, some 6] ∧
      size m' 200 = size exOther 100 ∧
      SameList exOther m' 100 ∧ ListOf m' 100 [5, 6] ∧
      m'.alloc 200 = (if true = true then exOther.alloc 100 else exOther.alloc 200) ∧
      m'.trace = exOther.trace ++
        buildEvents (if true = true then exOther.alloc 100 else exOther.alloc 200) [20, 21] ++
        releaseEvents (if true = true then exOther.alloc 100 else exOther.alloc 200)
          (nodePtrs exOther 200).reverse :=
  copy_assign_between_nonempty_lists true exOther 200 100 300 [1] [5, 6] [20, 21]
    (fun i => .built (20 + i)) 4 (by decide!) (by decide!) (by decide) (by decide)
    (by decide!) (by decide) (by decide!) (by decide) (by decide) (by decide)

/-- When the copy of an element of `src` throws during `dst = src`, after the nodes
`news` were built for `temp` (the `allocate` call throws, or it returns fresh storage and
the element constructor throws), the assignment exits by exception with enough fuel; the
links, elements and size of `dst` and all of `src` are as before, every node built for
`temp` is released, and the allocator of `dst` is unchanged when the allocator type does
not propagate on copy assignment, but is the one of `src` when it does. -/
theorem copy_assign_failure_keeps_links (pocca : Bool) (m : Mem T) (dst src temp : Ptr)
    (ds xs : List T) (news : List Ptr) (ω : Nat → Outcome) (fuel : Nat)
    (hd : ListOf m dst ds) (hs : ListOf m src xs) (hne : dst ≠ src)
    (hnd : (temp :: news).Nodup)
    (hfresh : ∀ p ∈ temp :: news, Fresh m dst p ∧ Fresh m src p)
    (hω : (List.range news.length).map ω = news.map .built)
    (hk : news.length < xs.length) (ho : (ω news.length).fails = true)
    (hos : ∀ p ∈ (ω news.length).storage,
      (Fresh m dst p ∧ Fresh m src p) ∧ p ∉ temp :: news)
    (hfuel : xs.length < fuel) :
    ∃ m', copyAssign pocca fuel m dst src temp ω = some (.threw m') ∧
      (∀ x ∈ cells m dst,
        m'.prev x = m.prev x ∧ m'.next x = m.next x ∧ m'.val x = m.val x) ∧
      m'.sz dst = m.sz dst ∧
      ListOf m' dst ds ∧ nodePtrs m' dst = nodePtrs m dst ∧
      m'.alloc dst = (if pocca = true then m.alloc src else m.alloc dst) ∧
      SameList m m' src ∧ ListOf m' src xs ∧
      m'.trace = m.trace ++
        buildEvents (if pocca = true then m.alloc src else m.alloc dst) news ++
        failEvents (if pocca = true then m.alloc src else m.alloc dst) (ω news.length) ++
        releaseEvents (if pocca = true then m.alloc src else m.alloc dst) news.reverse :=
  copyAssign_throws pocca hd hs hne hnd hfresh hω hk ho hos hfuel

theorem copy_assign_failure_keeps_links_witness :
    ∃ m', copyAssign false 4 exOther 200 100 300
        (fun i => if i = 0 then .built 20 else .ctorThrows 21) = some (.threw m') ∧
      (∀ x ∈ cells exOther 200,
        m'.prev x = exOther.prev x ∧ m'.next x = exOther.next x ∧
        m'.val x = exOther.val x) ∧
      m'.sz 200 = exOther.sz 200 ∧
      ListOf m' 200 [1] ∧ nodePtrs m' 200 = nodePtrs exOther 200 ∧
      m'.alloc 200 = (if false = true then exOther.alloc 100 else exOther.alloc 200) ∧
      SameList exOther m' 100 ∧ ListOf m' 100 [5, 6] ∧
      m'.trace = exOther.trace ++
        buildEvents (if false = true then exOther.alloc 100 else exOther.alloc 200) [20] ++
        failEvents (if false = true then exOther.alloc 100 else exOther.alloc 200)
          ((fun i => if i = 0 then Outcome.built 20 else Outcome.ctorThrows 21)
            ([20] : List Ptr).length) ++
        releaseEvents (if false = true then exOther.alloc 100 else exOther.alloc 200)
          ([20] : List Ptr).reverse :=
  copy_assign_failure_keeps_links false exOther 200 100 300 [1] [5, 6] [20]
    (fun i => if i = 0 then .built 20 else .ctorThrows 21) 4 (by decide!) (by decide!)
    (by decide) (by decide) (by decide!) (by decide) (by decide) (by decide) (by decide!)
    (by decide)


/-! ## `clear()` -/

theorem releaseEvents_cons (a : AllocId) (p : Ptr) (ps : List Ptr) :
    releaseEvents a (p :: ps) = [.destroy a p, .deallocate a p] ++ releaseEvents a ps := by
  simp [releaseEvents]

theorem destroyed_releaseEvents (a : AllocId) (ps : List Ptr) :
    destroyed (releaseEvents a ps) = ps := by
  induction ps with
  | nil => rfl
  | cons p ps ih =>
    simp [releaseEvents_cons, destroyed, List.filterMap_cons] at ih ⊢; exact ih

theorem deallocated_releaseEvents (a : AllocId) (ps : List Ptr) :
    deallocated (releaseEvents a ps) = ps := by
  induction ps with
  | nil => rfl
  | cons p ps ih =>
    simp [releaseEvents_cons, deallocated, List.filterMap_cons] at ih ⊢; exact ih

theorem destructions_releaseEvents (a : AllocId) (ps : List Ptr) :
    destructions (releaseEvents a ps) = ps.length := by
  induction ps with
  | nil => rfl
  | cons p ps ih =>
    simp [releaseEvents_cons, destructions, List.countP_cons] at ih ⊢; exact ih

theorem deallocations_releaseEvents (a : AllocId) (ps : List Ptr) :
    deallocations (releaseEvents a ps) = ps.length := by
  induction ps with
  | nil => rfl
  | cons p ps ih =>
    simp [releaseEvents_cons, deallocations, List.countP_cons] at ih ⊢; exact ih

theorem constructions_releaseEvents (a : AllocId) (ps : List Ptr) :
    constructions (releaseEvents a ps) = 0 := by
  induction ps with
  | nil => rfl
  | cons p ps ih =>
    simp [releaseEvents_cons, constructions, List.countP_cons] at ih ⊢; exact ih

theorem allocations_releaseEvents (a : AllocId) (ps : List Ptr) :
    allocations (releaseEvents a ps) = 0 := by
  induction ps with
  | nil => rfl
  | cons p ps ih =>
    simp [releaseEvents_cons, allocations, List.countP_cons] at ih ⊢; exact ih

theorem constructions_buildEvents (a : AllocId) (ps : List Ptr) :
    constructions (buildEvents a ps) = ps.length := by
  induction ps with
  | nil => rfl
  | cons p ps ih =>
    simp [buildEvents_cons, constructions, List.countP_cons] at ih ⊢; exact ih

theorem allocations_buildEvents (a : AllocId) (ps : List Ptr) :
    allocations (buildEvents a ps) = ps.length := by
  induction ps with
  | nil => rfl
  | cons p ps ih =>
    simp [buildEvents_cons, allocations, List.countP_cons] at ih ⊢; exact ih

theorem destructions_buildEvents (a : AllocId) (ps : List Ptr) :
    destructions (buildEvents a ps) = 0 := by
  induction ps with
  | nil => rfl
  | cons p ps ih =>
    simp [buildEvents_cons, destructions, List.countP_cons] at ih ⊢; exact ih

theorem deallocations_buildEvents (a : AllocId) (ps : List Ptr) :
    deallocations (buildEvents a ps) = 0 := by
  induction ps with
  | nil => rfl
  | cons p ps ih =>
    simp [buildEvents_cons, deallocations, List.countP_cons] at ih ⊢; exact ih

theorem constructions_append (t u : List Event) :
    constructions (t ++ u) = constructions t + constructions u := by
  simp [constructions, List.countP_append]

theorem destructions_append (t u : List Event) :
    destructions (t ++ u) = destructions t + destructions u := by
  simp [destructions, List.countP_append]

theorem deallocated_buildEvents (a : AllocId) (ps : List Ptr) :
    deallocated (buildEvents a ps) = [] := by
  induction ps with
  | nil => rfl
  | cons p ps ih =>
    simp [buildEvents_cons, deallocated, List.filterMap_cons] at ih ⊢; exact ih

theorem destroyed_buildEvents (a : AllocId) (ps : List Ptr) :
    destroyed (buildEvents a ps) = [] := by
  induction ps with
  | nil => rfl
  | cons p ps ih =>
    simp [buildEvents_cons, destroyed, List.filterMap_cons] at ih ⊢; exact ih

theorem deallocated_append (t u : List Event) :
    deallocated (t ++ u) = deallocated t ++ deallocated u := by
  simp [deallocated, List.filterMap_append]

theorem destroyed_append (t u : List Event) :
    destroyed (t ++ u) = destroyed t ++ destroyed u := by
  simp [destroyed, List.filterMap_append]

theorem allocations_append (t u : List Event) :
    allocations (t ++ u) = allocations t + allocations u := by
  simp [allocations, List.countP_append]

theorem deallocations_append (t u : List Event) :
    deallocations (t ++ u) = deallocations t + deallocations u := by
  simp [deallocations, List.countP_append]

/-- The loop of `clear()` walks the nodes front to back; it writes the element of each
node, `sz` and the log, and no link. -/
theorem clearLoop_ok {L b : Ptr} (nodes : List Ptr) :
    ∀ (m : Mem T) (fuel : Nat) (q : Ptr), Seg m q nodes b → m.sz L = nodes.length →
      nodes.length < SIZE_MOD → nodes.length < fuel →
      ∃ m', clearLoop L fuel m (m.next q) = some m' ∧
        m'.next = m.next ∧ m'.prev = m.prev ∧
        (∀ x, x ∉ nodes → m'.val x = m.val x) ∧
        m'.sz L = 0 ∧ (∀ l, l ≠ L → m'.sz l = m.sz l) ∧ m'.alloc = m.alloc ∧
        m'.trace = m.trace ++ releaseEvents (m.alloc L) nodes := by
  induction nodes with
  | nil =>
    intro m fuel q _ hs _ hf
    obtain ⟨f, rfl⟩ : ∃ f, fuel = f + 1 := ⟨fuel - 1, by simp at hf; omega⟩
    refine ⟨m, ?_, rfl, rfl, fun _ _ => rfl, by simpa using hs, fun _ _ => rfl, rfl,
      by simp [releaseEvents]⟩
    have hs0 : m.sz L = 0 := by simpa using hs
    simp [clearLoop, hs0]
  | cons y ys ih =>
    intro m fuel q hseg hs hb hf
    obtain ⟨f, rfl⟩ : ∃ f, fuel = f + 1 := ⟨fuel - 1, by simp at hf; omega⟩
    simp only [Seg] at hseg
    have hs' : m.sz L = ys.length + 1 := by simpa using hs
    have hb' : ys.length + 1 < SIZE_MOD := by simpa using hb
    obtain ⟨m', h1, h2, h3, h4, h5, h6, h7, h8⟩ := ih
      { prev := m.prev, next := m.next
        val := Function.update m.val y none
        sz := Function.update m.sz L (decSz (m.sz L))
        alloc := m.alloc
        trace := m.trace ++ [.destroy (m.alloc L) y] ++ [.deallocate (m.alloc L) y] }
      f y (Seg.frame hseg.2.2 (fun _ _ => rfl) (fun _ _ => rfl))
      (by simp [hs', decSz_eq hb'])
      (Nat.lt_of_succ_lt hb') (by simp at hf; omega)
    refine ⟨m', ?_, h2, h3, ?_, h5, ?_, h7, ?_⟩
    · rw [hseg.1, clearLoop]
      have hpos : m.sz L > 0 := by omega
      simp only [hpos, if_true]
      exact h1
    · intro x hx
      have e1 : x ≠ y := fun e => hx (by simp [e])
      rw [h4 x (fun hn => hx (List.mem_cons_of_mem _ hn))]
      simp [Function.update_apply, e1]
    · intro l hl
      rw [h6 l hl]
      simp [Function.update_apply, hl]
    · rw [h8, releaseEvents_cons]
      simp

/-- Member `clear()` on a well-formed list. -/
theorem clear_ok {m : Mem T} {L : Ptr} {nodes : List Ptr} (h : WF m L nodes) {fuel : Nat}
    (hf : nodes.length < fuel) :
    ∃ m', clear fuel m L = some m' ∧ WF m' L [] ∧
      (∀ x, x ≠ L → m'.next x = m.next x ∧ m'.prev x = m.prev x) ∧
      m'.next L = L ∧ m'.prev L = L ∧
      (∀ x, x ∉ nodes → m'.val x = m.val x) ∧
      (∀ l, l ≠ L → m'.sz l = m.sz l) ∧ m'.alloc = m.alloc ∧
      m'.trace = m.trace ++ releaseEvents (m.alloc L) nodes := by
  have hb : nodes.length < SIZE_MOD := by
    have := h.length_bound
    omega
  obtain ⟨m1, h1, h2, h3, h4, h5, h6, h7, h8⟩ :=
    clearLoop_ok (L := L) nodes m fuel L h.ring h.size_eq hb hf
  refine ⟨(m1.setPrev L L).setNext L L, ?_, ⟨?_, by simp, ?_, ?_⟩, ?_, ?_, ?_, h4, h6, h7, h8⟩
  · simp [clear, h1]
  · simp [Seg, Mem.setPrev, Mem.setNext]
  · simpa [Mem.setPrev, Mem.setNext] using h5
  · intro p hp
    simp only [List.mem_singleton] at hp
    rw [hp]; exact h.addr L (List.mem_cons_self _ _)
  · intro x hx
    simp [Mem.setPrev, Mem.setNext, Function.update_apply, hx, h2, h3]
  · simp [Mem.setPrev, Mem.setNext]
  · simp [Mem.setPrev, Mem.setNext]

/-- On an empty well-formed list `clear()` changes nothing. -/
theorem clear_empty {m : Mem T} {L : Ptr} (h : WF m L []) {fuel : Nat} (hf : 0 < fuel) :
    clear fuel m L = some m := by
  obtain ⟨f, rfl⟩ : ∃ f, fuel = f + 1 := ⟨fuel - 1, by omega⟩
  have hs : m.sz L = 0 := h.size_eq
  have hn : m.next L = L := h.ring.1
  have hp : m.prev L = L := h.ring.2
  have e1 : Function.update m.prev L L = m.prev := by
    have := Function.update_eq_self L m.prev
    rwa [hp] at this
  have e2 : Function.update m.next L L = m.next := by
    have := Function.update_eq_self L m.next
    rwa [hn] at this
  simp [clear, clearLoop, hs, Mem.setPrev, Mem.setNext, e1, e2]

/-- C20: on a well-formed list and with fuel above `size()`, `clear()` terminates; the
log grows by one `destroy` and one `deallocate` for each node, front to back, none of
them for the sentinel (the nodes are pairwise distinct and the sentinel is not among
them); afterwards `size() == 0`, `next` and `prev` of the sentinel are the sentinel,
`begin() == end()`, and the list is well-formed; on an empty list the memory is
unchanged. -/
theorem clear_empties_list (m : Mem T) (L : Ptr) (fuel : Nat)
    (h : WellFormed m L) (hf : size m L < fuel) :
    ∃ m', clear fuel m L = some m' ∧
      m'.trace = m.trace ++ releaseEvents (m.alloc L) (nodePtrs m L) ∧
      destroyed (releaseEvents (m.alloc L) (nodePtrs m L)) = nodePtrs m L ∧
      deallocated (releaseEvents (m.alloc L) (nodePtrs m L)) = nodePtrs m L ∧
      (nodePtrs m L).Nodup ∧ L ∉ nodePtrs m L ∧ (nodePtrs m L).length = size m L ∧
      size m' L = 0 ∧ m'.next L = L ∧ m'.prev L = L ∧ begin m' L = end_ L ∧
      WellFormed m' L ∧
      (size m L = 0 → m' = m) := by
  have hw : WF m L (nodePtrs m L) := h
  have hlen : (nodePtrs m L).length = size m L := hw.size_eq.symm
  obtain ⟨m', h1, h2, _, h4, h5, _, _, _, h9⟩ := clear_ok hw (by rw [hlen]; exact hf)
  refine ⟨m', h1, h9, ?_, ?_, (List.nodup_cons.1 hw.nodup).2, (List.nodup_cons.1 hw.nodup).1,
    hlen, h2.size_eq, h4, h5, h4, h2.wellFormed, ?_⟩
  · exact destroyed_releaseEvents _ _
  · exact deallocated_releaseEvents _ _
  · intro hz
    have hnil : nodePtrs m L = [] := List.eq_nil_of_length_eq_zero (hlen.trans hz)
    rw [hnil] at hw
    have := clear_empty hw (Nat.lt_of_le_of_lt (Nat.zero_le _) hf)
    rw [h1] at this
    exact Option.some.inj this

theorem clear_empties_list_witness :
    ∃ m', clear 3 exMem 100 = some m' ∧
      m'.trace = exMem.trace ++ releaseEvents (exMem.alloc 100) (nodePtrs exMem 100) ∧
      destroyed (releaseEvents (exMem.alloc 100) (nodePtrs exMem 100)) = nodePtrs exMem 100 ∧
      deallocated (releaseEvents (exMem.alloc 100) (nodePtrs exMem 100))
        = nodePtrs exMem 100 ∧
      (nodePtrs exMem 100).Nodup ∧ 100 ∉ nodePtrs exMem 100 ∧
      (nodePtrs exMem 100).length = size exMem 100 ∧
      size m' 100 = 0 ∧ m'.next 100 = 100 ∧ m'.prev 100 = 100 ∧ begin m' 100 = end_ 100 ∧
      WellFormed m' 100 ∧
      (size exMem 100 = 0 → m' = exMem) :=
  clear_empties_list exMem 100 3 (by decide!) (by decide!)


/-! ## The constructors `List(n, alloca)` and `List(n, val, alloca)` -/

/-- One round of the loop with a successful allocation and construction. -/
theorem bulkLoop_built {L : Ptr} {v : T} {ω : Nat → Outcome} {fuel r i : Nat} {m : Mem T}
    {node p : Ptr} (hω : ω i = .built p) (hnp : node ≠ p) :
    bulkLoop L v ω fuel (r + 1) m i node =
      bulkLoop L v ω fuel r
        { prev := Function.update (Function.update m.prev p 0) p node
          next := Function.update (Function.update m.next node p) p 0
          val := Function.update m.val p (some v)
          sz := Function.update m.sz L (incSz (m.sz L))
          alloc := m.alloc
          trace := m.trace ++ [.allocate (m.alloc L) p] ++ [.construct (m.alloc L) p] }
        (i + 1) p := by
  rw [bulkLoop]
  simp only [hω]
  simp only [Mem.log, Mem.setNext, Function.update_same, Mem.construct, Mem.baseInit,
    Mem.setPrev, Mem.setSz, Function.update_noteq hnp]

/-- One round of the loop in which the element constructor throws. -/
theorem bulkLoop_ctorThrows {L : Ptr} {v : T} {ω : Nat → Outcome} {fuel r i : Nat}
    {m : Mem T} {node p : Ptr} (hω : ω i = .ctorThrows p) (hnp : node ≠ p) :
    bulkLoop L v ω fuel (r + 1) m i node =
      match clear fuel
        { prev := Function.update (Function.update m.prev p 0) L node
          next := Function.update (Function.update (Function.update m.next node p) p 0) node L
          val := m.val, sz := m.sz, alloc := m.alloc
          trace := m.trace ++ [.allocate (m.alloc L) p] ++ [.deallocate (m.alloc L) p] } L with
      | none => none
      | some m => (dtor L fuel m).map .threw := by
  rw [bulkLoop]
  simp only [hω]
  simp only [Mem.log, Mem.setNext, Function.update_same, Mem.baseInit, closeRing,
    Mem.setPrev, Function.update_noteq hnp]

/-- The loop of the bulk constructors: the outcomes build the nodes `news`; then either
all `r` rounds are done, or the element constructor throws in the next round, in storage
`p`. -/
theorem bulkLoop_run {L : Ptr} {v : T} {ω : Nat → Outcome} {fuel : Nat} (p : Ptr) :
    ∀ (news : List Ptr) (r : Nat) (m : Mem T) (i : Nat) (node : Ptr) (done : List Ptr),
      WF (closeRing m L node) L done →
      (∀ x ∈ done, m.val x = some v) →
      (L :: (done ++ news)).Nodup →
      (∀ x ∈ news, 0 < x ∧ x < SIZE_MOD) →
      (List.range' i news.length).map ω = news.map .built →
      (news.length = r ∨
        (news.length < r ∧ ω (i + news.length) = .ctorThrows p ∧
          p ∉ L :: (done ++ news) ∧ done.length + news.length < fuel)) →
      ∃ m', bulkLoop L v ω fuel r m i node =
          some (if news.length = r then .ok m' else .threw m') ∧
        WF m' L (if news.length = r then done ++ news else []) ∧
        (news.length = r → ∀ x ∈ done ++ news, m'.val x = some v) ∧
        (∀ x, x ∉ L :: (done ++ news) → x ≠ p →
          m'.prev x = m.prev x ∧ m'.next x = m.next x ∧ m'.val x = m.val x) ∧
        (∀ l, l ≠ L → m'.sz l = m.sz l) ∧ m'.alloc = m.alloc ∧
        m'.trace = m.trace ++ buildEvents (m.alloc L) news ++
          (if news.length = r then []
            else [.allocate (m.alloc L) p, .deallocate (m.alloc L) p] ++
              releaseEvents (m.alloc L) (done ++ news)) := by
  intro news
  induction news with
  | nil =>
    intro r m i node done hwf hvd hnd _ _ hlast
    have hnode : node ∈ L :: done := by
      have := Seg.prev_mem hwf.ring
      simpa [closeRing_eq] using this
    cases r with
    | zero =>
      refine ⟨closeRing m L node, by simp [bulkLoop], by simpa using hwf,
        fun _ x hx => by simpa [closeRing_eq] using hvd x (by simpa using hx), ?_,
        fun _ _ => rfl, rfl, by simp [buildEvents, closeRing_eq]⟩
      intro x hx _
      have h1 : x ≠ L := fun e => hx (by simp [e])
      have h2 : x ≠ node := fun e => hx (by simpa [e] using hnode)
      simp [closeRing_eq, Function.update_apply, h1, h2]
    | succ r =>
      have hfail : ω i = .ctorThrows p ∧ p ∉ L :: done ∧ done.length < fuel := by
        rcases hlast with h | h
        · simp at h
        · simpa using h.2
      have hnp : node ≠ p := fun e => hfail.2.1 (e ▸ hnode)
      have hw1 : WF
          { prev := Function.update (Function.update m.prev p 0) L node
            next := Function.update (Function.update (Function.update m.next node p) p 0)
              node L
            val := m.val, sz := m.sz, alloc := m.alloc
            trace := m.trace ++ [.allocate (m.alloc L) p] ++ [.deallocate (m.alloc L) p] }
          L done := by
        refine WF.congr hwf ?_ ?_ rfl
        · intro x hx
          have e1 : x ≠ p := fun e => hfail.2.1 (e ▸ hx)
          by_cases e2 : x = node
          · subst e2
            simp [closeRing_eq]
          · simp [closeRing_eq, Function.update_apply, e1, e2]
        · intro x hx
          have e1 : x ≠ p := fun e => hfail.2.1 (e ▸ hx)
          by_cases e2 : x = L
          · subst e2
            simp [closeRing_eq]
          · simp [closeRing_eq, Function.update_apply, e1, e2]
      obtain ⟨m2, c1, c2, c3, _, _, c6, c7, c8, c9⟩ := clear_ok hw1 hfail.2.2
      obtain ⟨m3, d1, d2, d3, d4, d5, d6⟩ := dtor_ok [] m2 fuel c2
        (Nat.lt_of_le_of_lt (Nat.zero_le _) hfail.2.2)
      refine ⟨m3, ?_, by simpa using d2, fun h => by simp at h, ?_, ?_, by rw [d5, c8], ?_⟩
      · rw [bulkLoop_ctorThrows hfail.1 hnp, c1]
        simp [d1]
      · intro x hx hxp
        have e1 : x ≠ L := fun e => hx (by simp [e])
        have e2 : x ≠ node := fun e => hx (by simpa [e] using hnode)
        have e3 : x ∉ done := fun hn => hx (by simpa using Or.inr hn)
        obtain ⟨a1, a2, a3⟩ := d3 x (by simpa using e1)
        obtain ⟨b1, b2⟩ := c3 x e1
        rw [a1, a2, a3, b1, b2, c6 x e3]
        simp [Function.update_apply, e1, e2, hxp]
      · intro l hl
        rw [d4 l hl, c7 l hl]
      · rw [d6, c9]
        simp [buildEvents, releaseEvents]
  | cons q news ih =>
    intro r m i node done hwf hvd hnd haddr hω hlast
    simp only [List.length_cons, List.range'_succ, List.map_cons, List.cons.injEq] at hω
    have hnode : node ∈ L :: done := by
      have := Seg.prev_mem hwf.ring
      simpa [closeRing_eq] using this
    have hq_notin : q ∉ L :: done := by
      have h1 : (L :: (done ++ q :: news)).Perm (q :: (L :: (done ++ news))) :=
        (List.Perm.cons _ List.perm_middle).trans (List.Perm.swap _ _ _)
      have h2 := (List.nodup_cons.1 (h1.nodup_iff.1 hnd)).1
      intro hx
      apply h2
      rcases List.mem_cons.1 hx with e' | hx
      · simp [e']
      · exact List.mem_cons_of_mem _ (List.mem_append_left _ hx)
    have hnq : node ≠ q := fun e => hq_notin (e ▸ hnode)
    have hq_addr : 0 < q ∧ q < SIZE_MOD := haddr q (List.mem_cons_self _ _)
    obtain ⟨r', rfl⟩ : ∃ r', r = r' + 1 := by
      rcases hlast with h | h
      · exact ⟨news.length, by simpa using h.symm⟩
      · exact ⟨r - 1, by simp at h; omega⟩
    obtain ⟨m', h1, h2, h3, h4, h5, h6, h7⟩ := ih r'
      { prev := Function.update (Function.update m.prev q 0) q node
        next := Function.update (Function.update m.next node q) q 0
        val := Function.update m.val q (some v)
        sz := Function.update m.sz L (incSz (m.sz L))
        alloc := m.alloc
        trace := m.trace ++ [.allocate (m.alloc L) q] ++ [.construct (m.alloc L) q] }
      (i + 1) q (done ++ [q])
      (copyRound_wf v hwf hq_addr hq_notin)
      (by
        intro x hx
        rcases List.mem_append.1 hx with hx | hx
        · have e : x ≠ q := fun e => hq_notin (List.mem_cons_of_mem _ (e ▸ hx))
          simpa [Function.update_apply, e] using hvd x hx
        · simp only [List.mem_singleton] at hx
          subst hx
          simp)
      (by simpa using hnd) (fun x hx => haddr x (List.mem_cons_of_mem _ hx)) hω.2
      (by
        rcases hlast with h | h
        · exact Or.inl (by simpa using h)
        · refine Or.inr ⟨by simpa using h.1, ?_, by simpa using h.2.2.1, ?_⟩
          · rw [← h.2.1]
            congr 1
            simp only [List.length_cons]; omega
          · have := h.2.2.2
            simp only [List.length_append, List.length_cons, List.length_nil] at this ⊢
            omega)
    have hcond : ((q :: news).length = r' + 1) ↔ (news.length = r') := by simp
    refine ⟨m', ?_, ?_, ?_, ?_, ?_, h6, ?_⟩
    · rw [bulkLoop_built hω.1 hnq, h1]
      by_cases hc : news.length = r'
      · simp [hc]
      · simp [hc]
    · by_cases hc : news.length = r'
      · simpa [hc] using h2
      · simpa [hc] using h2
    · intro hc x hx
      exact h3 (hcond.1 hc) x (by simpa using hx)
    · intro x hx hxp
      have hx' : x ∉ L :: (done ++ [q] ++ news) := by simpa using hx
      obtain ⟨a1, a2, a3⟩ := h4 x hx' hxp
      have e1 : x ≠ q := fun e => hx (by simp [e])
      have e2 : x ≠ node := by
        intro e
        apply hx
        rw [e]
        rcases List.mem_cons.1 hnode with e'' | hn
        · simp [e'']
        · exact List.mem_cons_of_mem _ (List.mem_append_left _ hn)
      rw [a1, a2, a3]
      simp [Function.update_apply, e1, e2]
    · intro l hl
      rw [h5 l hl]
      simp [Function.update_apply, hl]
    · rw [h7]
      simp only [buildEvents_cons, hcond, List.length_cons]
      by_cases hc : news.length = r'
      · simp [hc]
      · simp [hc]


/-- Closing the ring of a freshly constructed empty list changes nothing. -/
theorem closeRing_ctor (m : Mem T) (L : Ptr) (a : AllocId) :
    closeRing (ctor m L a) L L = ctor m L a := by
  simp [closeRing_eq, ctor, Mem.setNext, Mem.setPrev, Mem.setSz, Mem.baseInit, Mem.setAlloc]

/-- A bulk constructor whose allocations and element constructions all succeed. -/
theorem ctorNVal_ok (m : Mem T) {L : Ptr} (a : AllocId) (v : T) (ω : Nat → Outcome)
    (fuel : Nat) {news : List Ptr} (hL : 0 < L ∧ L < SIZE_MOD) (hnd : (L :: news).Nodup)
    (haddr : ∀ x ∈ news, 0 < x ∧ x < SIZE_MOD)
    (hω : (List.range news.length).map ω = news.map .built) :
    ∃ m', ctorNVal fuel m L news.length v a ω = some (.ok m') ∧ WF m' L news ∧
      (∀ x ∈ news, m'.val x = some v) ∧ m'.alloc L = a ∧
      m'.trace = m.trace ++ buildEvents a news := by
  obtain ⟨m', h1, h2, h3, _, _, h6, h7⟩ := @bulkLoop_run T L v ω fuel 0 news news.length
    (ctor m L a) 0 L []
    (by rw [closeRing_ctor]; exact ctor_wf m a hL) (by simp) (by simpa using hnd) haddr
    (by rw [← List.range_eq_range']; exact hω) (Or.inl rfl)
  refine ⟨m', by simpa [ctorNVal] using h1, by simpa using h2,
    fun x hx => h3 rfl x (by simpa using hx), ?_, ?_⟩
  · rw [h6]; exact (ctor_frame m L a).2.2.2.2.1
  · rw [h7, (ctor_frame m L a).2.2.2.2.1, (ctor_frame m L a).2.2.2.2.2]
    simp

/-- A bulk constructor in which the construction of an element throws after `news` were
built: everything obtained is handed back and the exception leaves the constructor. -/
theorem ctorNVal_throws (m : Mem T) {L : Ptr} (a : AllocId) (v : T) (ω : Nat → Outcome)
    {fuel n : Nat} {news : List Ptr} {p : Ptr} (hL : 0 < L ∧ L < SIZE_MOD)
    (hnd : (L :: news).Nodup) (haddr : ∀ x ∈ news, 0 < x ∧ x < SIZE_MOD)
    (hω : (List.range news.length).map ω = news.map .built)
    (hk : news.length < n) (hthrow : ω news.length = .ctorThrows p)
    (hp : p ∉ L :: news) (hfuel : news.length < fuel) :
    ∃ m', ctorNVal fuel m L n v a ω = some (.threw m') ∧ WF m' L [] ∧
      m'.trace = m.trace ++ buildEvents a news ++
        [.allocate a p, .deallocate a p] ++ releaseEvents a news := by
  obtain ⟨m', h1, h2, _, _, _, _, h7⟩ := @bulkLoop_run T L v ω fuel p news n
    (ctor m L a) 0 L []
    (by rw [closeRing_ctor]; exact ctor_wf m a hL) (by simp) (by simpa using hnd) haddr
    (by rw [← List.range_eq_range']; exact hω)
    (Or.inr ⟨hk, by simpa using hthrow, by simpa using hp, by simpa using hfuel⟩)
  have hne : news.length ≠ n := Nat.ne_of_lt hk
  refine ⟨m', by simpa [ctorNVal, hne] using h1, by simpa [hne] using h2, ?_⟩
  rw [h7, (ctor_frame m L a).2.2.2.2.1, (ctor_frame m L a).2.2.2.2.2]
  simp [hne]

/-- C13: the constructors `List(n, val, alloca)` and `List(n, alloca)` (whose elements are
value-initialised, `T() = v`), called at a non-null address `L` and given `n` distinct
non-null pieces of storage `news` by the allocator with no exception thrown, return
normally (with any amount of fuel, which only the cleanup paths use) in a memory where
`L` is a well-formed ring whose nodes are `news` in order, whose element sequence, also
as read by a forward traversal, is `n` copies of `v`, and whose `size()` is `n`; the log
grows by exactly `n` `allocate` calls (one `allocate` and one `construct` per node, in
order). For `n = 0` the result is the memory that `List(alloca)` leaves: the empty list,
`begin() == end()`, size 0. -/
theorem bulk_construction_builds (m : Mem T) (L : Ptr) (a : AllocId) (v : T)
    (ω : Nat → Outcome) (fuel : Nat) (news : List Ptr)
    (hL : 0 < L ∧ L < SIZE_MOD) (hnd : (L :: news).Nodup)
    (haddr : ∀ x ∈ news, 0 < x ∧ x < SIZE_MOD)
    (hω : (List.range news.length).map ω = news.map .built) :
    (∃ m', ctorNVal fuel m L news.length v a ω = some (.ok m') ∧
      ctorN v fuel m L news.length a ω = some (.ok m') ∧
      WellFormed m' L ∧ ListOf m' L (List.replicate news.length v) ∧
      nodePtrs m' L = news ∧ size m' L = news.length ∧
      forwardElems m' L (news.length + 1) =
        some (List.replicate news.length (some v)) ∧
      m'.trace = m.trace ++ buildEvents a news ∧
      allocations m'.trace = allocations m.trace + news.length ∧
      m'.alloc L = a) ∧
    ctorNVal fuel m L 0 v a ω = some (.ok (ctor m L a)) ∧
    ctorN v fuel m L 0 a ω = some (.ok (ctor m L a)) ∧
    WellFormed (ctor m L a) L ∧ begin (ctor m L a) L = end_ L ∧
    size (ctor m L a) L = 0 ∧ empty (ctor m L a) L = true := by
  have h0 : ctorNVal fuel m L 0 v a ω = some (.ok (ctor m L a)) := by
    simp [ctorNVal, bulkLoop, closeRing_ctor]
  refine ⟨?_, h0, h0, (ctor_wf m a hL).wellFormed, ?_, ?_, ?_⟩
  · obtain ⟨m', h1, h2, h3, h4, h5⟩ := ctorNVal_ok m a v ω fuel hL hnd haddr hω
    have hlo : ListOf m' L (List.replicate news.length v) := by
      refine ListOf.intro h2 ?_
      rw [List.map_replicate]
      refine List.eq_replicate_iff.2 ⟨by simp, ?_⟩
      intro b hb
      obtain ⟨x, hx, rfl⟩ := List.mem_map.1 hb
      exact h3 x hx
    refine ⟨m', h1, h1, h2.wellFormed, hlo, h2.nodePtrs_eq, ?_, ?_, h5, ?_, h4⟩
    · simpa using hlo.size_eq
    · have := hlo.forwardElems_eq (show (List.replicate news.length v).length <
        news.length + 1 by simp)
      simpa using this
    · rw [h5, allocations_append, allocations_buildEvents]
  · simp [begin, end_, ctor, Mem.setNext, Mem.setPrev, Mem.setSz, Mem.baseInit,
      Mem.setAlloc]
  · simp [size, ctor, Mem.setNext, Mem.setPrev, Mem.setSz, Mem.baseInit, Mem.setAlloc]
  · simp [empty, ctor, Mem.setNext, Mem.setPrev, Mem.setSz, Mem.baseInit, Mem.setAlloc]

theorem bulk_construction_builds_witness :
    (∃ m', ctorNVal 0 (Mem.zero : Mem Nat) 100 [10, 11, 12].length 9 7
          (fun i => .built (10 + i)) = some (.ok m') ∧
      ctorN 9 0 (Mem.zero : Mem Nat) 100 [10, 11, 12].length 7
          (fun i => .built (10 + i)) = some (.ok m') ∧
      WellFormed m' 100 ∧ ListOf m' 100 (List.replicate [10, 11, 12].length 9) ∧
      nodePtrs m' 100 = [10, 11, 12] ∧ size m' 100 = [10, 11, 12].length ∧
      forwardElems m' 100 ([10, 11, 12].length + 1) =
        some (List.replicate [10, 11, 12].length (some 9)) ∧
      m'.trace = (Mem.zero : Mem Nat).trace ++ buildEvents 7 [10, 11, 12] ∧
      allocations m'.trace =
        allocations (Mem.zero : Mem Nat).trace + [10, 11, 12].length ∧
      m'.alloc 100 = 7) ∧
    ctorNVal 0 (Mem.zero : Mem Nat) 100 0 9 7 (fun i => .built (10 + i)) =
      some (.ok (ctor Mem.zero 100 7)) ∧
    ctorN 9 0 (Mem.zero : Mem Nat) 100 0 7 (fun i => .built (10 + i)) =
      some (.ok (ctor Mem.zero 100 7)) ∧
    WellFormed (ctor (Mem.zero : Mem Nat) 100 7) 100 ∧
    begin (ctor (Mem.zero : Mem Nat) 100 7) 100 = end_ 100 ∧
    size (ctor (Mem.zero : Mem Nat) 100 7) 100 = 0 ∧
    empty (ctor (Mem.zero : Mem Nat) 100 7) 100 = true :=
  bulk_construction_builds Mem.zero 100 7 9 (fun i => .built (10 + i)) 0 [10, 11, 12]
    (by decide) (by decide) (by decide) (by decide)

/-- When the construction of the element of node `k + 1` throws in `List(n, val, alloca)`
or `List(n, alloca)`, the handler hands back the storage of that node, `clear()` destroys
and deallocates the `k` nodes built so far, front to back, and the exception leaves the
constructor with an empty ring; the sentinel is never released. -/
theorem bulk_construct_throw_releases (m : Mem T) (L : Ptr) (a : AllocId) (v : T)
    (ω : Nat → Outcome) (fuel n : Nat) (news : List Ptr) (p : Ptr)
    (hL : 0 < L ∧ L < SIZE_MOD) (hnd : (L :: news).Nodup)
    (haddr : ∀ x ∈ news, 0 < x ∧ x < SIZE_MOD)
    (hω : (List.range news.length).map ω = news.map .built)
    (hk : news.length < n) (hthrow : ω news.length = .ctorThrows p)
    (hp : p ∉ L :: news) (hfuel : news.length < fuel) :
    ∃ m', ctorNVal fuel m L n v a ω = some (.threw m') ∧
      ctorN v fuel m L n a ω = some (.threw m') ∧
      WellFormed m' L ∧ size m' L = 0 ∧
      m'.trace = m.trace ++ buildEvents a news ++
        [.allocate a p, .deallocate a p] ++ releaseEvents a news ∧
      deallocated (m'.trace.drop m.trace.length) = p :: news ∧
      destroyed (m'.trace.drop m.trace.length) = news := by
  obtain ⟨m', h1, h2, h3⟩ := ctorNVal_throws m a v ω hL hnd haddr hω hk hthrow hp hfuel
  refine ⟨m', h1, h1, h2.wellFormed, by simpa using h2.size_eq, h3, ?_, ?_⟩
  · rw [h3]
    simp only [List.append_assoc, List.drop_left]
    rw [deallocated_append, deallocated_append, deallocated_buildEvents,
      deallocated_releaseEvents]
    rfl
  · rw [h3]
    simp only [List.append_assoc, List.drop_left]
    rw [destroyed_append, destroyed_append, destroyed_buildEvents,
      destroyed_releaseEvents]
    rfl

theorem bulk_construct_throw_releases_witness :
    ∃ m', ctorNVal 4 (Mem.zero : Mem Nat) 100 2 9 7
          (fun i => if i = 0 then .built 10 else .ctorThrows 11) = some (.threw m') ∧
      ctorN 9 4 (Mem.zero : Mem Nat) 100 2 7
          (fun i => if i = 0 then .built 10 else .ctorThrows 11) = some (.threw m') ∧
      WellFormed m' 100 ∧ size m' 100 = 0 ∧
      m'.trace = (Mem.zero : Mem Nat).trace ++ buildEvents 7 [10] ++
        [.allocate 7 11, .deallocate 7 11] ++ releaseEvents 7 [10] ∧
      deallocated (m'.trace.drop (Mem.zero : Mem Nat).trace.length) = 11 :: [10] ∧
      destroyed (m'.trace.drop (Mem.zero : Mem Nat).trace.length) = [10] :=
  bulk_construct_throw_releases Mem.zero 100 7 9
    (fun i => if i = 0 then .built 10 else .ctorThrows 11) 4 2 [10] 11
    (by decide) (by decide) (by decide) (by decide) (by decide) (by decide) (by decide)
    (by decide)

/-- C11 (the code on a failing input): `List(2, 9, alloca)` and `List(2, alloca)` at
address `100`, where the first node is built in storage `10` and the second call of
`allocate` throws. The exception leaves the constructor, but the handler is not entered
(`allocate` is called before the `try`), and the destructor that the delegating
constructor triggers runs `pop_back()` once on a sentinel whose `prev` is still the
sentinel: the sentinel `100` is passed to `destroy` and `deallocate`, node `10` is never
destroyed or deallocated, its element stays constructed and the sentinel still links to
it. When instead the construction of the second element throws, storage `11` and node
`10` are released once each and the sentinel is not touched. -/
theorem bulk_allocate_failure_leaks_nodes :
    exBulkAllocThrows.map Res.isOk = some false ∧
    exBulkAllocThrows.map (fun r => r.mem.trace) =
      some [.allocate 7 10, .construct 7 10, .destroy 7 100, .deallocate 7 100] ∧
    exBulkAllocThrows.map (fun r => deallocated r.mem.trace) = some [100] ∧
    exBulkAllocThrows.map (fun r => destroyed r.mem.trace) = some [100] ∧
    exBulkAllocThrows.map (fun r => allocations r.mem.trace) = some 1 ∧
    exBulkAllocThrows.map (fun r => r.mem.next 100) = some 10 ∧
    exBulkAllocThrows.map (fun r => r.mem.val 10) = some (some 9) ∧
    exBulkDefaultAllocThrows.map Res.isOk = some false ∧
    exBulkDefaultAllocThrows.map (fun r => r.mem.trace) =
      some [.allocate 7 10, .construct 7 10, .destroy 7 100, .deallocate 7 100] ∧
    exBulkDefaultAllocThrows.map (fun r => r.mem.next 100) = some 10 ∧
    exBulkCtorThrows.map Res.isOk = some false ∧
    exBulkCtorThrows.map (fun r => r.mem.trace) =
      some [.allocate 7 10, .construct 7 10, .allocate 7 11, .deallocate 7 11,
        .destroy 7 10, .deallocate 7 10] ∧
    exBulkCtorThrows.map (fun r => decide (ListOf r.mem 100 [])) = some true := by
  refine ⟨by decide!, by decide!, by decide!, by decide!, by decide!, by decide!,
    by decide!, by decide!, by decide!, by decide!, by decide!, by decide!, by decide!⟩

/-- C12 (the code on a failing input): copy construction at address `200` from the
well-formed list `[5, 6]` at `100`, where the first copy is built in storage `20` and the
second call of `allocate` throws. The exception leaves the constructor with node `20`
allocated and its element constructed: the handler is not entered (`allocate` is called
before the `try`) and no destructor runs, so the log of the call holds one `allocate`,
one `construct` and no `destroy` or `deallocate`. When instead the copy of the second
element throws, storage `21` and node `20` are released once each. -/
theorem copy_allocate_failure_leaks_nodes :
    ListOf exMem 100 [5, 6] ∧
    exCopyAllocThrows.map Res.isOk = some false ∧
    exCopyAllocThrows.map (fun r => r.mem.trace.drop exMem.trace.length) =
      some [.allocate 7 20, .construct 7 20] ∧
    exCopyAllocThrows.map (fun r => deallocated (r.mem.trace.drop exMem.trace.length)) =
      some [] ∧
    exCopyAllocThrows.map (fun r => destroyed (r.mem.trace.drop exMem.trace.length)) =
      some [] ∧
    exCopyAllocThrows.map (fun r => r.mem.val 20) = some (some 5) ∧
    exCopyCtorThrows.map Res.isOk = some false ∧
    exCopyCtorThrows.map (fun r => r.mem.trace.drop exMem.trace.length) =
      some [.allocate 7 20, .construct 7 20, .allocate 7 21, .deallocate 7 21,
        .destroy 7 20, .deallocate 7 20] ∧
    exCopyCtorThrows.map (fun r => r.mem.val 20) = some none := by
  refine ⟨by decide!, by decide!, by decide!, by decide!, by decide!, by decide!,
    by decide!, by decide!, by decide!⟩


/-! ## Destruction and the balance of constructions and destructions -/

/-- A well-formed list whose nodes all hold a constructed element has an element
sequence. -/
theorem listOf_of_isSome {m : Mem T} {L : Ptr} (h : WellFormed m L)
    (hv : ∀ x ∈ nodePtrs m L, (m.val x).isSome) : ∃ xs, ListOf m L xs := by
  refine ⟨(nodePtrs m L).filterMap m.val, h, ?_⟩
  unfold elems
  generalize nodePtrs m L = l at hv
  induction l with
  | nil => rfl
  | cons x l ih =>
    obtain ⟨v, hx⟩ := Option.isSome_iff_exists.1 (hv x (List.mem_cons_self _ _))
    have := ih fun y hy => hv y (List.mem_cons_of_mem _ hy)
    simp [List.filterMap_cons, hx, this]

/-- Every call appends to the log; constructions and destructions added differ by the
change of the length of the list. -/
theorem Op.run_balance {m : Mem T} {L : Ptr} {xs : List T} (h : ListOf m L xs) (op : Op T)
    (hpre : Op.pre m L op) :
    ∃ m1 ys s, op.run m L = some m1 ∧ ListOf m1 L ys ∧ m1.trace = m.trace ++ s ∧
      constructions s + xs.length = destructions s + ys.length := by
  rcases Op.run_cases h op hpre with ⟨i, v, p, hi, hp, _, hrun⟩ | ⟨i, hi, _, hrun⟩
  · obtain ⟨m', h1, h2, _, _, h5, _⟩ := h.insert_at v hi hp
    refine ⟨m', _, _, ?_, h2, h5, ?_⟩
    · rw [hrun, h1]; rfl
    · simp only [List.length_append, List.length_cons, List.length_take, List.length_drop]
      simp [constructions, destructions]
      omega
  · obtain ⟨_, _, h3, _⟩ := h.erase_at hi
    refine ⟨_, _, _, hrun, h3, erase_trace m L _, ?_⟩
    simp only [List.length_append, List.length_take, List.length_drop]
    simp [constructions, destructions]
    omega

theorem runOps_balance {L : Ptr} (ops : List (Op T)) :
    ∀ {m m' : Mem T} {xs : List T}, ListOf m L xs → runOps L m ops = some m' →
      ∃ ys s, ListOf m' L ys ∧ m'.trace = m.trace ++ s ∧
        constructions s + xs.length = destructions s + ys.length := by
  induction ops with
  | nil =>
    intro m m' xs h hr
    simp only [runOps, Option.some.injEq] at hr
    subst hr
    exact ⟨xs, [], h, by simp, by simp [constructions, destructions]⟩
  | cons op ops ih =>
    intro m m' xs h hr
    simp only [runOps] at hr
    split at hr
    · rename_i hpre
      obtain ⟨m1, ys, s, h1, h2, h3, h4⟩ := Op.run_balance h op hpre
      rw [h1] at hr
      obtain ⟨zs, s', k1, k2, k3⟩ := ih h2 hr
      refine ⟨zs, s ++ s', k1, by rw [k2, h3, List.append_assoc], ?_⟩
      rw [constructions_append, destructions_append]
      omega
    · cases hr

/-- Every constructor that returns normally leaves a well-formed list of constructed
elements, one per piece of storage, and appends one `allocate` and one `construct` per
node to the log. -/
theorem Build.run_ok {fuel : Nat} {m : Mem T} {L : Ptr} {ω : Nat → Outcome}
    {news : List Ptr} (b : Build T) (hpre : b.pre fuel m L ω news) :
    ∃ m1 xs a, b.run fuel m L ω = some (.ok m1) ∧ ListOf m1 L xs ∧
      xs.length = news.length ∧ m1.trace = m.trace ++ buildEvents a news := by
  have hbulk : ∀ (n : Nat) (v : T) (a : AllocId),
      ((0 < L ∧ L < SIZE_MOD) ∧ news.length = n ∧ (L :: news).Nodup ∧
        (∀ x ∈ news, 0 < x ∧ x < SIZE_MOD) ∧ (List.range n).map ω = news.map .built) →
      ∃ m1 xs a', ctorNVal fuel m L n v a ω = some (.ok m1) ∧ ListOf m1 L xs ∧
        xs.length = news.length ∧ m1.trace = m.trace ++ buildEvents a' news := by
    rintro n v a ⟨hL, rfl, hnd, haddr, hω⟩
    obtain ⟨m1, h1, h2, h3, _, h5⟩ := ctorNVal_ok m a v ω fuel hL hnd haddr hω
    refine ⟨m1, List.replicate news.length v, a, h1, ListOf.intro h2 ?_, by simp, h5⟩
    rw [List.map_replicate]
    refine List.eq_replicate_iff.2 ⟨by simp, ?_⟩
    intro y hy
    obtain ⟨x, hx, rfl⟩ := List.mem_map.1 hy
    exact h3 x hx
  cases b with
  | withAlloc a =>
    obtain ⟨hL, rfl⟩ := hpre
    exact ⟨ctor m L a, [], a, rfl, ctor_listOf m a hL, rfl,
      by simp [buildEvents, (ctor_frame m L a).2.2.2.2.2]⟩
  | count n dflt a =>
    obtain ⟨m1, xs, a', h⟩ := hbulk n dflt a hpre
    exact ⟨m1, xs, a', h⟩
  | countVal n v a =>
    obtain ⟨m1, xs, a', h⟩ := hbulk n v a hpre
    exact ⟨m1, xs, a', h⟩
  | copy socc other =>
    obtain ⟨hw, hv, hlen, hL, hnd, hfresh, hω, hfuel⟩ := hpre
    obtain ⟨xs, hxs⟩ := listOf_of_isSome hw hv
    have hsz := hxs.size_eq
    obtain ⟨m1, h1, _, h3, _, _, _, _, h8⟩ := copyCtor_ok socc hxs hL hnd hfresh
      (by rw [← hsz]; exact hω) (by rw [← hsz]; exact hfuel)
    exact ⟨m1, xs, _, h1, h3, by rw [hlen, hsz], h8⟩

/-- From the constructor to the end of the destructor, the log gains as many
constructions as destructions. -/
theorem life_balance {fuel f : Nat} {m0 m m' : Mem T} {L : Ptr} {ω : Nat → Outcome}
    {news : List Ptr} {b : Build T} {ops : List (Op T)}
    (hpre : b.pre f m0 L ω news) (hrun : b.thenOps f m0 L ω ops = some m)
    (hd : dtor L fuel m = some m') (hf : size m L < fuel) :
    constructions (m'.trace.drop m0.trace.length) =
      destructions (m'.trace.drop m0.trace.length) := by
  obtain ⟨m1, xs, a, h1, h2, h3, h4⟩ := Build.run_ok b hpre
  simp only [Build.thenOps, h1] at hrun
  obtain ⟨ys, s, k1, k2, k3⟩ := runOps_balance ops h2 hrun
  have hw : WF m L (nodePtrs m L) := k1.1
  obtain ⟨m'', d1, _, _, _, _, d6⟩ := dtor_ok (nodePtrs m L) m fuel hw
    (by rw [← hw.size_eq]; exact hf)
  rw [d1, Option.some.injEq] at hd
  subst hd
  rw [d6, k2, h4]
  simp only [List.append_assoc, List.drop_left]
  rw [constructions_append, constructions_append, destructions_append,
    destructions_append, constructions_buildEvents, destructions_buildEvents,
    constructions_releaseEvents, destructions_releaseEvents, List.length_reverse,
    k1.length_eq]
  omega

/-- The balance on a copy: the list at `200` copy-constructed from the list `[5, 6]` of
`exMem`, after `pop_back()` and its destructor. -/
theorem life_balance_of_copy (m' : Mem Nat) (hd : dtor 200 3 exLifeCopy = some m') :
    constructions (m'.trace.drop exMem.trace.length) =
      destructions (m'.trace.drop exMem.trace.length) :=
  @life_balance Nat 3 4 exMem exLifeCopy m' 200 (fun i => .built (20 + i)) [20, 21]
    (.copy id 100) [.pop_back] (by decide!) (Option.eq_some_of_isSome (by decide!)) hd
    (by decide!)

theorem life_balance_of_copy_witness :
    constructions (((dtor 200 3 exLifeCopy).getD Mem.zero).trace.drop exMem.trace.length) =
      destructions (((dtor 200 3 exLifeCopy).getD Mem.zero).trace.drop exMem.trace.length) :=
  life_balance_of_copy _ (Option.eq_some_of_isSome (by decide!))

/-- What the destructor appends to the log of a well-formed list. -/
theorem dtor_log {m : Mem T} {L : Ptr} {fuel : Nat} (h : WellFormed m L)
    (hf : size m L < fuel) :
    ∃ m', dtor L fuel m = some m' ∧ WF m' L [] ∧
      m'.trace.drop m.trace.length =
        releaseEvents (m.alloc L) (nodePtrs m L).reverse := by
  have hw : WF m L (nodePtrs m L) := h
  obtain ⟨m', d1, d2, _, _, _, d6⟩ := dtor_ok (nodePtrs m L) m fuel hw
    (by rw [← hw.size_eq]; exact hf)
  exact ⟨m', d1, d2, by rw [d6, List.drop_left]⟩

/-- C14 (the claim as stated fails): the list `[5, 6]` of `exMem` has the nodes `10`, `11`
in forward order; its destructor passes `11` and then `10` to `destroy` and to
`deallocate`. So it is not true of every well-formed list that the destructor releases
the nodes in the order of the forward traversal. -/
theorem destruction_order_not_front_to_back :
    WellFormed exMem 100 ∧ nodePtrs exMem 100 = [10, 11] ∧
    (dtor 100 3 exMem).map (fun m' => m'.trace.drop exMem.trace.length) =
      some [.destroy 7 11, .deallocate 7 11, .destroy 7 10, .deallocate 7 10] ∧
    (dtor 100 3 exMem).map (fun m' => destroyed (m'.trace.drop exMem.trace.length)) =
      some [11, 10] ∧
    (dtor 100 3 exMem).map (fun m' => deallocated (m'.trace.drop exMem.trace.length)) =
      some [11, 10] ∧
    ¬ ∀ (m : Mem Nat) (L : Ptr) (fuel : Nat), WellFormed m L → size m L < fuel →
      ∃ m', dtor L fuel m = some m' ∧
        m'.trace.drop m.trace.length = releaseEvents (m.alloc L) (nodePtrs m L) := by
  refine ⟨by decide!, by decide!, by decide!, by decide!, by decide!, ?_⟩
  intro hall
  obtain ⟨m', h1, h2⟩ := hall exMem 100 3 (by decide!) (by decide!)
  have h3 : (dtor 100 3 exMem).map (fun m' => m'.trace.drop exMem.trace.length) =
      some [.destroy 7 11, .deallocate 7 11, .destroy 7 10, .deallocate 7 10] := by
    decide!
  rw [h1, Option.map_some', Option.some.injEq, h2] at h3
  revert h3
  decide!

/-- C14 (amended): for every well-formed list with nodes `x1, ..., xn` in forward order,
the destructor returns (with fuel above the size) and has destroyed and deallocated the
nodes in back-to-front order `xn, ..., x1`: the log grows by `destroy xn`,
`deallocate xn`, ..., `destroy x1`, `deallocate x1`, all with the allocator of the
list. -/
theorem destruction_back_to_front (m : Mem T) (L : Ptr) (fuel : Nat)
    (h : WellFormed m L) (hf : size m L < fuel) :
    ∃ m', dtor L fuel m = some m' ∧
      m'.trace.drop m.trace.length =
        releaseEvents (m.alloc L) (nodePtrs m L).reverse ∧
      destroyed (m'.trace.drop m.trace.length) = (nodePtrs m L).reverse ∧
      deallocated (m'.trace.drop m.trace.length) = (nodePtrs m L).reverse := by
  obtain ⟨m', h1, _, h3⟩ := dtor_log h hf
  exact ⟨m', h1, h3, by rw [h3, destroyed_releaseEvents],
    by rw [h3, deallocated_releaseEvents]⟩

theorem destruction_back_to_front_witness :
    ∃ m', dtor 100 3 exMem = some m' ∧
      m'.trace.drop exMem.trace.length =
        releaseEvents (exMem.alloc 100) (nodePtrs exMem 100).reverse ∧
      destroyed (m'.trace.drop exMem.trace.length) = (nodePtrs exMem 100).reverse ∧
      deallocated (m'.trace.drop exMem.trace.length) = (nodePtrs exMem 100).reverse :=
  destruction_back_to_front exMem 100 3 (by decide!) (by decide!)

/-- C15: for every well-formed list of size `n` the destructor returns (with fuel above
`n`); the log grows by exactly `n` `destroy` and `n` `deallocate` calls and by no
`construct` or `allocate`; the addresses destroyed, and those deallocated, are the
non-sentinel nodes of the ring, each once, and never the sentinel; the list is left
empty. Consequently, whenever the list was built by a constructor that returned normally
(`List(alloca)`, `List(n, alloca)`, `List(n, val, alloca)` or `List(other)`, given fresh
storage) followed by any sequence of `push_back`, `push_front`, `insert`, `erase`,
`pop_back`, `pop_front` within their preconditions, the log from the start of the
constructor to the end of the destructor holds as many `construct` as `destroy`
calls. -/
theorem destruction_releases_each_node_once (m : Mem T) (L : Ptr) (fuel : Nat)
    (h : WellFormed m L) (hf : size m L < fuel) :
    ∃ m', dtor L fuel m = some m' ∧
      destructions (m'.trace.drop m.trace.length) = size m L ∧
      deallocations (m'.trace.drop m.trace.length) = size m L ∧
      constructions (m'.trace.drop m.trace.length) = 0 ∧
      allocations (m'.trace.drop m.trace.length) = 0 ∧
      (destroyed (m'.trace.drop m.trace.length)).Perm (nodePtrs m L) ∧
      (deallocated (m'.trace.drop m.trace.length)).Perm (nodePtrs m L) ∧
      (destroyed (m'.trace.drop m.trace.length)).Nodup ∧
      (deallocated (m'.trace.drop m.trace.length)).Nodup ∧
      L ∉ destroyed (m'.trace.drop m.trace.length) ∧
      L ∉ deallocated (m'.trace.drop m.trace.length) ∧
      WellFormed m' L ∧ size m' L = 0 ∧
      ∀ (m0 : Mem T) (ω : Nat → Outcome) (news : List Ptr) (b : Build T)
        (ops : List (Op T)) (f : Nat),
        b.pre f m0 L ω news → b.thenOps f m0 L ω ops = some m →
        constructions (m'.trace.drop m0.trace.length) =
          destructions (m'.trace.drop m0.trace.length) := by
  have hw : WF m L (nodePtrs m L) := h
  have hnd : (nodePtrs m L).reverse.Nodup :=
    List.nodup_reverse.2 (List.nodup_cons.1 hw.nodup).2
  have hL : L ∉ (nodePtrs m L).reverse := by
    simpa using (List.nodup_cons.1 hw.nodup).1
  obtain ⟨m', h1, h2, h3⟩ := dtor_log h hf
  refine ⟨m', h1, ?_, ?_, ?_, ?_, ?_, ?_, ?_, ?_, ?_, ?_, h2.wellFormed, h2.size_eq, ?_⟩
  · rw [h3, destructions_releaseEvents, List.length_reverse]; exact hw.size_eq.symm
  · rw [h3, deallocations_releaseEvents, List.length_reverse]; exact hw.size_eq.symm
  · rw [h3, constructions_releaseEvents]
  · rw [h3, allocations_releaseEvents]
  · rw [h3, destroyed_releaseEvents]; exact List.reverse_perm _
  · rw [h3, deallocated_releaseEvents]; exact List.reverse_perm _
  · rw [h3, destroyed_releaseEvents]; exact hnd
  · rw [h3, deallocated_releaseEvents]; exact hnd
  · rw [h3, destroyed_releaseEvents]; exact hL
  · rw [h3, deallocated_releaseEvents]; exact hL
  · intro m0 ω news b ops f hpre hrun
    exact life_balance hpre hrun h1 hf

theorem destruction_releases_each_node_once_witness :
    ∃ m', dtor 100 3 exLife = some m' ∧
      destructions (m'.trace.drop exLife.trace.length) = size exLife 100 ∧
      deallocations (m'.trace.drop exLife.trace.length) = size exLife 100 ∧
      (destroyed (m'.trace.drop exLife.trace.length)).Perm (nodePtrs exLife 100) ∧
      100 ∉ deallocated (m'.trace.drop exLife.trace.length) ∧
      size m' 100 = 0 ∧
      constructions (m'.trace.drop (Mem.zero : Mem Nat).trace.length) =
        destructions (m'.trace.drop (Mem.zero : Mem Nat).trace.length) := by
  obtain ⟨m', h1, h2, h3, _, _, h6, _, _, _, _, h11, _, h13, h14⟩ :=
    destruction_releases_each_node_once exLife 100 3 (by decide!) (by decide!)
  exact ⟨m', h1, h2, h3, h6, h11, h13,
    h14 Mem.zero (fun i => .built (10 + i)) [10, 11] (.countVal 2 9 7)
      [.push_back 5 20, .pop_front] 4 (by decide!)
      (Option.eq_some_of_isSome (by decide!))⟩


/-! ## The arena -/

theorem sub_mod_size {a b : Nat} (h : b ≤ a) (ha : a < SIZE_MOD) :
    (a + SIZE_MOD - b) % SIZE_MOD = a - b := by
  unfold SIZE_MOD at *
  omega

/-- The padding that `std::align` inserts is below the alignment and makes the address
a multiple of it. -/
theorem align_padding {A : Nat} (hA : 0 < A) (c : Nat) :
    (A - c % A) % A < A ∧ A ∣ c + (A - c % A) % A := by
  refine ⟨Nat.mod_lt _ hA, ?_⟩
  have h1 : c % A < A := Nat.mod_lt _ hA
  by_cases h0 : c % A = 0
  · rw [h0, Nat.sub_zero, Nat.mod_self, Nat.add_zero]
    exact Nat.dvd_of_mod_eq_zero h0
  · rw [Nat.mod_eq_of_lt (by omega)]
    have h2 := Nat.div_add_mod c A
    refine ⟨c / A + 1, ?_⟩
    rw [Nat.mul_add, Nat.mul_one]
    omega

/-- An aligned address needs no padding. -/
theorem align_padding_zero {A c : Nat} (h : A ∣ c) : (A - c % A) % A = 0 := by
  rw [Nat.mod_eq_zero_of_dvd h, Nat.sub_zero, Nat.mod_self]

/-- `alloc` on a storage whose remaining capacity is within the buffer, for a request
within the remaining capacity: the request is served at the first aligned address from
the cursor when twice the size plus the padding fits, and refused otherwise; the size is
charged in both cases. -/
theorem StackStorage.alloc_eq {s : StackStorage} {cnt : Nat} (A : Nat)
    (hinv : s.space ≤ s.N) (hN : s.N < SIZE_MOD) (hcnt : cnt ≤ s.space) :
    s.alloc cnt A =
      if (A - s.cursor % A) % A + cnt ≤ s.space - cnt then
        (s.cursor + (A - s.cursor % A) % A,
          { s with space := s.space - cnt - (A - s.cursor % A) % A })
      else (0, { s with space := s.space - cnt }) := by
  have h1 : (s.space + SIZE_MOD - cnt) % SIZE_MOD = s.space - cnt :=
    sub_mod_size hcnt (Nat.lt_of_le_of_lt hinv hN)
  simp only [StackStorage.alloc, StackStorage.cursor, stdAlign, h1]
  split <;> rfl

theorem StackStorage.cursor_eq {s : StackStorage} (hinv : s.space ≤ s.N)
    (hN : s.N < SIZE_MOD) : s.cursor = s.data + (s.N - s.space) := by
  rw [StackStorage.cursor, sub_mod_size hinv hN]

/-- One call within the remaining capacity: the buffer stays the same, the remaining
capacity does not grow and stays within the buffer, the cursor does not move back, and
a region that was returned lies between the old and the new cursor. -/
theorem StackStorage.alloc_step {s : StackStorage} {cnt : Nat} (A : Nat)
    (hinv : s.space ≤ s.N) (hN : s.N < SIZE_MOD) (hcnt : cnt ≤ s.space) :
    (s.alloc cnt A).2.data = s.data ∧ (s.alloc cnt A).2.N = s.N ∧
      (s.alloc cnt A).2.space ≤ s.space ∧ (s.alloc cnt A).2.space ≤ s.N ∧
      s.cursor ≤ (s.alloc cnt A).2.cursor ∧
      ((s.alloc cnt A).1 ≠ 0 →
        s.cursor ≤ (s.alloc cnt A).1 ∧
        (s.alloc cnt A).1 + cnt ≤ (s.alloc cnt A).2.cursor ∧
        (s.alloc cnt A).1 + cnt ≤ s.data + s.N) := by
  have hc := StackStorage.cursor_eq hinv hN
  rw [StackStorage.alloc_eq A hinv hN hcnt]
  generalize (A - s.cursor % A) % A = d
  split
  · rename_i hfit
    have hinv' : s.space - cnt - d ≤ s.N := by omega
    refine ⟨rfl, rfl, by simp only; omega, hinv', ?_, fun _ => ⟨by simp, ?_, ?_⟩⟩
    · rw [@StackStorage.cursor_eq ⟨s.data, s.N, _⟩ hinv' hN, hc]
      simp only
      omega
    · rw [@StackStorage.cursor_eq ⟨s.data, s.N, _⟩ hinv' hN, hc]
      simp only
      omega
    · simp only
      rw [hc]
      omega
  · have hinv' : s.space - cnt ≤ s.N := by omega
    refine ⟨rfl, rfl, by simp only; omega, hinv', ?_, fun h => absurd rfl h⟩
    rw [@StackStorage.cursor_eq ⟨s.data, s.N, _⟩ hinv' hN, hc]
    simp only
    omega

/-- A returned pointer is a multiple of the alignment. -/
theorem StackStorage.alloc_dvd {s : StackStorage} {cnt A : Nat} (hA : 0 < A)
    (hinv : s.space ≤ s.N) (hN : s.N < SIZE_MOD) (hcnt : cnt ≤ s.space)
    (hp : (s.alloc cnt A).1 ≠ 0) : A ∣ (s.alloc cnt A).1 := by
  rw [StackStorage.alloc_eq A hinv hN hcnt] at hp ⊢
  split
  · exact (align_padding hA _).2
  · rename_i h
    rw [if_neg h] at hp
    exact absurd rfl hp

/-- A request within the remaining capacity is served exactly when twice its size plus
the alignment padding fits into the remaining capacity. -/
theorem StackStorage.alloc_serves_iff (s : StackStorage) (cnt A : Nat)
    (hinv : s.space ≤ s.N) (hN : s.N < SIZE_MOD) (hcnt : cnt ≤ s.space)
    (hdata : 0 < s.data) :
    (s.alloc cnt A).1 ≠ 0 ↔ (A - s.cursor % A) % A + 2 * cnt ≤ s.space := by
  have hc := StackStorage.cursor_eq hinv hN
  rw [StackStorage.alloc_eq A hinv hN hcnt]
  generalize (A - s.cursor % A) % A = d
  split
  · rename_i h
    refine ⟨fun _ => by omega, fun _ => ?_⟩
    simp only
    omega
  · rename_i h
    refine ⟨fun h' => absurd rfl h', fun h' => absurd (by omega) h⟩

theorem StackStorage.alloc_serves_iff_witness :
    ((StackStorage.fresh 4096 16).alloc 8 8).1 ≠ 0 ↔
      (8 - (StackStorage.fresh 4096 16).cursor % 8) % 8 + 2 * 8 ≤
        (StackStorage.fresh 4096 16).space :=
  StackStorage.alloc_serves_iff (StackStorage.fresh 4096 16) 8 8 (by decide) (by decide!)
    (by decide) (by decide)

/-- The requests of the claim on a storage with exactly room for `k + 1` of them: the
first `k` are served back to back and the last one is refused, leaving capacity 0. -/
theorem StackStorage.exact_capacity_run {S A : Nat} (hS : 0 < S) (hAS : A ∣ S) :
    ∀ (k : Nat) (s : StackStorage), s.space ≤ s.N → s.N < SIZE_MOD → A ∣ s.cursor →
      s.space = (k + 1) * S →
      (s.allocs (List.replicate (k + 1) (S, A))).map (fun r => r.1) =
        (List.range k).map (fun i => s.cursor + i * S) ++ [0] ∧
      ((s.allocs (List.replicate (k + 1) (S, A))).map (fun r => r.2.space)).getLast? =
        some 0 := by
  intro k
  induction k with
  | zero =>
    intro s hinv hN hal hsp
    have hcnt : S ≤ s.space := by rw [hsp]; omega
    have h := StackStorage.alloc_eq A hinv hN hcnt
    rw [align_padding_zero hal, if_neg (by omega)] at h
    simp [StackStorage.allocs, h]
    omega
  | succ k ih =>
    intro s hinv hN hal hsp
    have hmul : (k + 1 + 1) * S = (k + 1) * S + S := by ring
    have hcnt : S ≤ s.space := by rw [hsp, hmul]; omega
    have h := StackStorage.alloc_eq A hinv hN hcnt
    have hk : S ≤ (k + 1) * S := Nat.le_mul_of_pos_left S (Nat.succ_pos k)
    rw [align_padding_zero hal, if_pos (by rw [hsp, hmul]; omega)] at h
    have hinv' : s.space - S - 0 ≤ s.N := by omega
    have hcur : (⟨s.data, s.N, s.space - S - 0⟩ : StackStorage).cursor = s.cursor + S := by
      rw [@StackStorage.cursor_eq ⟨s.data, s.N, _⟩ hinv' hN,
        StackStorage.cursor_eq hinv hN]
      simp only
      omega
    obtain ⟨i1, i2⟩ := ih ⟨s.data, s.N, s.space - S - 0⟩ hinv' hN
      (by rw [hcur]; exact Nat.dvd_add hal hAS) (by simp only; rw [hsp, hmul]; omega)
    rw [List.replicate_succ, StackStorage.allocs, h]
    simp only [List.map_cons, Nat.add_zero]
    refine ⟨?_, ?_⟩
    · rw [i1, hcur, List.range_succ_eq_map, List.map_cons, List.map_map]
      simp only [Nat.zero_mul, Nat.add_zero, List.cons_append, List.cons.injEq, true_and]
      congr 1
      refine List.map_congr_left fun i _ => ?_
      simp only [Function.comp, Nat.succ_eq_add_one]
      ring
    · rw [List.getLast?_cons, i2]
      rfl

/-- The arena of exact capacity refuses its last request: on a fresh `StackStorage` of
capacity `n * S` whose buffer is `A`-aligned, with `S` a positive multiple of `A`, the
`n` calls `alloc(S, A)` return `data`, `data + S`, ..., `data + (n - 2) * S` and then a
null pointer; the remaining capacity after the last call is 0. -/
theorem StackStorage.exact_capacity_refuses_last (data n S A : Nat) (hn : 0 < n)
    (hS : 0 < S) (hAS : A ∣ S) (hA : A ∣ data) (hN : n * S < SIZE_MOD) :
    ((StackStorage.fresh data (n * S)).allocs (List.replicate n (S, A))).map
        (fun r => r.1) = (List.range (n - 1)).map (fun i => data + i * S) ++ [0] ∧
      (((StackStorage.fresh data (n * S)).allocs (List.replicate n (S, A))).map
        (fun r => r.2.space)).getLast? = some 0 := by
  obtain ⟨k, rfl⟩ : ∃ k, n = k + 1 := ⟨n - 1, by omega⟩
  have hc : (StackStorage.fresh data ((k + 1) * S)).cursor = data := by
    rw [StackStorage.cursor_eq (Nat.le_refl _) hN]
    simp [StackStorage.fresh]
  have := StackStorage.exact_capacity_run hS hAS k (StackStorage.fresh data ((k + 1) * S))
    (Nat.le_refl _) hN (by rw [hc]; exact hA) rfl
  rw [hc] at this
  simpa using this

theorem StackStorage.exact_capacity_refuses_last_witness :
    ((StackStorage.fresh 4096 (3 * 8)).allocs (List.replicate 3 (8, 4))).map
        (fun r => r.1) = (List.range (3 - 1)).map (fun i => 4096 + i * 8) ++ [0] ∧
      (((StackStorage.fresh 4096 (3 * 8)).allocs (List.replicate 3 (8, 4))).map
        (fun r => r.2.space)).getLast? = some 0 :=
  StackStorage.exact_capacity_refuses_last 4096 3 8 4 (by decide) (by decide) (by decide)
    (by decide) (by decide!)


/-- C16 (the code on a failing input): a fresh `StackStorage<16>` whose buffer starts at
the aligned address `4096` serves the first `alloc(8, 8)` at `4096` and refuses the
second one (null pointer), although 8 bytes remain before that call and no padding is
needed; the remaining capacity is 0 afterwards. A fresh `StackStorage<8>` refuses its
only request `alloc(8, 8)`. A fresh `StackStorage<24>` refuses `alloc(16, 8)`, a request
of 16 bytes without padding against a remaining capacity of 24. -/
theorem exact_capacity_last_request_refused :
    exArena.map (fun r => r.1) = [4096, 0] ∧
    exArena.map (fun r => r.2.space) = [8, 0] ∧
    (StackStorage.fresh 4096 16).within [(8, 8), (8, 8)] ∧
    ((StackStorage.fresh 4096 8).alloc 8 8).1 = 0 ∧
    ((StackStorage.fresh 4096 8).alloc 8 8).2.space = 0 ∧
    ((StackStorage.fresh 4096 24).alloc 16 8).1 = 0 ∧
    (8 - (StackStorage.fresh 4096 24).cursor % 8) % 8 + 16 ≤
      (StackStorage.fresh 4096 24).space := by
  refine ⟨by decide!, by decide!, by decide!, by decide!, by decide!, by decide!,
    by decide!⟩

/-- C17: on a storage whose remaining capacity is within its buffer (`space ≤ N`, as in
every state reached from a fresh storage by requests within the remaining capacity), for
every `cnt` not above the remaining capacity and every power-of-two alignment `A`: when
`alloc(cnt, A)` returns a non-null pointer `p`, then `p` is a multiple of `A`, `p` is not
below the cursor `data + (N - space)` of before the call, and every address of
`[p, p + cnt)` lies in the buffer `[data, data + N)`. -/
theorem alloc_region_aligned_inside_buffer (s : StackStorage) (cnt A : Nat)
    (hA : ∃ k, A = 2 ^ k) (hinv : s.space ≤ s.N) (hN : s.N < SIZE_MOD)
    (hcnt : cnt ≤ s.space) (hp : (s.alloc cnt A).1 ≠ 0) :
    A ∣ (s.alloc cnt A).1 ∧
      s.data + (s.N - s.space) ≤ (s.alloc cnt A).1 ∧
      s.data ≤ (s.alloc cnt A).1 ∧
      (s.alloc cnt A).1 + cnt ≤ s.data + s.N ∧
      ∀ x, (s.alloc cnt A).1 ≤ x → x < (s.alloc cnt A).1 + cnt →
        s.data ≤ x ∧ x < s.data + s.N := by
  obtain ⟨k, rfl⟩ := hA
  have hdvd := StackStorage.alloc_dvd (Nat.pos_pow_of_pos k (by decide)) hinv hN hcnt hp
  obtain ⟨_, _, _, _, _, h6⟩ := StackStorage.alloc_step (2 ^ k) hinv hN hcnt
  obtain ⟨h7, _, h9⟩ := h6 hp
  rw [StackStorage.cursor_eq hinv hN] at h7
  refine ⟨hdvd, h7, by omega, h9, fun x hx1 hx2 => ⟨by omega, by omega⟩⟩

theorem alloc_region_aligned_inside_buffer_witness :
    8 ∣ ((StackStorage.mk 4096 64 60).alloc 8 8).1 ∧
      4096 + (64 - 60) ≤ ((StackStorage.mk 4096 64 60).alloc 8 8).1 ∧
      4096 ≤ ((StackStorage.mk 4096 64 60).alloc 8 8).1 ∧
      ((StackStorage.mk 4096 64 60).alloc 8 8).1 + 8 ≤ 4096 + 64 ∧
      ∀ x, ((StackStorage.mk 4096 64 60).alloc 8 8).1 ≤ x →
        x < ((StackStorage.mk 4096 64 60).alloc 8 8).1 + 8 →
        4096 ≤ x ∧ x < 4096 + 64 :=
  alloc_region_aligned_inside_buffer (StackStorage.mk 4096 64 60) 8 8 ⟨3, by decide⟩
    (by decide) (by decide!) (by decide) (by decide!)

/-- Every region a sequence of calls returns starts at or after the cursor of before the
sequence. -/
theorem StackStorage.regions_from_cursor (reqs : List (Nat × Nat)) :
    ∀ (s : StackStorage), s.space ≤ s.N → s.N < SIZE_MOD → s.within reqs →
      ∀ r ∈ s.regions reqs, r.1 ≠ 0 → s.cursor ≤ r.1 := by
  induction reqs with
  | nil =>
    intro s _ _ _ r hr
    simp [StackStorage.regions, StackStorage.allocs] at hr
  | cons req reqs ih =>
    obtain ⟨cnt, A⟩ := req
    intro s hinv hN hw r hr hne
    obtain ⟨hcnt, hw'⟩ := hw
    obtain ⟨h1, h2, h3, h4, h5, h6⟩ := StackStorage.alloc_step A hinv hN hcnt
    simp only [StackStorage.regions, StackStorage.allocs, List.zipWith_cons_cons,
      List.mem_cons] at hr
    rcases hr with rfl | hr
    · exact (h6 hne).1
    · exact Nat.le_trans h5 (ih _ (by rw [h2]; exact h4) (by rw [h2]; exact hN) hw' r hr hne)

/-- Regions of a sequence of calls within the remaining capacity: a later non-null region
starts at or after the end of every earlier one; the remaining capacity never grows. -/
theorem StackStorage.allocs_ordered (reqs : List (Nat × Nat)) :
    ∀ (s : StackStorage), s.space ≤ s.N → s.N < SIZE_MOD → s.within reqs →
      (s.regions reqs).Pairwise (fun x y => x.1 ≠ 0 → y.1 ≠ 0 → x.1 + x.2 ≤ y.1) ∧
      List.Chain (fun a b => b.space ≤ a.space) s ((s.allocs reqs).map (fun r => r.2)) := by
  induction reqs with
  | nil =>
    intro s _ _ _
    simp [StackStorage.regions, StackStorage.allocs]
  | cons req reqs ih =>
    obtain ⟨cnt, A⟩ := req
    intro s hinv hN hw
    obtain ⟨hcnt, hw'⟩ := hw
    obtain ⟨h1, h2, h3, h4, h5, h6⟩ := StackStorage.alloc_step A hinv hN hcnt
    have hinv' : (s.alloc cnt A).2.space ≤ (s.alloc cnt A).2.N := by rw [h2]; exact h4
    have hN' : (s.alloc cnt A).2.N < SIZE_MOD := by rw [h2]; exact hN
    obtain ⟨i1, i2⟩ := ih _ hinv' hN' hw'
    have hlow := StackStorage.regions_from_cursor reqs _ hinv' hN' hw'
    refine ⟨?_, ?_⟩
    · simp only [StackStorage.regions, StackStorage.allocs, List.zipWith_cons_cons,
        List.pairwise_cons]
      refine ⟨fun r hr hx hy => ?_, i1⟩
      exact Nat.le_trans (h6 hx).2.1 (hlow r hr hy)
    · simp only [StackStorage.allocs, List.map_cons, List.chain_cons]
      exact ⟨h3, i2⟩

/-- C18: for every sequence of `alloc` calls on a storage whose remaining capacity is
within its buffer (a fresh storage in particular), each request not above the capacity
remaining at the time of its call: of any two regions `[p_i, p_i + cnt_i)` and
`[p_j, p_j + cnt_j)` returned non-null by an earlier and a later call, the later one
starts at or after the end of the earlier one, so no address lies in both; and the
remaining capacity after each call is at most the one before it. -/
theorem arena_regions_never_overlap (s : StackStorage) (reqs : List (Nat × Nat))
    (hinv : s.space ≤ s.N) (hN : s.N < SIZE_MOD) (hreq : s.within reqs) :
    (s.regions reqs).length = reqs.length ∧
    (s.regions reqs).Pairwise (fun x y => x.1 ≠ 0 → y.1 ≠ 0 →
      x.1 + x.2 ≤ y.1 ∧ ∀ a, ¬ ((x.1 ≤ a ∧ a < x.1 + x.2) ∧ (y.1 ≤ a ∧ a < y.1 + y.2))) ∧
    List.Chain (fun a b => b.space ≤ a.space) s ((s.allocs reqs).map (fun r => r.2)) := by
  obtain ⟨h1, h2⟩ := StackStorage.allocs_ordered reqs s hinv hN hreq
  refine ⟨?_, h1.imp ?_, h2⟩
  · have hlen : ∀ (reqs : List (Nat × Nat)) (s : StackStorage),
        (s.allocs reqs).length = reqs.length := by
      intro reqs
      induction reqs with
      | nil => intro s; rfl
      | cons req reqs ih =>
        intro s
        simp [StackStorage.allocs, ih]
    simp [StackStorage.regions, hlen]
  · intro x y hxy hx hy
    have := hxy hx hy
    exact ⟨this, fun a ha => by omega⟩

theorem arena_regions_never_overlap_witness :
    ((StackStorage.fresh 4097 64).regions [(3, 1), (8, 8), (4, 4), (40, 16)]).length =
      [(3, 1), (8, 8), (4, 4), (40, 16)].length ∧
    ((StackStorage.fresh 4097 64).regions [(3, 1), (8, 8), (4, 4), (40, 16)]).Pairwise
      (fun x y => x.1 ≠ 0 → y.1 ≠ 0 →
        x.1 + x.2 ≤ y.1 ∧
          ∀ a, ¬ ((x.1 ≤ a ∧ a < x.1 + x.2) ∧ (y.1 ≤ a ∧ a < y.1 + y.2))) ∧
    List.Chain (fun a b => b.space ≤ a.space) (StackStorage.fresh 4097 64)
      (((StackStorage.fresh 4097 64).allocs [(3, 1), (8, 8), (4, 4), (40, 16)]).map
        (fun r => r.2)) :=
  arena_regions_never_overlap (StackStorage.fresh 4097 64)
    [(3, 1), (8, 8), (4, 4), (40, 16)] (by decide) (by decide!) (by decide!)

/-- C19: for two handles `a`, `b` of type `StackAllocator<T, N>`, `a == b` holds exactly
when they refer to the same `StackStorage`, and `a != b` is its negation; handles built
over storages compare equal exactly when the storages are the same object; converting a
handle to `StackAllocator<U, N>` (converting constructor or converting assignment) keeps
the storage, and converting back yields a handle equal to the original; `deallocate`
leaves every arena as it was. -/
theorem handle_equality_is_arena_identity (U : Type) (a b : StackAllocator T)
    (c : StackAllocator U) (s1 s2 : Ptr) (arenas : Ptr → StackStorage) (p n : Nat) :
    (a.eq b = true ↔ a.get_storage = b.get_storage) ∧
    a.ne b = !(a.eq b) ∧
    (a.ne b = true ↔ a.get_storage ≠ b.get_storage) ∧
    ((StackAllocator.ofStorage s1 : StackAllocator T).eq (StackAllocator.ofStorage s2) = true
      ↔ s1 = s2) ∧
    (StackAllocator.ofStorage s1 : StackAllocator T).get_storage = s1 ∧
    (StackAllocator.convert a : StackAllocator U).get_storage = a.get_storage ∧
    (c.assign a).get_storage = a.get_storage ∧
    (StackAllocator.convert (StackAllocator.convert a : StackAllocator U) :
      StackAllocator T) = a ∧
    (StackAllocator.convert (StackAllocator.convert a : StackAllocator U) :
      StackAllocator T).eq a = true ∧
    a.deallocate arenas p n = arenas := by
  refine ⟨by simp [StackAllocator.eq], rfl, by simp [StackAllocator.ne, StackAllocator.eq],
    by simp [StackAllocator.eq, StackAllocator.ofStorage, StackAllocator.get_storage],
    rfl, rfl, rfl, rfl, by simp [StackAllocator.eq, StackAllocator.convert,
      StackAllocator.get_storage], rfl⟩

end ListAlloc
